import Mathlib

/-!
The notification pipeline of gorunandcallme.

A shallow embedding of `internal/notify` (formatter, redactor, filters, alert
matcher, aggregator, dispatcher, the MarkdownV2 escaping and the proxy
authorization encoder), of `internal/util` (ANSI and progress stripping,
extended durations, sorted output) and of the line handling of
`internal/execx`, together with the properties the specification states about
them.

Conventions of the embedding

* A Go `string` and a Go `[]byte` are both a finite sequence of bytes:
  `GoString = List UInt8`.  `len` is `List.length`, `+` is `++`.
* A Go `int` is an `Int`; lengths are `Nat` and are compared with `int`s
  through the coercion.
* A nilable pointer `*T` is an `Option T`.
-/

/-- A Go string: an immutable sequence of bytes. -/
abbrev GoString := List UInt8

/-- The bytes of an ASCII literal of the source. -/
def ascii (s : String) : GoString := s.toList.map (fun c => UInt8.ofNat c.toNat)

/-- The newline literal `"\n"`. -/
def nl : GoString := [10]

namespace strings

/-- Go `strings.Join(elems, sep)`. -/
def Join : List GoString → GoString → GoString
  | [], _ => []
  | [a], _ => a
  | a :: b :: rest, sep => a ++ sep ++ Join (b :: rest) sep

/-- The scan of `strings.ToLower`: `skip` counts the continuation bytes of a
rune already lowered that are still to be passed over. -/
def ToLower.go : Nat → GoString → GoString
  | _, [] => []
  | skip + 1, _ :: rest => ToLower.go skip rest
  | 0, b :: rest =>
    if b = 0xC4 ∧ rest.take 1 = [0xB0] then 0x69 :: ToLower.go 1 rest
    else if b = 0xE2 ∧ rest.take 2 = [0x84, 0xAA] then 0x6B :: ToLower.go 2 rest
    else (if 65 ≤ b.toNat ∧ b.toNat ≤ 90 then UInt8.ofNat (b.toNat + 32) else b)
      :: ToLower.go 0 rest

/-- Go `strings.ToLower`.  ASCII capitals are lowered; the two non-ASCII runes
whose lower case is an ASCII letter (U+0130 and U+212A) are lowered as Go does;
every other byte is kept, which agrees with Go on every comparison of the
result with an ASCII literal. -/
def ToLower (s : GoString) : GoString := ToLower.go 0 s

/-- The UTF-8 encodings of the runes for which Go `unicode.IsSpace` holds. -/
def spaces : List GoString :=
  [[9], [10], [11], [12], [13], [32], [0xC2, 0x85], [0xC2, 0xA0], [0xE1, 0x9A, 0x80],
   [0xE2, 0x80, 0x80], [0xE2, 0x80, 0x81], [0xE2, 0x80, 0x82], [0xE2, 0x80, 0x83],
   [0xE2, 0x80, 0x84], [0xE2, 0x80, 0x85], [0xE2, 0x80, 0x86], [0xE2, 0x80, 0x87],
   [0xE2, 0x80, 0x88], [0xE2, 0x80, 0x89], [0xE2, 0x80, 0x8A], [0xE2, 0x80, 0xA8],
   [0xE2, 0x80, 0xA9], [0xE2, 0x80, 0xAF], [0xE2, 0x81, 0x9F], [0xE3, 0x80, 0x80]]

/-- Remove every leading occurrence of one of the words `ws`. -/
def trimLeading (ws : List GoString) : Nat → GoString → GoString
  | 0, s => s
  | n + 1, s =>
    match ws.find? (fun w => w.isPrefixOf s) with
    | some w => trimLeading ws n (s.drop w.length)
    | none => s

/-- Go `strings.TrimSpace`: leading and trailing white space removed. -/
def TrimSpace (s : GoString) : GoString :=
  let l := trimLeading spaces s.length s
  (trimLeading (spaces.map List.reverse) l.length l.reverse).reverse

/-- Go `strings.HasPrefix`. -/
def HasPrefix (s pre : GoString) : Bool := pre.isPrefixOf s

end strings

namespace fmt

/-- The verb `%d` of `fmt.Sprintf` on a non-negative integer. -/
def d (n : Nat) : GoString := ascii (Nat.repr n)

/-- The verb `%03d` of `fmt.Sprintf` on a non-negative integer: decimal,
padded with zeros on the left to width 3. -/
def d03 (n : Nat) : GoString :=
  List.replicate (3 - (d n).length) 48 ++ d n

end fmt

namespace utf8

/-- Whether `b` is a UTF-8 continuation byte in the range `lo..hi`. -/
def inRange (b : UInt8) (lo hi : Nat) : Bool := decide (lo ≤ b.toNat ∧ b.toNat ≤ hi)

/-- The width returned by Go `utf8.DecodeRuneInString`: 0 on the empty string,
the length of the first rune when it is well formed, and 1 on an invalid
encoding. -/
def DecodeRuneWidth : GoString → Nat
  | [] => 0
  | b0 :: rest =>
    let n := b0.toNat
    let c (i lo hi : Nat) : Bool := match rest.get? i with
      | some b => inRange b lo hi
      | none => false
    if n < 0x80 then 1
    else if 0xC2 ≤ n ∧ n ≤ 0xDF then (if c 0 0x80 0xBF then 2 else 1)
    else if n = 0xE0 then (if c 0 0xA0 0xBF ∧ c 1 0x80 0xBF then 3 else 1)
    else if n = 0xED then (if c 0 0x80 0x9F ∧ c 1 0x80 0xBF then 3 else 1)
    else if 0xE1 ≤ n ∧ n ≤ 0xEF then (if c 0 0x80 0xBF ∧ c 1 0x80 0xBF then 3 else 1)
    else if n = 0xF0 then (if c 0 0x90 0xBF ∧ c 1 0x80 0xBF ∧ c 2 0x80 0xBF then 4 else 1)
    else if 0xF1 ≤ n ∧ n ≤ 0xF3 then (if c 0 0x80 0xBF ∧ c 1 0x80 0xBF ∧ c 2 0x80 0xBF then 4 else 1)
    else if n = 0xF4 then (if c 0 0x80 0x8F ∧ c 1 0x80 0xBF ∧ c 2 0x80 0xBF then 4 else 1)
    else 1

end utf8

/-! ## The `regexp` package

The repository uses three entry points of Go's `regexp`: `Compile`,
`MatchString` and `ReplaceAllString`.  A compiled expression is modelled by
the one primitive both are written with in the library, the search
`doExecute(src, pos)` for the leftmost match starting at or after `pos`.
`Compile` itself (the parser) is a parameter of the constructors below. -/

namespace regexp

/-- A compiled regular expression: `exec src pos` is the library's search from
byte offset `pos`, returning the bounds `[a0, a1)` of the leftmost match. -/
structure Regexp where
  exec : GoString → Nat → Option (Nat × Nat)

/-- Go `(*Regexp).MatchString`: `doExecute(s, 0) != nil`. -/
def Regexp.MatchString (re : Regexp) (s : GoString) : Bool :=
  (re.exec s 0).isSome

/-- The loop of the library's `replaceAll`, with a literal replacement.  Every
iteration moves `searchPos` forward, so `len(src) + 2` iterations are never
exceeded by a search that reports matches at or after `searchPos`; `fuel`
bounds the iterations. -/
def replaceAll.loop (re : Regexp) (src repl : GoString) :
    Nat → Nat → Nat → GoString → GoString
  | 0, lastMatchEnd, _, buf => buf ++ src.drop lastMatchEnd
  | fuel + 1, lastMatchEnd, searchPos, buf =>
    if searchPos ≤ src.length then
      match re.exec src searchPos with
      | none => buf ++ src.drop lastMatchEnd
      | some (a0, a1) =>
        -- copy the unmatched characters before this match: src[lastMatchEnd:a0]
        let buf1 := buf ++ (src.drop lastMatchEnd).take (a0 - lastMatchEnd)
        -- no replacement for an empty match right after another match
        let buf2 := if a1 > lastMatchEnd ∨ a0 = 0 then buf1 ++ repl else buf1
        let width := utf8.DecodeRuneWidth (src.drop searchPos)
        let searchPos1 :=
          if searchPos + width > a1 then searchPos + width
          else if searchPos + 1 > a1 then searchPos + 1
          else a1
        replaceAll.loop re src repl fuel a1 searchPos1 buf2
    else buf ++ src.drop lastMatchEnd

/-- Go `(*Regexp).ReplaceAllString(src, repl)` for a replacement text without
`$` (such a text is inserted literally). -/
def Regexp.ReplaceAllString (re : Regexp) (src repl : GoString) : GoString :=
  replaceAll.loop re src repl (src.length + 2) 0 0 []

/-- The syntax of the expressions used in the examples: the empty expression,
a byte class, concatenation, ordered alternation and the greedy star. -/
inductive Re where
  | empty : Re
  | cls : (UInt8 → Bool) → Re
  | cat : Re → Re → Re
  | alt : Re → Re → Re
  | star : Re → Re

/-- Greedy iteration of a matcher `step`: prefer one more (non-empty)
iteration, otherwise stop here. -/
def Re.iterate (step : GoString → List GoString) : Nat → GoString → List GoString
  | 0, s => [s]
  | n + 1, s =>
    ((step s).filter (fun t => decide (t.length < s.length))).flatMap (Re.iterate step n) ++ [s]

/-- All ways `re` matches at the start of `s`, as the list of the remainders
left after the match, most preferred first (leftmost-first semantics). -/
def Re.run : Re → GoString → List GoString
  | .empty, s => [s]
  | .cls p, s => match s with
    | [] => []
    | b :: t => if p b then [t] else []
  | .cat a b, s => (Re.run a s).flatMap (Re.run b)
  | .alt a b, s => Re.run a s ++ Re.run b s
  | .star a, s => Re.iterate (Re.run a) s.length s

/-- The expression matching exactly the literal `lit`. -/
def Re.lit : GoString → Re
  | [] => .empty
  | b :: rest => .cat (.cls (fun x => x == b)) (Re.lit rest)

/-- The expression `a+`. -/
def Re.plus (a : Re) : Re := .cat a (.star a)

/-- The search from `pos` for `n + 1` candidate start offsets. -/
def Re.search (re : Re) (src : GoString) : Nat → Nat → Option (Nat × Nat)
  | 0, _ => none
  | n + 1, pos =>
    match Re.run re (src.drop pos) with
    | t :: _ => some (pos, src.length - t.length)
    | [] => Re.search re src n (pos + 1)

/-- The compiled form of an expression: search the start offsets
`pos, pos+1, ..., len(src)` in order and take the preferred match at the first
offset that has one. -/
def Re.compile (re : Re) : Regexp :=
  { exec := fun src pos => Re.search re src (src.length + 1 - pos) pos }

/-- The class `\S` on bytes: everything but tab, newline, form feed, carriage
return and space. -/
def notSpace (b : UInt8) : Bool :=
  !(b == 9 || b == 10 || b == 12 || b == 13 || b == 32)

/-- The class `\s`: tab, newline, form feed, carriage return and space. -/
def isSpace (b : UInt8) : Bool :=
  b == 9 || b == 10 || b == 12 || b == 13 || b == 32

/-- The expression `a?`. -/
def Re.opt (a : Re) : Re := .alt a .empty

/-- Ordered alternation of a list of expressions. -/
def Re.alts : List Re → Re
  | [] => .cls (fun _ => false)
  | [a] => a
  | a :: rest => .alt a (Re.alts rest)

/-- One ASCII byte under the flag `(?i)`: a letter matches in both cases, and
`k` and `s` also match the other members of their fold orbits, U+212A and
U+017F. -/
def Re.fold (b : UInt8) : Re :=
  let n := b.toNat
  let lower := if 65 ≤ n ∧ n ≤ 90 then n + 32 else n
  if 97 ≤ lower ∧ lower ≤ 122 then
    let both : Re := .cls (fun x => x.toNat == lower || x.toNat == lower - 32)
    if lower = 107 then .alt both (Re.lit [0xE2, 0x84, 0xAA])
    else if lower = 115 then .alt both (Re.lit [0xC5, 0xBF])
    else both
  else .cls (fun x => x == b)

/-- A literal under the flag `(?i)`. -/
def Re.litFold : GoString → Re
  | [] => .empty
  | b :: rest => .cat (Re.fold b) (Re.litFold rest)

end regexp

namespace notify

/-! ## format.go -/

/-- `WrapCodeBlockMarkdown` of format.go. -/
def WrapCodeBlockMarkdown (text : GoString) : GoString :=
  ascii "```\n" ++ text ++ ascii "\n```"

/-- `HeadLines` of format.go; `lines[:n]` is `take n`. -/
def HeadLines (lines : List GoString) (n : Int) : List GoString :=
  if n ≤ 0 ∨ n ≥ (lines.length : Int) then lines
  else lines.take n.toNat

/-- `TailLines` of format.go; `lines[len(lines)-n:]` is `drop (len - n)`. -/
def TailLines (lines : List GoString) (n : Int) : List GoString :=
  if n ≤ 0 ∨ n ≥ (lines.length : Int) then lines
  else lines.drop (lines.length - n.toNat)

/-- `JoinLines` of format.go. -/
def JoinLines (lines : List GoString) : GoString :=
  strings.Join lines nl

/-- The loop state of `BuildAttachmentParts`: the parts closed so far and the
contents of the `bytes.Buffer` being filled. -/
structure PartsState where
  parts : List GoString
  buf : GoString
deriving Repr, DecidableEq

/-- One iteration of the `for _, l := range lines` loop of
`BuildAttachmentParts`. -/
def BuildAttachmentParts.step (maxBytes : Int) (st : PartsState) (l : GoString) : PartsState :=
  let line := l ++ nl
  let st1 : PartsState :=
    if ((st.buf.length : Int) + (line.length : Int) > maxBytes ∧ st.buf.length > 0) then
      { parts := st.parts ++ [st.buf], buf := [] }
    else st
  if ((line.length : Int) > maxBytes ∧ st1.buf.length = 0) then
    { parts := st1.parts ++ [line], buf := st1.buf }
  else
    { parts := st1.parts, buf := st1.buf ++ line }

/-- `BuildAttachmentParts` of format.go. -/
def BuildAttachmentParts (lines : List GoString) (maxBytes : Int) : List GoString :=
  if maxBytes ≤ 0 then [JoinLines lines ++ nl]
  else
    let st := lines.foldl (BuildAttachmentParts.step maxBytes) { parts := [], buf := [] }
    if st.buf.length > 0 then st.parts ++ [st.buf] else st.parts

/-- `Summary` of format.go. -/
def Summary (lines : List GoString) (top : Int) : GoString :=
  let top := if top ≤ 0 then 30 else top
  let n := lines.length
  if n = 0 then ascii "No output captured."
  else
    let show_ := if (lines.length : Int) > top then lines.take top.toNat else lines
    ascii "Lines: " ++ fmt.d n ++ ascii "\n\nTop " ++ fmt.d show_.length ++ ascii ":\n"
      ++ JoinLines show_


/-- A Go `error`, identified with its message. -/
abbrev Error := GoString

/-- The parser `regexp.Compile`, a parameter of the constructors. -/
abbrev Compile := GoString → Except Error regexp.Regexp

/-! ## config -/

/-- `config.NotifyTextConfig`. -/
structure NotifyTextConfig where
  Select : GoString
  HeadLines : Int
  TailLines : Int

/-- `config.NotifyAttachConfig`; the map `PartMaxBytes` is an association list,
a missing key reading as the zero value. -/
structure NotifyAttachConfig where
  Enabled : Bool
  SplitMode : GoString
  TailLines : Int
  PartMaxBytes : List (GoString × Int)

/-- `config.NotifyFilterConfig`. -/
structure NotifyFilterConfig where
  Include : List GoString
  Exclude : List GoString

/-- `config.RedactionConfig`. -/
structure RedactionConfig where
  Defaults : Bool
  Patterns : List GoString
  File : GoString

/-- `config.AlertsConfig`. -/
structure AlertsConfig where
  Patterns : List GoString
  IncludeContextLines : Int

/-- The fields of `config.NotifyConfig` read by the aggregator. -/
structure NotifyConfig where
  NotifyEach : GoString
  Mode : GoString
  Text : NotifyTextConfig
  Attach : NotifyAttachConfig

/-! ## redact.go -/

/-- The fixed redaction marker. -/
def marker : GoString := ascii "[REDACTED]"

/-- `Redactor` of redact.go. -/
structure Redactor where
  rules : List regexp.Regexp

/-- `defaultRedactions` of redact.go. -/
def defaultRedactions : List GoString :=
  [ ascii "(?i)(api[_-]?key|token|secret|password|passwd|pwd)=\\S+",
    ascii "(?i)(authorization:\\s*bearer)\\s+\\S+",
    ascii "(?i)(x-api-key:)\\s*\\S+",
    ascii "(?i)(client_secret)\\s*[:=]\\s*\\S+" ]

/-- The loops `for _, p := range ... { re, err := regexp.Compile(p); ...;
r.rules = append(r.rules, re) }` of the constructors: compile each pattern in
order and append it to `rules`, stopping at the first error. -/
def compileAppend (compile : Compile) : List GoString → List regexp.Regexp →
    Except Error (List regexp.Regexp)
  | [], rules => .ok rules
  | p :: ps, rules =>
    match compile p with
    | .error err => .error err
    | .ok re => compileAppend compile ps (rules ++ [re])

/-- What `os.Open` and the `bufio.Scanner` give for a path: the lines scanned
and the scanner's final error. -/
structure ScannedFile where
  lines : List GoString
  err : Option Error

/-- The scan loop of `Redactor.loadFile`. -/
def loadFile.scan (compile : Compile) : List GoString → List regexp.Regexp →
    Except Error (List regexp.Regexp)
  | [], rules => .ok rules
  | text :: rest, rules =>
    let line := strings.TrimSpace text
    if line = [] ∨ strings.HasPrefix line (ascii "#") then loadFile.scan compile rest rules
    else
      match compile line with
      | .error err => .error err
      | .ok re => loadFile.scan compile rest (rules ++ [re])

/-- `Redactor.loadFile` of redact.go; `open` stands for `os.Open` followed by
the scanner.  Returns the extended rule list, or the error. -/
def loadFile (compile : Compile) (open_ : GoString → Except Error ScannedFile)
    (rules : List regexp.Regexp) (path : GoString) : Except Error (List regexp.Regexp) :=
  match open_ path with
  | .error err => .error err
  | .ok f =>
    match loadFile.scan compile f.lines rules with
    | .error err => .error err
    | .ok rules1 =>
      match f.err with
      | some err => .error err
      | none => .ok rules1

/-- `NewRedactor` of redact.go. -/
def NewRedactor (compile : Compile) (open_ : GoString → Except Error ScannedFile)
    (cfg : RedactionConfig) : Except Error Redactor :=
  match (if cfg.Defaults then compileAppend compile defaultRedactions [] else .ok []) with
  | .error err => .error err
  | .ok rules0 =>
    match compileAppend compile cfg.Patterns rules0 with
    | .error err => .error err
    | .ok rules1 =>
      if cfg.File ≠ [] then
        match loadFile compile open_ rules1 cfg.File with
        | .error err => .error err
        | .ok rules2 => .ok { rules := rules2 }
      else .ok { rules := rules1 }

/-- The loop `for _, re := range r.rules { out = re.ReplaceAllString(out,
"[REDACTED]") }` of `Redactor.Apply`. -/
def Redactor.Apply.loop : List regexp.Regexp → GoString → GoString
  | [], out => out
  | re :: rest, out => Redactor.Apply.loop rest (re.ReplaceAllString out marker)

/-- `Redactor.Apply` of redact.go, on a possibly nil receiver. -/
def Redactor.Apply (r : Option Redactor) (s : GoString) : GoString :=
  match r with
  | none => s
  | some r =>
    if r.rules.length = 0 then s
    else Redactor.Apply.loop r.rules s

/-! ## filters.go -/

/-- `Filters` of filters.go (the field `include` is written `include_`, the
word being reserved). -/
structure Filters where
  include_ : List regexp.Regexp
  exclude : List regexp.Regexp

/-- `NewFilters` of filters.go. -/
def NewFilters (compile : Compile) (cfg : NotifyFilterConfig) : Except Error Filters :=
  match compileAppend compile cfg.Include [] with
  | .error err => .error err
  | .ok inc =>
    match compileAppend compile cfg.Exclude [] with
    | .error err => .error err
    | .ok exc => .ok { include_ := inc, exclude := exc }

/-- The loop `for _, r := range rs { if r.MatchString(line) { ... } }`: whether
some expression of the list matches, scanning in order and stopping at the
first match. -/
def anyMatch : List regexp.Regexp → GoString → Bool
  | [], _ => false
  | r :: rest, line => if r.MatchString line then true else anyMatch rest line

/-- `Filters.Allow` of filters.go, on a possibly nil receiver. -/
def Filters.Allow (f : Option Filters) (line : GoString) : Bool :=
  match f with
  | none => true
  | some f =>
    let excluded := anyMatch f.exclude line
    if f.include_.length > 0 then
      let ok := anyMatch f.include_ line
      if !ok then false
      else if excluded then false else true
    else if excluded then false else true

/-- `Alerts` of filters.go. -/
structure Alerts where
  patterns : List regexp.Regexp
  context : Int

/-- `NewAlerts` of filters.go. -/
def NewAlerts (compile : Compile) (cfg : AlertsConfig) : Except Error Alerts :=
  match compileAppend compile cfg.Patterns [] with
  | .error err => .error err
  | .ok ps => .ok { patterns := ps, context := cfg.IncludeContextLines }

/-- `Alerts.Match` of filters.go, on a possibly nil receiver. -/
def Alerts.Match (a : Option Alerts) (line : GoString) : Bool :=
  match a with
  | none => false
  | some a =>
    if a.patterns.length = 0 then false
    else anyMatch a.patterns line

/-- `Alerts.ContextLines` of filters.go, on a possibly nil receiver. -/
def Alerts.ContextLines (a : Option Alerts) : Int :=
  match a with
  | none => 0
  | some a => a.context


/-! ## dispatcher.go

A channel is the sequence of jobs sent on it and not yet received, with its
closed flag.  A send on a full channel waits for the receiver, so when
`enqueue` returns the job has been sent on every channel; the capacity (256)
only delays that return and is not part of the state.  `panic`s of the
runtime (send on or close of a closed channel) are the `error` of
`Except Panic`. -/

/-- The four implementations of the interface `Client` (discord.go, slack.go,
telegram.go, webhook.go); their fields are credentials and the HTTP client. -/
inductive Client where
  | discord
  | slack
  | telegram
  | webhook
deriving DecidableEq, Repr

/-- The method `Name` of the four clients. -/
def Client.Name : Client → GoString
  | .discord => ascii "discord"
  | .slack => ascii "slack"
  | .telegram => ascii "telegram"
  | .webhook => ascii "webhook"

/-- The method `MaxTextChars` of the four clients. -/
def Client.MaxTextChars : Client → Int
  | .discord => 1900
  | .slack => 3500
  | .telegram => 3800
  | .webhook => 6000

/-- The method `MaxAttachBytes` of the four clients. -/
def Client.MaxAttachBytes : Client → Int
  | .discord => 8000000
  | .slack => 20000000
  | .telegram => 45000000
  | .webhook => 10000000

/-- The closure carried by a `job` of dispatcher.go: which method of the client
it calls, with which arguments. -/
inductive job where
  | SendText (text : GoString)
  | SendFile (filename contentType data caption : GoString)
deriving DecidableEq, Repr

/-- A runtime panic, identified with its message. -/
abbrev Panic := GoString

/-- A `chan job`: the jobs sent and not yet received, oldest first, and whether
the channel has been closed. -/
structure Chan where
  buf : List job
  closed : Bool
deriving DecidableEq, Repr

/-- The send statement `ch <- j`. -/
def Chan.send (ch : Chan) (j : job) : Except Panic Chan :=
  if ch.closed then .error (ascii "send on closed channel")
  else .ok { ch with buf := ch.buf ++ [j] }

/-- The builtin `close(ch)`. -/
def Chan.close (ch : Chan) : Except Panic Chan :=
  if ch.closed then .error (ascii "close of closed channel")
  else .ok { ch with closed := true }

/-- `clientWorker` of dispatcher.go. -/
structure clientWorker where
  c : Client
  ch : Chan
deriving DecidableEq, Repr

/-- `Dispatcher` of dispatcher.go. -/
structure Dispatcher where
  workers : List clientWorker
  closed : Bool
deriving DecidableEq, Repr

/-- `NewDispatcher` of dispatcher.go, on the list `o.Clients.List`: one worker
per client, each with an empty open channel. -/
def NewDispatcher (clients : List Client) : Dispatcher :=
  { workers := clients.map (fun c => { c := c, ch := { buf := [], closed := false } }),
    closed := false }

/-- The loop `for _, w := range d.workers { w.ch <- job{fn: fn} }` of
`Dispatcher.enqueue`. -/
def Dispatcher.enqueue.loop : List clientWorker → job → Except Panic (List clientWorker)
  | [], _ => .ok []
  | w :: rest, j =>
    match w.ch.send j with
    | .error p => .error p
    | .ok ch =>
      match Dispatcher.enqueue.loop rest j with
      | .error p => .error p
      | .ok ws => .ok ({ w with ch := ch } :: ws)

/-- `Dispatcher.enqueue` of dispatcher.go: the state after and the error
returned. -/
def Dispatcher.enqueue (d : Dispatcher) (fn : job) : Except Panic (Dispatcher × Option Error) :=
  if d.closed then .ok (d, some (ascii "dispatcher closed"))
  else
    match Dispatcher.enqueue.loop d.workers fn with
    | .error p => .error p
    | .ok ws => .ok ({ d with workers := ws }, none)

/-- `Dispatcher.BroadcastText` of dispatcher.go. -/
def Dispatcher.BroadcastText (d : Dispatcher) (text : GoString) :
    Except Panic (Dispatcher × Option Error) :=
  if d.workers.length = 0 then .ok (d, some (ascii "no notification clients enabled"))
  else d.enqueue (job.SendText text)

/-- `Dispatcher.BroadcastFile` of dispatcher.go. -/
def Dispatcher.BroadcastFile (d : Dispatcher) (filename contentType data caption : GoString) :
    Except Panic (Dispatcher × Option Error) :=
  if d.workers.length = 0 then .ok (d, some (ascii "no notification clients enabled"))
  else d.enqueue (job.SendFile filename contentType data caption)

/-- The loop `for _, w := range d.workers { close(w.ch) }` of
`Dispatcher.Close`. -/
def Dispatcher.Close.loop : List clientWorker → Except Panic (List clientWorker)
  | [] => .ok []
  | w :: rest =>
    match w.ch.close with
    | .error p => .error p
    | .ok ch =>
      match Dispatcher.Close.loop rest with
      | .error p => .error p
      | .ok ws => .ok ({ w with ch := ch } :: ws)

/-- The call `d.wg.Wait()`: it returns when every worker has left its `range`
loop, that is when every job of every channel has been received. -/
def Dispatcher.wait (d : Dispatcher) : Dispatcher :=
  { d with workers := d.workers.map (fun w => { w with ch := { w.ch with buf := [] } }) }

/-- `Dispatcher.Close` of dispatcher.go. -/
def Dispatcher.Close (d : Dispatcher) : Except Panic Dispatcher :=
  if d.closed then .ok d
  else
    match Dispatcher.Close.loop d.workers with
    | .error p => .error p
    | .ok ws => .ok (Dispatcher.wait { workers := ws, closed := true })

/-- What a worker does, in order. -/
inductive Event where
  | Call (c : Client) (j : job)
  | Warn (name : GoString) (err : Error) (attempt : Int)
  | Sleep (d : Int)
deriving DecidableEq, Repr

end notify

namespace time

/-- Go `time.Millisecond`, in nanoseconds. -/
def Millisecond : Int := 1000000

end time

namespace notify

/-- The loop `for attempt := 0; attempt < 5; attempt++` of `Dispatcher.worker`
for one job, from the value `attempt`; `outcome k` is what the call `j.fn(w.c)`
of the iteration `attempt = k` returns.  The first argument bounds the
iterations; five are never exceeded. -/
def Dispatcher.worker.attempts (c : Client) (j : job) (outcome : Nat → Option Error) :
    Nat → Nat → List Event
  | 0, _ => []
  | fuel + 1, attempt =>
    if attempt < 5 then
      Event.Call c j ::
        match outcome attempt with
        | none => []
        | some err =>
          Event.Warn c.Name err ((attempt : Int) + 1)
            :: Event.Sleep ((500 + (attempt : Int) * 500) * time.Millisecond)
            :: Dispatcher.worker.attempts c j outcome fuel (attempt + 1)
    else []

/-- `Dispatcher.worker` of dispatcher.go on the jobs received from the channel,
in order; `outcome i k` is the result of the attempt `k` of the job `i`. -/
def Dispatcher.worker (c : Client) : List job → (Nat → Nat → Option Error) → List Event
  | [], _ => []
  | j :: rest, outcome =>
    Dispatcher.worker.attempts c j (outcome 0) 5 0
      ++ Dispatcher.worker c rest (fun i => outcome (i + 1))

/-- A call the aggregator makes on its dispatcher. -/
inductive Broadcast where
  | Text (text : GoString)
  | File (filename contentType data caption : GoString)
deriving DecidableEq, Repr

/-! ## aggregator.go

The aggregator's mutable fields are `lines` and `context`; every method is a
function from the state before to the state after, together with the calls it
makes on the dispatcher, in order.  `lastTick` is written and never read, and
the ticker only decides when `FlushAll("tick")` is called: both are left to the
caller.  Methods are modelled on a non-nil receiver (on a nil one they
return at once). -/

/-- `AggregatorOptions` of aggregator.go (without the UI). -/
structure AggregatorOptions where
  Config : NotifyConfig
  Redactor : Option Redactor
  Filters : Option Filters
  Alerts : Option Alerts
  Dispatch : Option Dispatcher

/-- `Aggregator` of aggregator.go; `ticker` is the period of the ticker, when
one was started. -/
structure Aggregator where
  cfg : NotifyConfig
  disp : Option Dispatcher
  red : Option Redactor
  filt : Option Filters
  alert : Option Alerts
  lines : List GoString
  context : List GoString
  ticker : Option Int

/-- `NewAggregator` of aggregator.go; `parse` stands for
`util.ParseExtendedDuration`. -/
def NewAggregator (parse : GoString → Except Error Int) (o : AggregatorOptions) :
    Except Error Aggregator :=
  let a : Aggregator :=
    { cfg := o.Config, disp := o.Dispatch, red := o.Redactor, filt := o.Filters,
      alert := o.Alerts, lines := [], context := [], ticker := none }
  if a.cfg.NotifyEach ≠ [] then
    match parse a.cfg.NotifyEach with
    | .error err => .error err
    | .ok d => if d > 0 then .ok { a with ticker := some d } else .ok a
  else .ok a

/-- What `go a.sendAlert(line, ctx)` is started with. -/
structure AlertSend where
  matched : GoString
  ctx : List GoString
deriving DecidableEq, Repr

/-- `Aggregator.OnLine` of aggregator.go: the state after, and the alert send
started, if any. -/
def Aggregator.OnLine (a : Aggregator) (stream : GoString) (line : GoString) :
    Aggregator × Option AlertSend :=
  let line := if a.red.isSome then Redactor.Apply a.red line else line
  if a.filt.isSome ∧ !(Filters.Allow a.filt line) then (a, none)
  else
    let lines := a.lines ++ [line]
    let context := a.context ++ [line]
    let context :=
      if a.alert.isSome ∧ Alerts.ContextLines a.alert > 0
          ∧ (context.length : Int) > Alerts.ContextLines a.alert then
        context.drop (context.length - (Alerts.ContextLines a.alert).toNat)
      else context
    let a1 := { a with lines := lines, context := context }
    if a.alert.isSome ∧ Alerts.Match a.alert line then
      (a1, some { matched := line, ctx := context })
    else (a1, none)

/-- `Aggregator.sendText` of aggregator.go. -/
def Aggregator.sendText (a : Aggregator) (title text : GoString) : List Broadcast :=
  if a.disp.isNone then []
  else
    let payload := title ++ nl ++ WrapCodeBlockMarkdown text
    [Broadcast.Text payload]

/-- `Aggregator.sendAlert` of aggregator.go. -/
def Aggregator.sendAlert (a : Aggregator) (matched : GoString) (ctx : List GoString) :
    List Broadcast :=
  let title := ascii "ALERT: matched output pattern"
  let body := ascii "Matched:\n" ++ matched ++ ascii "\n\nContext:\n" ++ JoinLines ctx
  a.sendText title body

/-- The byte limit computed at the start of `Aggregator.sendAttach`. -/
def Aggregator.sendAttach.max (a : Aggregator) : Int :=
  let m := a.cfg.Attach.PartMaxBytes
  let max0 := (m.lookup (ascii "webhook")).getD 0
  let max1 := if max0 ≤ 0 then 10000000 else max0
  let max2 := match m.lookup (ascii "discord") with
    | some v => if v > 0 ∧ v < max1 then v else max1
    | none => max1
  match m.lookup (ascii "telegram") with
    | some v => if v > 0 ∧ v < max2 then v else max2
    | none => max2

/-- The loop `for i, p := range parts` of `Aggregator.sendAttach`, from index
`i`; `n` is `len(parts)`. -/
def Aggregator.sendAttach.loop (title : GoString) (n : Nat) : Nat → List GoString → List Broadcast
  | _, [] => []
  | i, p :: rest =>
    let caption := title ++ ascii " (part " ++ fmt.d (i + 1) ++ ascii "/" ++ fmt.d n ++ ascii ")"
    Broadcast.File (ascii "output.part." ++ fmt.d03 (i + 1) ++ ascii ".log") (ascii "text/plain")
        p caption
      :: Aggregator.sendAttach.loop title n (i + 1) rest

/-- `Aggregator.sendAttach` of aggregator.go. -/
def Aggregator.sendAttach (a : Aggregator) (title : GoString) (lines : List GoString) :
    List Broadcast :=
  if a.disp.isNone then []
  else
    let max := Aggregator.sendAttach.max a
    if strings.ToLower a.cfg.Attach.SplitMode = ascii "tail" then
      let lines := TailLines lines a.cfg.Attach.TailLines
      let data := JoinLines lines ++ nl
      [Broadcast.File (ascii "output.log") (ascii "text/plain") data title]
    else
      let parts := BuildAttachmentParts lines max
      Aggregator.sendAttach.loop title parts.length 0 parts

/-- The part of `Aggregator.FlushAll` after the critical section: the mode
policy applied to the drained, non-empty batch `lines`. -/
def Aggregator.FlushAll.dispatch (a : Aggregator) (lines : List GoString) : List Broadcast :=
  let mode := strings.ToLower a.cfg.Mode
  if mode = ascii "summary" then
    a.sendText (ascii "Output summary") (Summary lines 30)
  else
    let sel := strings.ToLower a.cfg.Text.Select
    let selected :=
      if sel = ascii "head" then HeadLines lines a.cfg.Text.HeadLines
      else if sel = ascii "tail" then TailLines lines a.cfg.Text.TailLines
      else lines
    let text := JoinLines selected
    if mode = ascii "text-only" then
      a.sendText (ascii "Output batch") text
    else if mode = ascii "attach-only" then
      if !a.cfg.Attach.Enabled then [Broadcast.Text (WrapCodeBlockMarkdown text)]
      else a.sendAttach (ascii "Output batch") lines
    else
      if text.length > 3500 ∧ a.cfg.Attach.Enabled then a.sendAttach (ascii "Output batch") lines
      else a.sendText (ascii "Output batch") text

/-- `Aggregator.FlushAll` of aggregator.go: the state after, and the calls made
on the dispatcher. -/
def Aggregator.FlushAll (a : Aggregator) (reason : GoString) : Aggregator × List Broadcast :=
  if a.disp.isNone then (a, [])
  else
    let lines := a.lines
    let a1 := { a with lines := [] }
    if lines.length = 0 then (a1, [])
    else (a1, Aggregator.FlushAll.dispatch a1 lines)

end notify

namespace notify

/-! ## Runs of the aggregator, and the concrete configurations used in the
examples -/

/-- What the specification allows a part to be: within the budget, or a single
input line with its newline. -/
def PartOk (lines : List GoString) (maxBytes : Int) (p : GoString) : Prop :=
  (p.length : Int) ≤ maxBytes ∨ ∃ l ∈ lines, p = l ++ nl

/-- Compile each pattern of a list in order; the first error, if any. -/
def compileList (compile : Compile) : List GoString → Except Error (List regexp.Regexp)
  | [] => .ok []
  | p :: ps =>
    match compile p with
    | .error err => .error err
    | .ok re =>
      match compileList compile ps with
      | .error err => .error err
      | .ok res => .ok (re :: res)

/-- The patterns of a pattern file: each line trimmed, blank lines and lines
starting with `#` left out. -/
def filePatterns (lines : List GoString) : List GoString :=
  (lines.map strings.TrimSpace).filter
    (fun l => !(decide (l = []) || strings.HasPrefix l (ascii "#")))

/-- The rule list in registration order, as the specification words it: the
built-in defaults when enabled, then the user patterns, then the patterns of the
file. -/
def registrationOrder (compile : Compile) (open_ : GoString → Except Error ScannedFile)
    (cfg : RedactionConfig) : Except Error (List regexp.Regexp) := do
  let ds ← compileList compile (if cfg.Defaults then defaultRedactions else [])
  let us ← compileList compile cfg.Patterns
  let fs ← (if cfg.File = [] then pure [] else do
    let f ← open_ cfg.File
    let fs ← compileList compile (filePatterns f.lines)
    match f.err with
    | some err => throw err
    | none => pure fs)
  pure (ds ++ us ++ fs)

/-- The lines `OnLine` appends to the buffer for the inputs `inputs`, in order:
each input redacted, kept when the filter allows the redacted text. -/
def Aggregator.accepted (a : Aggregator) (inputs : List GoString) : List GoString :=
  inputs.filterMap (fun l =>
    if Filters.Allow a.filt (Redactor.Apply a.red l) then some (Redactor.Apply a.red l)
    else none)

/-- `OnLine` called on each `(stream, line)` of a list in turn. -/
def Aggregator.feed (a : Aggregator) : List (GoString × GoString) → Aggregator
  | [] => a
  | (stream, line) :: rest => Aggregator.feed (a.OnLine stream line).1 rest

/-- A call on the aggregator by its owner. -/
inductive Op where
  | OnLine (stream line : GoString)
  | FlushAll (reason : GoString)

/-- The state after one call. -/
def Aggregator.step (a : Aggregator) : Op → Aggregator
  | .OnLine stream line => (a.OnLine stream line).1
  | .FlushAll reason => (a.FlushAll reason).1

/-- The state after a sequence of calls. -/
def Aggregator.run (a : Aggregator) (ops : List Op) : Aggregator :=
  ops.foldl Aggregator.step a

/-- The compiled form of the pattern `key=\S+`. -/
def keyRule : regexp.Regexp :=
  regexp.Re.compile (.cat (regexp.Re.lit (ascii "key=")) (regexp.Re.plus (.cls regexp.notSpace)))

/-- The compiled form of a literal pattern. -/
def litRule (s : String) : regexp.Regexp := regexp.Re.compile (regexp.Re.lit (ascii s))

/-- The compiled forms of the four patterns of `defaultRedactions`, in order. -/
def defaultRules : List regexp.Regexp :=
  let S : regexp.Re := .cls regexp.notSpace
  let s : regexp.Re := .cls regexp.isSpace
  let fold (t : String) : regexp.Re := regexp.Re.litFold (ascii t)
  [ regexp.Re.compile
      (.cat (regexp.Re.alts
              [ .cat (fold "api")
                  (.cat (regexp.Re.opt (.cls (fun b => b == 95 || b == 45))) (fold "key")),
                fold "token", fold "secret", fold "password", fold "passwd", fold "pwd" ])
        (.cat (regexp.Re.lit (ascii "=")) (regexp.Re.plus S))),
    regexp.Re.compile
      (.cat (.cat (fold "authorization:") (.cat (.star s) (fold "bearer")))
        (.cat (regexp.Re.plus s) (regexp.Re.plus S))),
    regexp.Re.compile
      (.cat (fold "x-api-key:") (.cat (.star s) (regexp.Re.plus S))),
    regexp.Re.compile
      (.cat (fold "client_secret")
        (.cat (.star s) (.cat (.cls (fun b => b == 58 || b == 61))
          (.cat (.star s) (regexp.Re.plus S))))) ]

/-- A configuration with every field at its zero value. -/
def zeroConfig : NotifyConfig :=
  { NotifyEach := [], Mode := [],
    Text := { Select := [], HeadLines := 0, TailLines := 0 },
    Attach := { Enabled := false, SplitMode := [], TailLines := 0, PartMaxBytes := [] } }

/-- A dispatcher with one worker and an empty queue. -/
def oneWorker : Dispatcher := NewDispatcher [Client.webhook]

/-- A fresh aggregator over the zero configuration. -/
def freshAggregator (disp : Option Dispatcher) (red : Option Redactor) (filt : Option Filters)
    (alert : Option Alerts) : Aggregator :=
  { cfg := zeroConfig, disp := disp, red := red, filt := filt, alert := alert,
    lines := [], context := [], ticker := none }

/-- A fresh aggregator in mode `text-only` with the redaction rule `key=\S+`
and the exclude filter `skip`. -/
def textOnlyAggregator : Aggregator :=
  { cfg := { zeroConfig with Mode := ascii "text-only" }, disp := some oneWorker,
    red := some { rules := [keyRule] },
    filt := some { include_ := [], exclude := [litRule "skip"] },
    alert := none, lines := [], context := [], ticker := none }

/-- Three lines read from the two streams. -/
def threeInputs : List (GoString × GoString) :=
  [(ascii "stdout", ascii "found key=abc123"), (ascii "stderr", ascii "skip me"),
   (ascii "stdout", ascii "ok")]

/-- Four lines with a flush after the second. -/
def fourLinesAndFlush : List Op :=
  [.OnLine (ascii "stdout") (ascii "a"), .OnLine (ascii "stdout") (ascii "b"),
   .FlushAll (ascii "tick"), .OnLine (ascii "stderr") (ascii "c"),
   .OnLine (ascii "stdout") (ascii "d")]

/-- Whether a call on the dispatcher is a `BroadcastFile`. -/
def Broadcast.isFile : Broadcast → Bool
  | .Text _ => false
  | .File _ _ _ _ => true

/-- The lines selected for the text of a batch in `FlushAll`, by the setting
`text.select`. -/
def Aggregator.FlushAll.selected (a : Aggregator) (lines : List GoString) : List GoString :=
  if strings.ToLower a.cfg.Text.Select = ascii "head" then HeadLines lines a.cfg.Text.HeadLines
  else if strings.ToLower a.cfg.Text.Select = ascii "tail" then
    TailLines lines a.cfg.Text.TailLines
  else lines

/-- Whether the configured mode falls to the `default` case of the mode switch
of `FlushAll`, the mode `auto`. -/
def Aggregator.modeAuto (a : Aggregator) : Bool :=
  !(decide (strings.ToLower a.cfg.Mode = ascii "summary")
    || decide (strings.ToLower a.cfg.Mode = ascii "text-only")
    || decide (strings.ToLower a.cfg.Mode = ascii "attach-only"))

/-- The last `n` elements of a list, all of it when it has fewer. -/
def lastN (n : Nat) (xs : List GoString) : List GoString :=
  xs.drop (xs.length - n)

/-- The compiled form of the pattern `ERROR`. -/
def errorRule : regexp.Regexp := litRule "ERROR"

/-- A fresh aggregator with the alert pattern `ERROR` and the context size 2. -/
def alertAggregator : Aggregator :=
  freshAggregator (some oneWorker) none none (some { patterns := [errorRule], context := 2 })

/-- The default ceilings of defaults.go. -/
def defaultPartMaxBytes : List (GoString × Int) :=
  [(ascii "discord", 8000000), (ascii "telegram", 45000000), (ascii "webhook", 10000000)]

/-- The job a call on the dispatcher builds. -/
def Broadcast.job : Broadcast → job
  | .Text text => job.SendText text
  | .File filename contentType data caption => job.SendFile filename contentType data caption

/-- A call of the aggregator carried out on a dispatcher. -/
def Dispatcher.perform (d : Dispatcher) : Broadcast → Except Panic (Dispatcher × Option Error)
  | .Text text => d.BroadcastText text
  | .File filename contentType data caption => d.BroadcastFile filename contentType data caption

/-- A sequence of calls carried out in order, the errors returned being
dropped as the aggregator drops them. -/
def Dispatcher.performAll (d : Dispatcher) : List Broadcast → Except Panic Dispatcher
  | [] => .ok d
  | b :: rest =>
    match d.perform b with
    | .error p => .error p
    | .ok (d1, _) => Dispatcher.performAll d1 rest

/-- The worker `i` receives the oldest job of its channel (one iteration of
`for j := range w.ch`). -/
def receiveAt : List clientWorker → Nat → List clientWorker
  | [], _ => []
  | w :: rest, 0 => { w with ch := { w.ch with buf := w.ch.buf.tail } } :: rest
  | w :: rest, i + 1 => w :: receiveAt rest i

/-- Something that happens to a dispatcher after its construction. -/
inductive DOp where
  | Call (b : Broadcast)
  | Close
  | Receive (i : Nat)

/-- The state after one step. -/
def Dispatcher.step (d : Dispatcher) : DOp → Except Panic Dispatcher
  | .Call b =>
    match d.perform b with
    | .error p => .error p
    | .ok (d1, _) => .ok d1
  | .Close => d.Close
  | .Receive i => .ok { d with workers := receiveAt d.workers i }

/-- The state after a sequence of steps. -/
def Dispatcher.run (d : Dispatcher) : List DOp → Except Panic Dispatcher
  | [] => .ok d
  | op :: rest =>
    match d.step op with
    | .error p => .error p
    | .ok d1 => Dispatcher.run d1 rest

/-- The invariant of a dispatcher: while it is not closed, none of its channels
is closed. -/
def Dispatcher.wellFormed (d : Dispatcher) : Bool :=
  d.closed || d.workers.all (fun w => !w.ch.closed)

/-- The number of failed attempts of a job: the index of the first of the
attempts `from, from+1, ...` (at most `n` of them) that succeeds, counted from
`from`, and `n` when none does. -/
def leadingFailures (outcome : Nat → Option Error) : Nat → Nat → Nat
  | 0, _ => 0
  | n + 1, k =>
    match outcome k with
    | none => 0
    | some _ => 1 + leadingFailures outcome n (k + 1)

/-- The calls of the send function among the events of a worker. -/
def calls (evs : List Event) : List Event :=
  evs.filter (fun e => match e with
    | .Call _ _ => true
    | _ => false)

/-- The durations slept among the events of a worker, in order. -/
def sleeps : List Event → List Int
  | [] => []
  | .Sleep d :: rest => d :: sleeps rest
  | _ :: rest => sleeps rest

/-- An aggregator in the default mode (`auto`) with attachments enabled, over a
dispatcher for the clients `clients`, with the ceilings `partMax` and the
buffer `lines`. -/
def attachAggregator (clients : List Client) (partMax : List (GoString × Int))
    (lines : List GoString) : Aggregator :=
  { cfg := { zeroConfig with
      Attach := { Enabled := true, SplitMode := [], TailLines := 0, PartMaxBytes := partMax } },
    disp := some (NewDispatcher clients), red := none, filt := none, alert := none,
    lines := lines, context := [], ticker := none }

/-- The webhook ceiling read by `sendAttach`: the configured value, and
10,000,000 when it is missing or not positive. -/
def webhookCeiling (a : Aggregator) : Int :=
  if (a.cfg.Attach.PartMaxBytes.lookup (ascii "webhook")).getD 0 ≤ 0 then 10000000
  else (a.cfg.Attach.PartMaxBytes.lookup (ascii "webhook")).getD 0

/-- A line of 4,000 bytes, each the letter `a`. -/
def longLine : GoString := List.replicate 4000 97

/-- A dispatcher for discord and slack after `Close`. -/
def closedDispatcher : Dispatcher :=
  { workers := [{ c := Client.discord, ch := { buf := [], closed := true } },
                { c := Client.slack, ch := { buf := [], closed := true } }],
    closed := true }

/-- An open dispatcher for discord and slack with one job pending in each
queue. -/
def pendingDispatcher : Dispatcher :=
  { workers := [{ c := Client.discord,
                  ch := { buf := [job.SendText (ascii "one")], closed := false } },
                { c := Client.slack,
                  ch := { buf := [job.SendText (ascii "one")], closed := false } }],
    closed := false }

end notify

/-! ## More of the `strings` package -/

namespace strings

/-- The scan of `strings.LastIndex`, at byte offset `pos`; `best` is the last
offset found so far, or -1. -/
def LastIndex.go (sep : GoString) : GoString → Nat → Int → Int
  | [], pos, best => if sep = [] then (pos : Int) else best
  | b :: rest, pos, best =>
    LastIndex.go sep rest (pos + 1) (if sep.isPrefixOf (b :: rest) then (pos : Int) else best)

/-- Go `strings.LastIndex(s, sep)`: the offset of the last occurrence of `sep`
in `s`, or -1. -/
def LastIndex (s sep : GoString) : Int := LastIndex.go sep s 0 (-1)

/-- The scan of a replacement over the text, left to right; `skip` counts the
bytes of a match already replaced that are still to be passed over. At each
offset the first pair whose old text starts there is applied. -/
def Replacer.go (pairs : List (GoString × GoString)) : Nat → GoString → GoString
  | _, [] => []
  | skip + 1, _ :: rest => Replacer.go pairs skip rest
  | 0, b :: rest =>
    match pairs.find? (fun p => p.1.isPrefixOf (b :: rest)) with
    | some p => p.2 ++ Replacer.go pairs (p.1.length - 1) rest
    | none => b :: Replacer.go pairs 0 rest

/-- Go `strings.NewReplacer(oldnew...).Replace(s)` for non-empty old texts, the
pairs in argument order. -/
def Replacer.Replace (pairs : List (GoString × GoString)) (s : GoString) : GoString :=
  Replacer.go pairs 0 s

/-- Go `strings.ReplaceAll(s, old, new)` for a non-empty `old`. -/
def ReplaceAll (s old new : GoString) : GoString :=
  Replacer.go [(old, new)] 0 s

/-- Go `strings.HasSuffix`. -/
def HasSuffix (s suffix : GoString) : Bool := suffix.reverse.isPrefixOf s.reverse

/-- Go `strings.TrimSuffix`. -/
def TrimSuffix (s suffix : GoString) : GoString :=
  if HasSuffix s suffix then s.take (s.length - suffix.length) else s

/-- The first offset at which `sep` occurs in `s`, from offset `pos`. -/
def Index.go (sep : GoString) : GoString → Nat → Option Nat
  | [], pos => if sep = [] then some pos else none
  | b :: rest, pos => if sep.isPrefixOf (b :: rest) then some pos else Index.go sep rest (pos + 1)

/-- Go `strings.SplitN(s, sep, 2)` for a non-empty `sep`: the text before and
after the first occurrence of `sep`, or `s` alone. -/
def SplitN2 (s sep : GoString) : List GoString :=
  match Index.go sep s 0 with
  | some k => [s.take k, s.drop (k + sep.length)]
  | none => [s]

end strings

/-! ## util/ansi.go -/

namespace util

/-- `StripProgress` of ansi.go. -/
def StripProgress (s : GoString) : GoString :=
  let idx := strings.LastIndex s [13]
  let s1 := if idx ≥ 0 then s.drop (idx.toNat + 1) else s
  strings.ReplaceAll s1 [13] []

end util

namespace notify

/-! ## telegram.go -/

/-- The eighteen pairs given to `strings.NewReplacer` in `EscapeMarkdownV2`. -/
def markdownV2Pairs : List (GoString × GoString) :=
  [ (ascii "_", ascii "\\_"), (ascii "*", ascii "\\*"), (ascii "[", ascii "\\["),
    (ascii "]", ascii "\\]"), (ascii "(", ascii "\\("), (ascii ")", ascii "\\)"),
    (ascii "~", ascii "\\~"), (ascii "`", ascii "\\`"), (ascii ">", ascii "\\>"),
    (ascii "#", ascii "\\#"), (ascii "+", ascii "\\+"), (ascii "-", ascii "\\-"),
    (ascii "=", ascii "\\="), (ascii "|", ascii "\\|"), (ascii "\x7b", ascii "\\\x7b"),
    (ascii "\x7d", ascii "\\\x7d"), (ascii ".", ascii "\\."), (ascii "!", ascii "\\!") ]

/-- `EscapeMarkdownV2` of telegram.go. -/
def EscapeMarkdownV2 (s : GoString) : GoString :=
  strings.Replacer.Replace markdownV2Pairs s

/-- The reserved characters of MarkdownV2: `_ * [ ] ( ) ~ backtick > # + - = |`,
the two braces, `.` and `!`. -/
def reserved : List UInt8 :=
  [95, 42, 91, 93, 40, 41, 126, 96, 62, 35, 43, 45, 61, 124, 123, 125, 46, 33]

/-- The text `s` with a backslash put before each reserved character. -/
def escaped (s : GoString) : GoString :=
  s.flatMap (fun b => if b ∈ reserved then [92, b] else [b])

end notify

namespace notify

/-- The bytes of a group of lines in a part: each line followed by `"\n"`. -/
def renderLines (g : List GoString) : GoString :=
  (g.map (fun l => l ++ nl)).flatten

/-- The first line of the group `next` does not fit after the group `g` within
`maxBytes`. -/
def NotFit (maxBytes : Int) (g next : List GoString) : Prop :=
  ∀ l ∈ next.head?, ((renderLines g).length : Int) + ((l ++ nl).length : Int) > maxBytes

/-- The invariant of the loop of `BuildAttachmentParts`: the closed parts are
the groups `gs`, the buffer is the group `cur`, and each group was closed only
when the next line did not fit. -/
def GreedyInv (maxBytes : Int) (st : PartsState) (gs : List (List GoString))
    (cur : List GoString) (processed : List GoString) : Prop :=
  st.parts = gs.map renderLines ∧ st.buf = renderLines cur ∧ (∀ g ∈ gs, g ≠ []) ∧
  List.Chain' (NotFit maxBytes) gs ∧
  (∀ g ∈ gs.getLast?, NotFit maxBytes g cur) ∧
  (cur = [] → ∀ g ∈ gs.getLast?, ((renderLines g).length : Int) > maxBytes) ∧
  gs.flatten ++ cur = processed

end notify

namespace util

/-- Whether a byte lies in the range `lo..hi`. -/
def between (lo hi : Nat) (b : UInt8) : Bool := decide (lo ≤ b.toNat ∧ b.toNat ≤ hi)

/-- The compiled form of `ansiCSI`: ESC, `[`, any number of bytes `0` to `?`,
any number of bytes from the space to `/`, and one byte `@` to `~`. -/
def ansiCSI : regexp.Regexp :=
  regexp.Re.compile
    (.cat (regexp.Re.lit [0x1b, 0x5b])
      (.cat (.star (.cls (between 0x30 0x3f)))
        (.cat (.star (.cls (between 0x20 0x2f))) (.cls (between 0x40 0x7e)))))

/-- The compiled form of `ansiOSC`: ESC, `]`, any number of bytes other than
BEL, and then BEL or ESC followed by a backslash. -/
def ansiOSC : regexp.Regexp :=
  regexp.Re.compile
    (.cat (regexp.Re.lit [0x1b, 0x5d])
      (.cat (.star (.cls (fun b => !(b == 0x07))))
        (.alt (regexp.Re.lit [0x07]) (regexp.Re.lit [0x1b, 0x5c]))))

/-- The compiled form of `ansiOther`: ESC and one byte `@` to `Z` or backslash
to `_`. -/
def ansiOther : regexp.Regexp :=
  regexp.Re.compile
    (.cat (regexp.Re.lit [0x1b]) (.cls (fun b => between 0x40 0x5a b || between 0x5c 0x5f b)))

/-- `StripANSI` of ansi.go. -/
def StripANSI (s : GoString) : GoString :=
  let s1 := ansiOSC.ReplaceAllString s []
  let s2 := ansiCSI.ReplaceAllString s1 []
  let s3 := ansiOther.ReplaceAllString s2 []
  s3

/-- Go's order of strings, `a <= b`: byte-wise lexicographic. -/
def bytesLe : GoString → GoString → Bool
  | [], _ => true
  | _ :: _, [] => false
  | a :: as, b :: bs => if a.toNat < b.toNat then true else if b.toNat < a.toNat then false
      else bytesLe as bs

/-- `SortDedupLines` of words.go: the keys of the set of the lines, sorted by
`sort.Strings`. -/
def SortDedupLines (lines : List GoString) : List GoString :=
  (lines.eraseDups).insertionSort (fun a b => bytesLe a b = true)

end util

namespace event

/-- `Event` of jsonl.go (the field `Type` is written `Type_`, the word being
reserved). -/
structure Event where
  Time : GoString
  Type_ : GoString
  Stream : GoString
  JobID : GoString
  Command : GoString
  Message : GoString
  Fields : List (GoString × GoString)
deriving DecidableEq, Repr

end event

/-! ## execx: runner.go and scheduler.go

The child's output is given as the lines scanned from its two pipes, in the
order in which the two reader goroutines handle them; what the scheduler does
with them is a list of effects, in order. -/

namespace execx

/-- One of the two pipes of the child. -/
inductive Pipe where
  | stdout
  | stderr
deriving DecidableEq, Repr

/-- What the runner and the scheduler do with a line. -/
inductive Effect where
  | Mirror (dst : Pipe) (line : GoString)
  | OnLine (stream line : GoString)
  | WriteString (data : GoString)
  | Write (ev : event.Event)
deriving DecidableEq, Repr

/-- `RunnerOptions` of runner.go (without the UI). -/
structure RunnerOptions where
  MirrorToTTY : Bool
  StripANSI : Bool
  StripProgress : Bool
  AppendTextLine : GoString
  DropEmpty : Bool
  MaxLineBytes : Int

/-- The body of the scan loop of `readStream` in `RunCommand` for one line read
from the pipe `from_`, mirrored to the writer paired with that pipe. -/
def RunCommand.readLine (opt : RunnerOptions) (onLine : GoString → List Effect)
    (from_ : Pipe) (line : GoString) : List Effect :=
  let mirror := if opt.MirrorToTTY then [Effect.Mirror from_ line] else []
  let line1 := if opt.StripProgress then util.StripProgress line else line
  let line2 := if opt.StripANSI then util.StripANSI line1 else line1
  let line3 := if opt.AppendTextLine ≠ [] then opt.AppendTextLine ++ line2 else line2
  if opt.DropEmpty ∧ strings.TrimSpace line3 = [] then mirror
  else mirror ++ onLine line3

/-- `RunCommand` of runner.go on the lines read from the two pipes: both
readers are started with the same `onLine`. -/
def RunCommand (opt : RunnerOptions) (onLine : GoString → List Effect)
    (reads : List (Pipe × GoString)) : List Effect :=
  reads.flatMap (fun r => RunCommand.readLine opt onLine r.1 r.2)

/-- `SchedulerOptions` of scheduler.go; the hook and the sink are interfaces,
here whether they are set. -/
structure SchedulerOptions where
  Threads : Int
  EventSink : Bool
  NoTTY : Bool
  StripANSI : Bool
  StripProg : Bool
  NotifyHook : Bool
  OutputFile : GoString
  OutputMode : GoString

/-- The closure `onLine` of `Scheduler.Run`; `outFile` tells whether the output
file was created. -/
def Scheduler.Run.onLine (opt : SchedulerOptions) (outFile : Bool) (line : GoString) :
    List Effect :=
  (if opt.NotifyHook then [Effect.OnLine (ascii "stdout") line] else [])
  ++ (if outFile then [Effect.WriteString (line ++ nl)] else [])
  ++ (if opt.EventSink then
        [Effect.Write { Time := [], Type_ := ascii "line", Stream := ascii "stdout", JobID := [],
                        Command := [], Message := line, Fields := [] }]
      else [])

/-- `Scheduler.Run` of scheduler.go on a plan whose command was built;
`create` is the result of `os.Create` and `reads` the output of the child. -/
def Scheduler.Run (opt : SchedulerOptions) (create : Except notify.Error Unit)
    (reads : List (Pipe × GoString)) : Except notify.Error (List Effect) :=
  let wantFile := decide (strings.TrimSpace opt.OutputFile ≠ [])
  match (if wantFile then create else .ok ()) with
  | .error err => .error err
  | .ok _ =>
    .ok (RunCommand
      { MirrorToTTY := !opt.NoTTY, StripANSI := opt.StripANSI, StripProgress := opt.StripProg,
        AppendTextLine := [], DropEmpty := false, MaxLineBytes := 0 }
      (Scheduler.Run.onLine opt wantFile) reads)

/-- The stream tags handed to the notify hook, in order. -/
def hookTags : List Effect → List GoString
  | [] => []
  | .OnLine stream _ :: rest => stream :: hookTags rest
  | _ :: rest => hookTags rest

/-- The stream tags of the events written to the sink, in order. -/
def sinkTags : List Effect → List GoString
  | [] => []
  | .Write ev :: rest => ev.Stream :: sinkTags rest
  | _ :: rest => sinkTags rest

/-- The content written to the output file, in order. -/
def fileContent : List Effect → GoString
  | [] => []
  | .WriteString data :: rest => data ++ fileContent rest
  | _ :: rest => fileContent rest

/-- The options of a run with the hook, the sink and an output file, the
output mode being the default `sort-dedup`. -/
def defaultRun : SchedulerOptions :=
  { Threads := 1, EventSink := true, NoTTY := true, StripANSI := false, StripProg := true,
    NotifyHook := true, OutputFile := ascii "out.txt", OutputMode := ascii "sort-dedup" }

end execx

namespace util

/-- The text `ESC ESC [0m [0m`: a stray ESC, a CSI sequence, and the tail of
one. -/
def nestedCSI : GoString := [27, 27] ++ ascii "[0m[0m"

end util

namespace notify

/-- The bytes attached by a sequence of calls: the data of its `BroadcastFile`
calls, in order. -/
def fileData : List Broadcast → GoString
  | [] => []
  | .File _ _ data _ :: rest => data ++ fileData rest
  | .Text _ :: rest => fileData rest

/-- An aggregator in mode `attach-only` with attachments enabled and the text
selection `head` of one line, holding the two lines `a` and `b`. -/
def headSelectionAggregator : Aggregator :=
  { cfg := { NotifyEach := [], Mode := ascii "attach-only",
             Text := { Select := ascii "head", HeadLines := 1, TailLines := 0 },
             Attach := { Enabled := true, SplitMode := [], TailLines := 0,
                         PartMaxBytes := [] } },
    disp := some oneWorker, red := none, filt := none, alert := none,
    lines := [ascii "a", ascii "b"], context := [], ticker := none }

end notify

/-! ## Base64 as RFC 4648 defines it -/

namespace base64

/-- The base 64 alphabet of RFC 4648, table 1: the values 0 to 25 are `A` to
`Z`, 26 to 51 are `a` to `z`, 52 to 61 are `0` to `9`, 62 is `+` and 63 is `/`. -/
def alphabet (v : Nat) : UInt8 :=
  if v < 26 then UInt8.ofNat (65 + v)
  else if v < 52 then UInt8.ofNat (97 + (v - 26))
  else if v < 62 then UInt8.ofNat (48 + (v - 52))
  else if v = 62 then 43
  else 47

/-- The padding character `=`. -/
def pad : UInt8 := 61

/-- The standard encoding of RFC 4648, section 4: each group of three bytes is
read as four 6-bit values, most significant first; a final group of one byte
gives two characters (the missing bits zero) and `==`, a final group of two
bytes three characters and `=`. -/
def StdEncode : GoString → GoString
  | [] => []
  | [a] => [alphabet (a.toNat / 4), alphabet (a.toNat % 4 * 16), pad, pad]
  | [a, b] =>
    [alphabet (a.toNat / 4), alphabet (a.toNat % 4 * 16 + b.toNat / 16),
     alphabet (b.toNat % 16 * 4), pad]
  | a :: b :: c :: rest =>
    alphabet (a.toNat / 4) :: alphabet (a.toNat % 4 * 16 + b.toNat / 16)
      :: alphabet (b.toNat % 16 * 4 + c.toNat / 64) :: alphabet (c.toNat % 64)
      :: StdEncode rest

end base64

namespace notify

/-! ## httpclient.go -/

/-- The constant `table` of `basicAuth`. -/
def basicAuth.table : GoString :=
  ascii "ABCDEFGHIJKLMNOPQRSTUVWXYZabcdefghijklmnopqrstuvwxyz0123456789+/"

/-- The loop `for j := 0; j < 4; j++` of `basicAuth`: the four bytes
`table[(val >> (18-6*j)) & 0x3F]`. -/
def basicAuth.quad (val : Nat) : GoString :=
  (List.range 4).map (fun j => basicAuth.table.getD ((val >>> (18 - 6 * j)) &&& 0x3F) 0)

/-- The loop `for i := 0; i < len(raw); i += 3` of `basicAuth`, from the offset
`i` with the builder holding `out`; the first argument bounds the iterations,
of which there are at most `len(raw)`. -/
def basicAuth.loop (raw : GoString) : Nat → Nat → GoString → GoString
  | 0, _, out => out
  | fuel + 1, i, out =>
    if i < raw.length then
      -- b[j] = raw[i+j] while i+j < len(raw), zero otherwise; n counts the bytes read
      let b0 := (raw.getD i 0).toNat
      let b1 := (raw.getD (i + 1) 0).toNat
      let b2 := (raw.getD (i + 2) 0).toNat
      let n := min 3 (raw.length - i)
      let val := (b0 <<< 16 ||| b1 <<< 8) ||| b2
      let out1 := out ++ basicAuth.quad val
      let out2 :=
        if n < 3 then out1.take (out1.length - (3 - n)) ++ List.replicate (3 - n) 61
        else out1
      basicAuth.loop raw fuel (i + 3) out2
    else out

/-- `basicAuth` of httpclient.go. -/
def basicAuth (userpass : GoString) : GoString :=
  let parts := strings.SplitN2 userpass (ascii ":")
  if parts.length ≠ 2 then []
  else
    let raw := parts.getD 0 [] ++ ascii ":" ++ parts.getD 1 []
    basicAuth.loop raw raw.length 0 []

/-- `proxyAuthHeader` of httpclient.go; the header is the list of its entries. -/
def proxyAuthHeader (userpass : GoString) : List (GoString × GoString) :=
  let encoded := basicAuth userpass
  if encoded ≠ [] then [(ascii "Proxy-Authorization", ascii "Basic " ++ encoded)]
  else []

end notify

namespace time

/-- Go `time.Hour`, in nanoseconds. -/
def Hour : Int := 3600000000000

end time

/-! ## util/duration.go -/

/-! ## IEEE 754 binary64, the type `float64`

What `ParseExtendedDuration` and `time.ParseDuration` use of `float64`: the
conversions from and to integers, the product and the quotient, each the exact
result rounded to the nearest value, ties to even. -/

namespace ieee754

/-- A `float64` value: a finite value with its sign and its magnitude (an exact
rational number; magnitude 0 with the sign set is the negative zero), an
infinity, or NaN. -/
inductive Float64 where
  | finite (neg : Bool) (mag : ℚ)
  | inf (neg : Bool)
  | nan
deriving DecidableEq

/-- The integer nearest to `n / d`, the even one of the two when `n / d` is
half way between them. -/
def roundHalfEven (n d : Nat) : Nat :=
  let q := n / d
  let r := n % d
  if 2 * r < d then q else if d < 2 * r then q + 1 else if q % 2 = 0 then q else q + 1

/-- The exponent of the leading bit of `n / d`: the largest `l` with
`2 ^ l <= n / d`, for positive `n` and `d`. -/
def floorLog2 (n d : Nat) : Int :=
  let l : Int := (Nat.log2 n : Int) - (Nat.log2 d : Int)
  if (if 0 ≤ l then d * 2 ^ l.toNat ≤ n else d ≤ n * 2 ^ (-l).toNat) then l else l - 1

/-- The `float64` nearest to `n / d` with the sign `neg`: 53 significant bits,
the exponent of the last bit not below -1074 (subnormal values), ties to even,
and an infinity when the rounded magnitude reaches `2 ^ 1024`. -/
def round (neg : Bool) (n d : Nat) : Float64 :=
  if n = 0 then .finite neg 0
  else
    let e : Int := max (floorLog2 n d - 52) (-1074)
    let m : Nat :=
      if 0 ≤ e then roundHalfEven n (d * 2 ^ e.toNat) else roundHalfEven (n * 2 ^ (-e).toNat) d
    let v : ℚ := (m : ℚ) * (2 : ℚ) ^ e
    if (2 : ℚ) ^ (1024 : Nat) ≤ v then .inf neg else .finite neg v

/-- The `float64` nearest to the rational magnitude `q`, with the sign `neg`. -/
def ofRat (neg : Bool) (q : ℚ) : Float64 := round neg q.num.natAbs q.den

/-- The conversion `float64(x)` of an integer. -/
def ofInt (x : Int) : Float64 := round (decide (x < 0)) x.natAbs 1

/-- The product `a * b` of two `float64` values. -/
def mul : Float64 → Float64 → Float64
  | .nan, _ => .nan
  | _, .nan => .nan
  | .inf s, .inf t => .inf (s != t)
  | .inf s, .finite t b => if b = 0 then .nan else .inf (s != t)
  | .finite s a, .inf t => if a = 0 then .nan else .inf (s != t)
  | .finite s a, .finite t b => ofRat (s != t) (a * b)

/-- The quotient `a / b` of two `float64` values. -/
def div : Float64 → Float64 → Float64
  | .nan, _ => .nan
  | _, .nan => .nan
  | .inf _, .inf _ => .nan
  | .inf s, .finite t _ => .inf (s != t)
  | .finite s _, .inf t => .finite (s != t) 0
  | .finite s a, .finite t b =>
    if b = 0 then (if a = 0 then .nan else .inf (s != t)) else ofRat (s != t) (a / b)

/-- The conversion `int64(f)`, as in `time.Duration(f)`: the fraction is
discarded; for a value outside the range of `int64`, where the language leaves
the result to the implementation, the result on amd64, `-1 << 63`. -/
def toInt64 : Float64 → Int
  | .finite neg mag =>
    let t : Int := if neg then -(mag.floor) else mag.floor
    if -(2 ^ 63 : Int) ≤ t ∧ t < 2 ^ 63 then t else -(2 ^ 63)
  | _ => -(2 ^ 63)

/-- The conversion `uint64(f)`: the fraction is discarded; for a value outside
the range of `uint64` the result on amd64, `1 << 63`. -/
def toUint64 : Float64 → Nat
  | .finite neg mag =>
    if neg = false ∧ mag.floor < 2 ^ 64 then mag.floor.toNat
    else if neg = true ∧ mag < 1 then 0 else 2 ^ 63
  | _ => 2 ^ 63

end ieee754

/-! ## `time.ParseDuration` and `strconv.ParseFloat`

The two library functions `ParseExtendedDuration` calls.  Their errors are
identified by their kind: the text of the argument, which the library quotes
in the message, is left out. -/

namespace time

/-- Whether a byte is a decimal digit. -/
def isDigit (c : UInt8) : Bool := decide (48 ≤ c.toNat ∧ c.toNat ≤ 57)

/-- `leadingInt` of time/format.go, from the value `x` read so far: the value
of the leading digits of `s` and the rest of `s`; `none` is `errLeadingInt`,
the value does not fit. -/
def leadingInt : Nat → GoString → Option (Nat × GoString)
  | x, [] => some (x, [])
  | x, c :: rest =>
    if !isDigit c then some (x, c :: rest)
    else if x > 2 ^ 63 / 10 then none
    else if x * 10 + (c.toNat - 48) > 2 ^ 63 then none
    else leadingInt (x * 10 + (c.toNat - 48)) rest

/-- `leadingFraction` of time/format.go, from the state `x`, `scale`,
`overflow` of its loop: the value of the leading digits of `s` that fit, the
power of ten that scales it, and the rest of `s`. -/
def leadingFraction : Nat → ieee754.Float64 → Bool → GoString → Nat × ieee754.Float64 × GoString
  | x, scale, _, [] => (x, scale, [])
  | x, scale, overflow, c :: rest =>
    if !isDigit c then (x, scale, c :: rest)
    else if overflow then leadingFraction x scale true rest
    else if x > (2 ^ 63 - 1) / 10 then leadingFraction x scale true rest
    else if x * 10 + (c.toNat - 48) > 2 ^ 63 then leadingFraction x scale true rest
    else leadingFraction (x * 10 + (c.toNat - 48)) (ieee754.mul scale (ieee754.ofInt 10)) false rest

/-- The table `unitMap` of time/format.go, in nanoseconds: `ns`, `us`, the two
spellings of the micro sign with `s`, `ms`, `s`, `m`, `h`. -/
def unitMap (u : GoString) : Option Nat :=
  if u = ascii "ns" then some 1
  else if u = ascii "us" then some 1000
  else if u = [0xC2, 0xB5, 0x73] then some 1000
  else if u = [0xCE, 0xBC, 0x73] then some 1000
  else if u = ascii "ms" then some 1000000
  else if u = ascii "s" then some 1000000000
  else if u = ascii "m" then some 60000000000
  else if u = ascii "h" then some 3600000000000
  else none

/-- The loop `for s != ""` of `time.ParseDuration`, `d` being the sum so far,
in `uint64`; `none` is the return of an error. Every iteration consumes a
unit, so `len(s)` iterations are never exceeded; `fuel` bounds them. -/
def ParseDuration.loop : Nat → GoString → Nat → Option Nat
  | _, [], d => some d
  | 0, _ :: _, _ => none
  | fuel + 1, c :: rest, d =>
    -- the next character must be [0-9.]
    if !(c == 0x2e || isDigit c) then none
    else
      match leadingInt 0 (c :: rest) with
      | none => none
      | some (v, s1) =>
        let pre := decide ((c :: rest).length ≠ s1.length)
        let frac : Nat × ieee754.Float64 × GoString :=
          if s1.head? = some 0x2e then leadingFraction 0 (ieee754.ofInt 1) false s1.tail
          else (0, ieee754.ofInt 1, s1)
        let post := decide (s1.head? = some 0x2e ∧ s1.tail.length ≠ frac.2.2.length)
        if !pre && !post then none
        else
          let u := frac.2.2.takeWhile (fun b => !(b == 0x2e || isDigit b))
          let s3 := frac.2.2.dropWhile (fun b => !(b == 0x2e || isDigit b))
          if u = [] then none
          else
            match unitMap u with
            | none => none
            | some unit =>
              if v > 2 ^ 63 / unit then none
              else
                let v1 := v * unit
                let v2 :=
                  if frac.1 > 0 then
                    (v1 + ieee754.toUint64 (ieee754.mul (ieee754.ofInt frac.1)
                      (ieee754.div (ieee754.ofInt unit) frac.2.1))) % 2 ^ 64
                  else v1
                if frac.1 > 0 ∧ v2 > 2 ^ 63 then none
                else if (d + v2) % 2 ^ 64 > 2 ^ 63 then none
                else ParseDuration.loop fuel s3 ((d + v2) % 2 ^ 64)

/-- Go `time.ParseDuration`, the result in nanoseconds. -/
def ParseDuration (s : GoString) : Except notify.Error Int :=
  let neg := decide (s.head? = some 0x2d)
  let s1 := if s.head? = some 0x2d ∨ s.head? = some 0x2b then s.tail else s
  if s1 = ascii "0" then .ok 0
  else if s1 = [] then .error (ascii "time: invalid duration")
  else
    match ParseDuration.loop s1.length s1 0 with
    | none => .error (ascii "time: invalid duration")
    | some d =>
      if neg then .ok (-(d : Int))
      else if d > 2 ^ 63 - 1 then .error (ascii "time: invalid duration")
      else .ok (d : Int)

end time

namespace strconv

/-- `commonPrefixLenIgnoreCase` of strconv/atof.go; `prefix` is in lower
case. -/
def commonPrefixLenIgnoreCase : GoString → GoString → Nat
  | c :: s, p :: rest =>
    if (if 65 ≤ c.toNat ∧ c.toNat ≤ 90 then c + 32 else c) = p then
      1 + commonPrefixLenIgnoreCase s rest
    else 0
  | _, _ => 0

/-- The tail of `special` of strconv/atof.go that reads an infinity: the value
and the number of bytes read. -/
def special.infinity (neg : Bool) (nsign : Nat) (t : GoString) : Option (ieee754.Float64 × Nat) :=
  let n := commonPrefixLenIgnoreCase t (ascii "infinity")
  let n1 := if 3 < n ∧ n < 8 then 3 else n
  if n1 = 3 ∨ n1 = 8 then some (.inf neg, nsign + n1) else none

/-- `special` of strconv/atof.go: the infinities and NaN. -/
def special (s : GoString) : Option (ieee754.Float64 × Nat) :=
  match s with
  | [] => none
  | c :: rest =>
    if c = 0x2b ∨ c = 0x2d then special.infinity (c == 0x2d) 1 rest
    else if c = 0x69 ∨ c = 0x49 then special.infinity false 0 (c :: rest)
    else if c = 0x6e ∨ c = 0x4e then
      (if commonPrefixLenIgnoreCase (c :: rest) (ascii "nan") = 3 then some (.nan, 3) else none)
    else none

/-- The leading decimal digits of `s`: their value on top of `acc`, their
number on top of `n`, and the rest of `s`. -/
def digits : Nat → Nat → GoString → Nat × Nat × GoString
  | acc, n, [] => (acc, n, [])
  | acc, n, c :: rest =>
    if time.isDigit c then digits (acc * 10 + (c.toNat - 48)) (n + 1) rest
    else (acc, n, c :: rest)

/-- The digits of an exponent, as `readFloat` reads them: the value stops
growing once it has reached 10,000. -/
def expDigits : Nat → GoString → Nat × GoString
  | e, [] => (e, [])
  | e, c :: rest =>
    if time.isDigit c then
      expDigits (if e < 10000 then e * 10 + (c.toNat - 48) else e) rest
    else (e, c :: rest)

/-- The optional exponent of a decimal literal, as `readFloat` reads it: the
exponent and the rest of the text; `none` when `e` is not followed by an
optional sign and a digit. -/
def exponent (s : GoString) : Option (Int × GoString) :=
  match s with
  | [] => some (0, [])
  | c :: r =>
    if c = 0x65 ∨ c = 0x45 then
      let signed : Int × GoString :=
        if r.head? = some 0x2b then (1, r.tail)
        else if r.head? = some 0x2d then (-1, r.tail)
        else (1, r)
      match signed.2 with
      | [] => none
      | d :: _ =>
        if time.isDigit d then
          some (signed.1 * ((expDigits 0 signed.2).1 : Int), (expDigits 0 signed.2).2)
        else none
    else some (0, c :: r)

/-- Go `strconv.ParseFloat(s, 64)` on decimal literals and the special values:
an optional sign, digits with an optional point, an optional exponent, the
value rounded to the nearest `float64`; a value that rounds to an infinity is
the error `ErrRange`. The hexadecimal literals and the digit separator `_`,
which the library also reads, are not modelled: they are reported as a syntax
error here. -/
def ParseFloat (s : GoString) : Except notify.Error ieee754.Float64 :=
  match special s with
  | some (f, n) =>
    if n = s.length then .ok f else .error (ascii "strconv.ParseFloat: invalid syntax")
  | none =>
    let neg := decide (s.head? = some 0x2d)
    let s1 := if s.head? = some 0x2d ∨ s.head? = some 0x2b then s.tail else s
    let int := digits 0 0 s1
    let frac : Nat × Nat × GoString :=
      if int.2.2.head? = some 0x2e then digits int.1 0 int.2.2.tail else (int.1, 0, int.2.2)
    if int.2.1 + frac.2.1 = 0 then .error (ascii "strconv.ParseFloat: invalid syntax")
    else
      match exponent frac.2.2 with
      | none => .error (ascii "strconv.ParseFloat: invalid syntax")
      | some (e, rest) =>
        if rest ≠ [] then .error (ascii "strconv.ParseFloat: invalid syntax")
        else
          match ieee754.ofRat neg ((frac.1 : ℚ) * (10 : ℚ) ^ (e - (frac.2.1 : Int))) with
          | .inf _ => .error (ascii "strconv.ParseFloat: value out of range")
          | f => .ok f

end strconv

namespace util

/-- What `ParseExtendedDuration` uses of the Go library, `F` standing for
`float64`: `time.ParseDuration`, `strconv.ParseFloat(_, 64)`, the conversion
`float64(x)` of an integer, the product of two floats, and the conversion
`time.Duration(f)` of a float. -/
structure DurationLib (F : Type) where
  ParseDuration : GoString → Except notify.Error Int
  ParseFloat : GoString → Except notify.Error F
  ofInt : Int → F
  mul : F → F → F
  toInt : F → Int

/-- The local type `unit` of `ParseExtendedDuration`. -/
structure unit where
  suffix : GoString
  mult : Int

/-- The table `units` of `ParseExtendedDuration`. -/
def units : List unit :=
  [ { suffix := ascii "mo", mult := 30 * 24 * time.Hour },
    { suffix := ascii "y", mult := 365 * 24 * time.Hour },
    { suffix := ascii "w", mult := 7 * 24 * time.Hour },
    { suffix := ascii "d", mult := 24 * time.Hour } ]

/-- The loop `for _, u := range units` of `ParseExtendedDuration`. -/
def ParseExtendedDuration.loop {F : Type} (lib : DurationLib F) (s : GoString) :
    List unit → Except notify.Error Int
  | [] => .error (ascii "unsupported duration format")
  | u :: rest =>
    if strings.HasSuffix s u.suffix then
      let num := strings.TrimSuffix s u.suffix
      if num = [] then .error (ascii "invalid duration number")
      else
        match lib.ParseFloat num with
        | .error err => .error err
        | .ok f => .ok (lib.toInt (lib.mul f (lib.ofInt u.mult)))
    else ParseExtendedDuration.loop lib s rest

/-- `ParseExtendedDuration` of duration.go. -/
def ParseExtendedDuration {F : Type} (lib : DurationLib F) (s : GoString) :
    Except notify.Error Int :=
  let s1 := strings.TrimSpace s
  if s1 = [] then .error (ascii "empty duration")
  else
    match lib.ParseDuration s1 with
    | .ok d => .ok d
    | .error _ => ParseExtendedDuration.loop lib s1 units

/-- Whether a text is a non-empty sequence of decimal digits. -/
def isDigits (ds : GoString) : Bool :=
  !ds.isEmpty && ds.all (fun b => decide (48 ≤ b.toNat ∧ b.toNat ≤ 57))

/-- The value of a sequence of decimal digits. -/
def decimal (ds : GoString) : Nat :=
  ds.foldl (fun acc b => acc * 10 + (b.toNat - 48)) 0

/-- A natural number that a `float64` holds exactly: below `2 ^ 1024`, and 53
significant bits at most. -/
def representable (x : Nat) : Prop := x < 2 ^ 1024 ∧ ∃ m k : Nat, m < 2 ^ 53 ∧ x = m * 2 ^ k

/-- A byte that is a visible ASCII character. -/
def graphic (b : UInt8) : Bool := decide (33 ≤ b.toNat ∧ b.toNat ≤ 126)

/-- Whether a word starts with a byte that is not a visible ASCII character. -/
def headOutside : GoString → Bool
  | [] => false
  | h :: _ => !graphic h

/-- What the program has of the Go library: `time.ParseDuration`,
`strconv.ParseFloat` and the `float64` operations of IEEE 754. -/
def goLib : DurationLib ieee754.Float64 :=
  { ParseDuration := time.ParseDuration,
    ParseFloat := strconv.ParseFloat,
    ofInt := ieee754.ofInt,
    mul := ieee754.mul,
    toInt := ieee754.toInt64 }

end util

namespace utf8

/-- The scan of Go `utf8.RuneCountInString`: `skip` counts the bytes of the
rune being passed over; an invalid byte counts as one rune. -/
def RuneCountInString.go : Nat → GoString → Nat
  | _, [] => 0
  | skip + 1, _ :: rest => RuneCountInString.go skip rest
  | 0, b :: rest => 1 + RuneCountInString.go (DecodeRuneWidth (b :: rest) - 1) rest

/-- Go `utf8.RuneCountInString`: the number of characters (runes) of a text. -/
def RuneCountInString (s : GoString) : Nat := RuneCountInString.go 0 s

end utf8

namespace notify

/-- A line of 9,000,000 bytes, each the letter `a`. -/
def hugeLine : GoString := List.replicate 9000000 97

/-- A text of `n` euro signs, a character of three bytes. -/
def euros (n : Nat) : GoString := (List.replicate n [0xE2, 0x82, 0xAC]).flatten

/-- A line of 1,200 euro signs: 1,200 characters, 3,600 bytes. -/
def euroLine : GoString := euros 1200

end notify

namespace regexp

/-- The scan that deletes the matches of `re`: at a byte where `re` matches,
the bytes of the preferred match are passed over (`skip` counts those still to
pass); a byte where it does not match, or matches the empty text, is kept. -/
def Re.delete.go (re : Re) : Nat → GoString → GoString
  | _, [] => []
  | skip + 1, _ :: rest => Re.delete.go re skip rest
  | 0, b :: rest =>
    match Re.run re (b :: rest) with
    | t :: _ =>
      if (b :: rest).length - t.length = 0 then b :: Re.delete.go re 0 rest
      else Re.delete.go re ((b :: rest).length - t.length - 1) rest
    | [] => b :: Re.delete.go re 0 rest

/-- The text left of `s` when the matches of `re` met in one scan from left to
right are deleted. -/
def Re.delete (re : Re) (s : GoString) : GoString := Re.delete.go re 0 s

end regexp

namespace util

/-- The expression compiled in `ansiOSC`. -/
def oscRe : regexp.Re :=
  .cat (regexp.Re.lit [0x1b, 0x5d])
    (.cat (.star (.cls (fun b => !(b == 0x07))))
      (.alt (regexp.Re.lit [0x07]) (regexp.Re.lit [0x1b, 0x5c])))

/-- The expression compiled in `ansiCSI`. -/
def csiRe : regexp.Re :=
  .cat (regexp.Re.lit [0x1b, 0x5b])
    (.cat (.star (.cls (between 0x30 0x3f)))
      (.cat (.star (.cls (between 0x20 0x2f))) (.cls (between 0x40 0x7e))))

/-- The expression compiled in `ansiOther`. -/
def otherRe : regexp.Re :=
  .cat (regexp.Re.lit [0x1b]) (.cls (fun b => between 0x40 0x5a b || between 0x5c 0x5f b))

/-- A piece of terminal output: text, or one escape sequence of the three
classes `StripANSI` names. -/
inductive Piece where
  | text (t : GoString)
  | csi (params inter : GoString) (final : UInt8)
  | osc (body : GoString)
  | esc (c : UInt8)

/-- The bytes of a piece: a CSI sequence is ESC, `[`, the parameter bytes, the
intermediate bytes and the final byte; an OSC sequence is ESC, `]`, its body
and BEL; a two-byte sequence is ESC and one byte. -/
def Piece.bytes : Piece → GoString
  | .text t => t
  | .csi params inter final => [0x1b, 0x5b] ++ (params ++ (inter ++ [final]))
  | .osc body => [0x1b, 0x5d] ++ (body ++ [0x07])
  | .esc c => [0x1b, c]

/-- Whether a piece is well formed: text has no ESC byte; the parameter bytes
of a CSI sequence are `0` to `?`, its intermediate bytes the space to `/`, its
final byte `@` to `~`; the body of an OSC sequence has neither BEL nor ESC; the
second byte of a two-byte sequence is `@` to `Z` or backslash to `_`, and not
`]`, which opens an OSC sequence. -/
def Piece.wellFormed : Piece → Bool
  | .text t => t.all (fun b => !(b == 0x1b))
  | .csi params inter final =>
    params.all (between 0x30 0x3f) && inter.all (between 0x20 0x2f) && between 0x40 0x7e final
  | .osc body => body.all (fun b => !(b == 0x07) && !(b == 0x1b))
  | .esc c => (between 0x40 0x5a c || between 0x5c 0x5f c) && !(c == 0x5d)

/-- The text of a piece: the piece itself when it is text, nothing when it is
an escape sequence. -/
def Piece.plain : Piece → GoString
  | .text t => t
  | _ => []

/-- Whether a piece is an OSC sequence. -/
def Piece.isOSC : Piece → Bool
  | .osc _ => true
  | _ => false

/-- Whether a piece is a CSI sequence. -/
def Piece.isCSI : Piece → Bool
  | .csi _ _ _ => true
  | _ => false

/-- The output made of the pieces `ps`, in order. -/
def render (ps : List Piece) : GoString := (ps.map Piece.bytes).flatten

/-- The text of the pieces `ps`: the output without its escape sequences. -/
def plain (ps : List Piece) : GoString := (ps.map Piece.plain).flatten

/-- A coloured word, a window title and a two-byte escape: `ESC[31m`, `red`,
`ESC[0m`, `ESC]0;title BEL`, `ESC M`, `x`. -/
def samplePieces : List Piece :=
  [.csi (ascii "31") [] 0x6d, .text (ascii "red"), .csi (ascii "0") [] 0x6d,
   .osc (ascii "0;title"), .esc 0x4d, .text (ascii "x")]

end util

/-! Properties -/

namespace notify

/-! ## Formatter -/

theorem take_getElem?_of_lt {α : Type} (xs : List α) (k i : Nat) (h : i < k) :
    (xs.take k)[i]? = xs[i]? := by
  rw [List.getElem?_take]
  simp [h]

/-- C10. `HeadLines(lines, n)` is `lines` itself when `n <= 0` or
`n >= len(lines)`; otherwise it has exactly `n` elements and they are the
first `n` elements of `lines`, in order. -/
theorem HeadLines_selection (lines : List GoString) (n : Int) :
    ((n ≤ 0 ∨ n ≥ (lines.length : Int)) → HeadLines lines n = lines) ∧
    (¬ (n ≤ 0 ∨ n ≥ (lines.length : Int)) →
      HeadLines lines n = lines.take n.toNat ∧
      ((HeadLines lines n).length : Int) = n ∧
      ∀ i : Nat, (i : Int) < n → (HeadLines lines n)[i]? = lines[i]?) := by
  constructor
  · intro h
    simp [HeadLines, h]
  · intro h
    have hn : ¬ n ≤ 0 := fun h0 => h (Or.inl h0)
    have hl : ¬ n ≥ (lines.length : Int) := fun h0 => h (Or.inr h0)
    have e : HeadLines lines n = lines.take n.toNat := by simp [HeadLines, h]
    refine ⟨e, ?_, ?_⟩
    · rw [e, List.length_take]
      omega
    · intro i hi
      rw [e]
      exact take_getElem?_of_lt lines n.toNat i (by omega)

/-- A concrete instance of C10: the first two of three lines. -/
theorem HeadLines_selection_witness :
    HeadLines [ascii "a", ascii "b", ascii "c"] 2 = [ascii "a", ascii "b"] ∧
    HeadLines [ascii "a", ascii "b", ascii "c"] 0 = [ascii "a", ascii "b", ascii "c"] ∧
    HeadLines [ascii "a", ascii "b", ascii "c"] 3 = [ascii "a", ascii "b", ascii "c"] :=
  ⟨((HeadLines_selection [ascii "a", ascii "b", ascii "c"] 2).2 (by decide)).1,
   (HeadLines_selection [ascii "a", ascii "b", ascii "c"] 0).1 (by decide),
   (HeadLines_selection [ascii "a", ascii "b", ascii "c"] 3).1 (by decide)⟩

theorem step_budget (lines : List GoString) (maxBytes : Int) (st : PartsState) (l : GoString)
    (hl : l ∈ lines) (hp : ∀ p ∈ st.parts, PartOk lines maxBytes p)
    (hb : (st.buf.length : Int) ≤ maxBytes) :
    (∀ p ∈ (BuildAttachmentParts.step maxBytes st l).parts, PartOk lines maxBytes p) ∧
    (((BuildAttachmentParts.step maxBytes st l).buf.length : Int) ≤ maxBytes) := by
  unfold BuildAttachmentParts.step
  simp only []
  split_ifs with h1 h2 h2
  · -- buffer closed, oversized line emitted on its own
    refine ⟨?_, hb.trans' (by simp)⟩
    intro p hp1
    simp only [List.mem_append, List.mem_singleton] at hp1
    rcases hp1 with (hp1 | hp1) | hp1
    · exact hp p hp1
    · exact Or.inl (hp1 ▸ hb)
    · exact Or.inr ⟨l, hl, hp1⟩
  · -- buffer closed, line starts the new buffer
    refine ⟨?_, ?_⟩
    · intro p hp1
      simp only [List.mem_append, List.mem_singleton] at hp1
      rcases hp1 with hp1 | hp1
      · exact hp p hp1
      · exact Or.inl (hp1 ▸ hb)
    · simp only [List.length_nil, not_and, not_true_eq_false, imp_false, not_lt,
        List.nil_append] at h2 ⊢
      simpa using h2
  · -- empty buffer, oversized line emitted on its own
    refine ⟨?_, hb⟩
    intro p hp1
    simp only [List.mem_append, List.mem_singleton] at hp1
    rcases hp1 with hp1 | hp1
    · exact hp p hp1
    · exact Or.inr ⟨l, hl, hp1⟩
  · -- line appended to the buffer
    refine ⟨hp, ?_⟩
    simp only [List.length_append, Nat.cast_add]
    by_cases h0 : st.buf.length = 0
    · have h3 : ¬ ((l ++ nl).length : Int) > maxBytes := fun h => h2 ⟨h, h0⟩
      simp only [List.length_append, Nat.cast_add] at h3
      omega
    · have h3 : ¬ ((st.buf.length : Int) + ((l ++ nl).length : Int) > maxBytes) :=
        fun h => h1 ⟨h, Nat.pos_of_ne_zero h0⟩
      simp only [List.length_append, Nat.cast_add] at h3
      omega

theorem foldl_budget (lines : List GoString) (maxBytes : Int) (ls : List GoString) :
    ∀ (st : PartsState), (∀ l ∈ ls, l ∈ lines) →
    (∀ p ∈ st.parts, PartOk lines maxBytes p) → ((st.buf.length : Int) ≤ maxBytes) →
    (∀ p ∈ (ls.foldl (BuildAttachmentParts.step maxBytes) st).parts, PartOk lines maxBytes p) ∧
    (((ls.foldl (BuildAttachmentParts.step maxBytes) st).buf.length : Int) ≤ maxBytes) := by
  induction ls with
  | nil => intro st _ hp hb; exact ⟨hp, hb⟩
  | cons l rest ih =>
    intro st hsub hp hb
    have hs := step_budget lines maxBytes st l (hsub l (List.mem_cons_self _ _)) hp hb
    exact ih _ (fun x hx => hsub x (List.mem_cons_of_mem _ hx)) hs.1 hs.2

/-- C3. For `maxBytes > 0`, every part returned by `BuildAttachmentParts` has
byte length at most `maxBytes`, or is exactly one input line followed by
`"\n"`. -/
theorem BuildAttachmentParts_budget (lines : List GoString) (maxBytes : Int)
    (h : 0 < maxBytes) :
    ∀ p ∈ BuildAttachmentParts lines maxBytes,
      (p.length : Int) ≤ maxBytes ∨ ∃ l ∈ lines, p = l ++ nl := by
  intro p hp
  have hinv := foldl_budget lines maxBytes lines { parts := [], buf := [] }
    (fun l hl => hl) (by intro q hq; cases hq) (by simpa using h.le)
  unfold BuildAttachmentParts at hp
  rw [if_neg (not_le.mpr h)] at hp
  simp only [] at hp
  split_ifs at hp with hb
  · simp only [List.mem_append, List.mem_singleton] at hp
    rcases hp with hp | hp
    · exact hinv.1 p hp
    · exact Or.inl (hp ▸ hinv.2)
  · exact hinv.1 p hp

/-- A concrete instance of C3: with a budget of five bytes, the six-byte line
is a part of its own and every other part fits. -/
theorem BuildAttachmentParts_budget_witness :
    (0 : Int) < 5 ∧
    BuildAttachmentParts [ascii "ab", ascii "c", ascii "defgh", ascii "i"] 5
      = [ascii "ab\nc\n", ascii "defgh\n", ascii "i\n"] ∧
    ∀ p ∈ BuildAttachmentParts [ascii "ab", ascii "c", ascii "defgh", ascii "i"] 5,
      (p.length : Int) ≤ 5 ∨
        ∃ l ∈ [ascii "ab", ascii "c", ascii "defgh", ascii "i"], p = l ++ nl :=
  ⟨by decide, by decide,
   BuildAttachmentParts_budget [ascii "ab", ascii "c", ascii "defgh", ascii "i"] 5 (by decide)⟩

theorem step_concat (maxBytes : Int) (st : PartsState) (l : GoString) :
    (BuildAttachmentParts.step maxBytes st l).parts.flatten
        ++ (BuildAttachmentParts.step maxBytes st l).buf
      = st.parts.flatten ++ st.buf ++ (l ++ nl) := by
  unfold BuildAttachmentParts.step
  simp only []
  split_ifs with h1 h2 h2
  · simp
  · simp
  · have h0 : st.buf = [] := List.length_eq_zero.mp h2.2
    simp [h0]
  · simp

theorem foldl_concat (maxBytes : Int) (ls : List GoString) :
    ∀ (st : PartsState),
    (ls.foldl (BuildAttachmentParts.step maxBytes) st).parts.flatten
        ++ (ls.foldl (BuildAttachmentParts.step maxBytes) st).buf
      = st.parts.flatten ++ st.buf ++ (ls.map (fun l => l ++ nl)).flatten := by
  induction ls with
  | nil => intro st; simp
  | cons l rest ih =>
    intro st
    simp only [List.foldl_cons, List.map_cons, List.flatten_cons]
    rw [ih, step_concat]
    simp

/-- C4. For `maxBytes > 0`, the parts returned by `BuildAttachmentParts`,
concatenated in order, are the input lines each followed by `"\n"`,
concatenated in order. -/
theorem BuildAttachmentParts_concat (lines : List GoString) (maxBytes : Int)
    (h : 0 < maxBytes) :
    (BuildAttachmentParts lines maxBytes).flatten = (lines.map (fun l => l ++ nl)).flatten := by
  have hc := foldl_concat maxBytes lines { parts := [], buf := [] }
  unfold BuildAttachmentParts
  rw [if_neg (not_le.mpr h)]
  simp only [List.flatten_nil, List.nil_append] at hc ⊢
  split_ifs with hb
  · simpa using hc
  · have h0 : (List.foldl (BuildAttachmentParts.step maxBytes) { parts := [], buf := [] }
        lines).buf = [] := by
      apply List.length_eq_zero.mp
      omega
    rw [h0, List.append_nil] at hc
    exact hc

/-- A concrete instance of C4: three parts that concatenate to the four lines. -/
theorem BuildAttachmentParts_concat_witness :
    (0 : Int) < 5 ∧
    (BuildAttachmentParts [ascii "ab", ascii "c", ascii "defgh", ascii "i"] 5).flatten
      = ascii "ab\nc\ndefgh\ni\n" :=
  ⟨by decide,
   (BuildAttachmentParts_concat [ascii "ab", ascii "c", ascii "defgh", ascii "i"] 5
      (by decide)).trans (by decide)⟩

/-! ## Filters -/

theorem anyMatch_iff (rs : List regexp.Regexp) (line : GoString) :
    anyMatch rs line = true ↔ ∃ r ∈ rs, r.MatchString line = true := by
  induction rs with
  | nil => simp [anyMatch]
  | cons r rest ih =>
    unfold anyMatch
    by_cases h : r.MatchString line = true
    · simp [h]
    · simp [h, ih]

/-- C7. `Filters.Allow(line)` is true iff (no include pattern is configured or
the line matches at least one include pattern) and the line matches no exclude
pattern; a line matching both an include and an exclude pattern is rejected; a
nil filter allows every line. -/
theorem Filters_Allow_iff (f : Filters) (line : GoString) :
    (Filters.Allow (some f) line = true ↔
      ((f.include_ = [] ∨ ∃ r ∈ f.include_, r.MatchString line = true) ∧
        ∀ r ∈ f.exclude, r.MatchString line = false)) ∧
    (((∃ r ∈ f.include_, r.MatchString line = true) ∧
        (∃ r ∈ f.exclude, r.MatchString line = true)) →
      Filters.Allow (some f) line = false) ∧
    Filters.Allow none line = true := by
  have hex : anyMatch f.exclude line = false ↔ ∀ r ∈ f.exclude, r.MatchString line = false := by
    rw [← Bool.not_eq_true, anyMatch_iff]
    simp
  have hiff : Filters.Allow (some f) line = true ↔
      ((f.include_ = [] ∨ ∃ r ∈ f.include_, r.MatchString line = true) ∧
        ∀ r ∈ f.exclude, r.MatchString line = false) := by
    rw [← hex, ← anyMatch_iff]
    unfold Filters.Allow
    simp only []
    cases hinc : f.include_ with
    | nil => cases h2 : anyMatch f.exclude line <;> simp [anyMatch]
    | cons r rest =>
      cases h1 : anyMatch (r :: rest) line <;> cases h2 : anyMatch f.exclude line <;> simp
  refine ⟨hiff, ?_, rfl⟩
  rintro ⟨_, r, hr, hm⟩
  rw [← Bool.not_eq_true, hiff]
  rintro ⟨_, hall⟩
  rw [hall r hr] at hm
  cases hm

/-- A concrete instance of C7: with include `key` and exclude `abc`, the line
`key=abc` matches both and is rejected, `key=x` is allowed and `other` is
rejected. -/
theorem Filters_Allow_iff_witness :
    Filters.Allow (some { include_ := [litRule "key"], exclude := [litRule "abc"] })
        (ascii "key=abc") = false ∧
    Filters.Allow (some { include_ := [litRule "key"], exclude := [litRule "abc"] })
        (ascii "key=x") = true ∧
    Filters.Allow (some { include_ := [litRule "key"], exclude := [litRule "abc"] })
        (ascii "other") = false :=
  ⟨(Filters_Allow_iff { include_ := [litRule "key"], exclude := [litRule "abc"] }
      (ascii "key=abc")).2.1 ⟨⟨litRule "key", by simp, by decide⟩, ⟨litRule "abc", by simp, by decide⟩⟩,
   by decide, by decide⟩

/-! ## Redactor -/

theorem ReplaceAllString_of_no_match (re : regexp.Regexp) (s repl : GoString)
    (h : re.MatchString s = false) : re.ReplaceAllString s repl = s := by
  unfold regexp.Regexp.MatchString at h
  have h0 : re.exec s 0 = none := by
    cases hx : re.exec s 0 with
    | none => rfl
    | some v => rw [hx] at h; cases h
  unfold regexp.Regexp.ReplaceAllString
  show regexp.replaceAll.loop re s repl (s.length + 1 + 1) 0 0 [] = s
  unfold regexp.replaceAll.loop
  simp [h0]

theorem Apply_loop_eq_foldl (rules : List regexp.Regexp) :
    ∀ s, Redactor.Apply.loop rules s
      = rules.foldl (fun out re => re.ReplaceAllString out marker) s := by
  induction rules with
  | nil => intro s; rfl
  | cons re rest ih => intro s; simp [Redactor.Apply.loop, ih]

theorem compileAppend_eq (compile : Compile) (ps : List GoString) :
    ∀ rules, compileAppend compile ps rules
      = (compileList compile ps).map (fun rs => rules ++ rs) := by
  induction ps with
  | nil => intro rules; simp [compileAppend, compileList, Except.map]
  | cons p rest ih =>
    intro rules
    unfold compileAppend compileList
    cases compile p with
    | error err => simp [Except.map]
    | ok re =>
      simp only []
      rw [ih]
      cases compileList compile rest with
      | error err => simp [Except.map]
      | ok res => simp [Except.map]

theorem loadFile_scan_eq (compile : Compile) (lines : List GoString) :
    ∀ rules, loadFile.scan compile lines rules
      = (compileList compile (filePatterns lines)).map (fun rs => rules ++ rs) := by
  induction lines with
  | nil => intro rules; simp [loadFile.scan, filePatterns, compileList, Except.map]
  | cons text rest ih =>
    intro rules
    unfold loadFile.scan
    simp only []
    by_cases hskip : strings.TrimSpace text = []
        ∨ strings.HasPrefix (strings.TrimSpace text) (ascii "#") = true
    · rw [if_pos hskip, ih]
      have : filePatterns (text :: rest) = filePatterns rest := by
        unfold filePatterns
        rw [List.map_cons, List.filter_cons_of_neg]
        rcases hskip with h | h <;> simp [h]
      rw [this]
    · rw [if_neg hskip]
      have : filePatterns (text :: rest) = strings.TrimSpace text :: filePatterns rest := by
        unfold filePatterns
        rw [List.map_cons, List.filter_cons_of_pos]
        push_neg at hskip
        simp [hskip.1, hskip.2]
      rw [this]
      unfold compileList
      cases compile (strings.TrimSpace text) with
      | error err => simp [Except.map]
      | ok re =>
        simp only []
        rw [ih]
        cases compileList compile (filePatterns rest) with
        | error err => simp [Except.map]
        | ok res => simp [Except.map]

theorem NewRedactor_eq (compile : Compile) (open_ : GoString → Except Error ScannedFile)
    (cfg : RedactionConfig) :
    NewRedactor compile open_ cfg
      = (registrationOrder compile open_ cfg).map Redactor.mk := by
  have hnil : compileList compile [] = .ok [] := rfl
  unfold NewRedactor registrationOrder loadFile
  simp only [compileAppend_eq, loadFile_scan_eq]
  have hD : (if cfg.Defaults = true then
        Except.map (fun rs => ([] : List regexp.Regexp) ++ rs) (compileList compile defaultRedactions)
      else Except.ok [])
      = compileList compile (if cfg.Defaults = true then defaultRedactions else []) := by
    cases cfg.Defaults
    · simp [hnil]
    · cases h : compileList compile defaultRedactions <;> simp [Except.map, h]
  rw [hD]
  generalize compileList compile (if cfg.Defaults = true then defaultRedactions else []) = D
  cases D with
  | error e => simp [bind, Except.bind, Except.map]
  | ok ds =>
    cases hU : compileList compile cfg.Patterns with
    | error e => simp [bind, Except.bind, Except.map]
    | ok us =>
      by_cases hf : cfg.File = []
      · simp [hf, bind, Except.bind, Except.map, pure, Except.pure]
      · simp only [hf, bind, Except.bind, Except.map, pure, Except.pure, ne_eq, not_false_eq_true,
          if_true, if_false]
        cases hO : open_ cfg.File with
        | error e => simp [hO]
        | ok f =>
          cases hF : compileList compile (filePatterns f.lines) with
          | error e => simp [hF]
          | ok fs =>
            cases hE : f.err with
            | some e => simp [hF, hE, throw, throwThe, MonadExceptOf.throw]
            | none => simp [hF, hE, List.append_assoc]

/-- C8. `Redactor.Apply(s)` is the left fold, over the rule list in order, of
replacing every match of the rule in the current text by `"[REDACTED]"`; the
rule list built by `NewRedactor` is the defaults (when enabled), then the user
patterns, then the file patterns; with the single rule `key=\S+` the lines
`found key=abc123`, `ok`, `found key=xyz789` become `found [REDACTED]`, `ok`,
`found [REDACTED]`. -/
theorem Redactor_Apply_fold :
    (∀ (r : Redactor) (s : GoString),
      Redactor.Apply (some r) s
        = r.rules.foldl (fun out re => re.ReplaceAllString out (ascii "[REDACTED]")) s) ∧
    (∀ (compile : Compile) (open_ : GoString → Except Error ScannedFile)
        (cfg : RedactionConfig),
      NewRedactor compile open_ cfg
        = (registrationOrder compile open_ cfg).map Redactor.mk) ∧
    [ascii "found key=abc123", ascii "ok", ascii "found key=xyz789"].map
        (Redactor.Apply (some { rules := [keyRule] }))
      = [ascii "found [REDACTED]", ascii "ok", ascii "found [REDACTED]"] := by
  refine ⟨?_, NewRedactor_eq, by decide⟩
  intro r s
  unfold Redactor.Apply
  simp only []
  split_ifs with h
  · rw [List.length_eq_zero.mp h]
    rfl
  · exact Apply_loop_eq_foldl r.rules s

/-- C9. A line that none of the redactor's rules matches is returned unchanged
by `Redactor.Apply`; a nil redactor and a redactor without rules return every
line unchanged. -/
theorem Redactor_Apply_clean (r : Redactor) (line : GoString)
    (h : ∀ re ∈ r.rules, re.MatchString line = false) :
    Redactor.Apply (some r) line = line ∧
    Redactor.Apply none line = line ∧
    Redactor.Apply (some { rules := [] }) line = line := by
  refine ⟨?_, rfl, rfl⟩
  have hloop : ∀ rules : List regexp.Regexp, (∀ re ∈ rules, re.MatchString line = false) →
      Redactor.Apply.loop rules line = line := by
    intro rules
    induction rules with
    | nil => intro _; rfl
    | cons re rest ih =>
      intro hall
      unfold Redactor.Apply.loop
      rw [ReplaceAllString_of_no_match re line marker (hall re (List.mem_cons_self _ _))]
      exact ih (fun x hx => hall x (List.mem_cons_of_mem _ hx))
  unfold Redactor.Apply
  simp only []
  split_ifs
  · rfl
  · exact hloop r.rules h

/-- A concrete instance of C9: none of the four default patterns matches
`hello world`, which the default redactor returns unchanged. -/
theorem Redactor_Apply_clean_witness :
    (∀ re ∈ defaultRules, re.MatchString (ascii "hello world") = false) ∧
    Redactor.Apply (some { rules := defaultRules }) (ascii "hello world")
      = ascii "hello world" :=
  ⟨by decide,
   (Redactor_Apply_clean { rules := defaultRules } (ascii "hello world") (by decide)).1⟩

/-! ## Aggregator -/

theorem OnLine_frame (a : Aggregator) (stream line : GoString) :
    (a.OnLine stream line).1.cfg = a.cfg ∧ (a.OnLine stream line).1.disp = a.disp ∧
    (a.OnLine stream line).1.red = a.red ∧ (a.OnLine stream line).1.filt = a.filt ∧
    (a.OnLine stream line).1.alert = a.alert := by
  unfold Aggregator.OnLine
  simp only []
  split_ifs <;> simp

theorem Apply_of_isSome (red : Option Redactor) (line : GoString) :
    (if red.isSome then Redactor.Apply red line else line) = Redactor.Apply red line := by
  cases red <;> simp [Redactor.Apply]

theorem Allow_of_isSome (filt : Option Filters) (line : GoString) :
    (filt.isSome ∧ (!(Filters.Allow filt line)) = true) ↔ Filters.Allow filt line = false := by
  cases filt with
  | none => simp [Filters.Allow]
  | some f => simp

theorem OnLine_lines (a : Aggregator) (stream line : GoString) :
    (a.OnLine stream line).1.lines
      = if Filters.Allow a.filt (Redactor.Apply a.red line) then
          a.lines ++ [Redactor.Apply a.red line]
        else a.lines := by
  unfold Aggregator.OnLine
  simp only [Apply_of_isSome, Allow_of_isSome]
  cases h : Filters.Allow a.filt (Redactor.Apply a.red line)
  · simp
  · simp only [Bool.true_eq_false, if_false, if_true]
    split_ifs <;> rfl

/-- C5, as the code has it. In `Aggregator.OnLine` the line is redacted first
and the filter decides on the redacted text: the line is buffered iff
`Filters.Allow` holds of the redacted line, and what is buffered is the
redacted line. -/
theorem OnLine_filters_redacted (a : Aggregator) (stream line : GoString) :
    (a.OnLine stream line).1.lines
      = if Filters.Allow a.filt (Redactor.Apply a.red line) then
          a.lines ++ [Redactor.Apply a.red line]
        else a.lines :=
  OnLine_lines a stream line

/-- C5 fails as stated: with the redaction rule `key=\S+` and the include
filter `key=abc`, the filter allows the raw line `key=abc`, yet `OnLine` does
not buffer it, because the filter is asked about `[REDACTED]`. -/
theorem OnLine_filter_sees_redacted :
    Filters.Allow (some { include_ := [litRule "key=abc"], exclude := [] }) (ascii "key=abc")
      = true ∧
    ((freshAggregator (some oneWorker) (some { rules := [keyRule] })
        (some { include_ := [litRule "key=abc"], exclude := [] }) none).OnLine
      (ascii "stdout") (ascii "key=abc")).1.lines = [] := by
  decide

theorem FlushAll_of_empty (a : Aggregator) (reason : GoString) (h : a.lines = []) :
    (a.FlushAll reason).2 = [] ∧ (a.FlushAll reason).1.lines = [] := by
  unfold Aggregator.FlushAll
  simp only []
  split_ifs with h1 h2
  · exact ⟨rfl, h⟩
  · exact ⟨rfl, rfl⟩
  · rw [h] at h2
    exact absurd rfl h2

/-- C2. `FlushAll` on an empty buffer makes no call on the dispatcher, neither
`BroadcastText` nor `BroadcastFile`, and leaves the buffer empty, whatever the
reason tag and the configuration (the notify mode included). -/
theorem FlushAll_empty_buffer (a : Aggregator) (reason : GoString) (h : a.lines = []) :
    (a.FlushAll reason).2 = [] ∧ (a.FlushAll reason).1.lines = [] := by
  unfold Aggregator.FlushAll
  simp only []
  split_ifs with h1 h2
  · exact ⟨rfl, h⟩
  · exact ⟨rfl, rfl⟩
  · rw [h] at h2
    exact absurd rfl h2

/-- A concrete instance of C2: a fresh aggregator in mode `summary`, flushed
with the reason `tick`. -/
theorem FlushAll_empty_buffer_witness :
    ({ freshAggregator (some oneWorker) none none none with
        cfg := { zeroConfig with Mode := ascii "summary" } }.FlushAll (ascii "tick")).2 = [] ∧
    ({ freshAggregator (some oneWorker) none none none with
        cfg := { zeroConfig with Mode := ascii "summary" } }.FlushAll (ascii "tick")).1.lines
      = [] :=
  FlushAll_empty_buffer
    { freshAggregator (some oneWorker) none none none with
        cfg := { zeroConfig with Mode := ascii "summary" } }
    (ascii "tick") rfl

theorem feed_frame (ls : List (GoString × GoString)) :
    ∀ a : Aggregator, (a.feed ls).cfg = a.cfg ∧ (a.feed ls).disp = a.disp ∧
      (a.feed ls).red = a.red ∧ (a.feed ls).filt = a.filt ∧ (a.feed ls).alert = a.alert := by
  induction ls with
  | nil => intro a; exact ⟨rfl, rfl, rfl, rfl, rfl⟩
  | cons x rest ih =>
    intro a
    obtain ⟨stream, line⟩ := x
    unfold Aggregator.feed
    obtain ⟨h1, h2, h3, h4, h5⟩ := ih (a.OnLine stream line).1
    obtain ⟨g1, g2, g3, g4, g5⟩ := OnLine_frame a stream line
    exact ⟨h1.trans g1, h2.trans g2, h3.trans g3, h4.trans g4, h5.trans g5⟩

theorem feed_lines (ls : List (GoString × GoString)) :
    ∀ a : Aggregator, (a.feed ls).lines = a.lines ++ a.accepted (ls.map Prod.snd) := by
  induction ls with
  | nil => intro a; simp [Aggregator.feed, Aggregator.accepted]
  | cons x rest ih =>
    intro a
    obtain ⟨stream, line⟩ := x
    unfold Aggregator.feed
    rw [ih, OnLine_lines]
    obtain ⟨_, _, g3, g4, _⟩ := OnLine_frame a stream line
    have hacc : ∀ xs, (a.OnLine stream line).1.accepted xs = a.accepted xs := by
      intro xs
      unfold Aggregator.accepted
      rw [g3, g4]
    rw [hacc]
    unfold Aggregator.accepted
    simp only [List.map_cons, List.filterMap_cons]
    cases h : Filters.Allow a.filt (Redactor.Apply a.red line) <;> simp

/-- C1. On an aggregator with its dispatcher, as `NewAggregator` is given one
by the program, after any sequence of `OnLine` calls on an empty buffer one
`FlushAll` hands to the mode policy exactly the accepted (redacted) lines, in
append order, and leaves the buffer empty; a second `FlushAll` with no new
line makes no call on the dispatcher. -/
theorem FlushAll_drains_accepted (a : Aggregator) (hd : a.disp.isSome = true)
    (h0 : a.lines = []) (inputs : List (GoString × GoString)) (reason reason2 : GoString) :
    ((a.feed inputs).FlushAll reason).1.lines = [] ∧
    ((a.feed inputs).FlushAll reason).2
      = (if a.accepted (inputs.map Prod.snd) = [] then []
         else Aggregator.FlushAll.dispatch { a.feed inputs with lines := [] }
                (a.accepted (inputs.map Prod.snd))) ∧
    ((((a.feed inputs).FlushAll reason).1).FlushAll reason2).2 = [] ∧
    ((((a.feed inputs).FlushAll reason).1).FlushAll reason2).1.lines = [] := by
  have hl : (a.feed inputs).lines = a.accepted (inputs.map Prod.snd) := by
    rw [feed_lines, h0, List.nil_append]
  have hdisp : (a.feed inputs).disp.isNone = false := by
    rw [(feed_frame inputs a).2.1]
    cases hx : a.disp with
    | none => rw [hx] at hd; cases hd
    | some d => rfl
  have h1 : ((a.feed inputs).FlushAll reason).1.lines = [] := by
    unfold Aggregator.FlushAll
    simp only [hdisp, Bool.false_eq_true, if_false]
    split_ifs <;> rfl
  refine ⟨h1, ?_, ?_, ?_⟩
  · unfold Aggregator.FlushAll
    simp only [hdisp, Bool.false_eq_true, if_false, hl, List.length_eq_zero]
    split_ifs <;> rfl
  · exact (FlushAll_of_empty _ reason2 h1).1
  · exact (FlushAll_of_empty _ reason2 h1).2

/-- A concrete instance of C1: with the rule `key=\S+` and the exclude filter
`skip`, three inputs of which one is rejected, flushed in mode `text-only`. -/
theorem FlushAll_drains_accepted_witness :
    textOnlyAggregator.disp.isSome = true ∧ textOnlyAggregator.lines = [] ∧
    ((textOnlyAggregator.feed threeInputs).FlushAll (ascii "final")).2
      = [Broadcast.Text (ascii "Output batch\n```\nfound [REDACTED]\nok\n```")] ∧
    ((textOnlyAggregator.feed threeInputs).FlushAll (ascii "final")).1.lines = [] ∧
    ((((textOnlyAggregator.feed threeInputs).FlushAll (ascii "final")).1).FlushAll
      (ascii "tick")).2 = [] :=
  ⟨rfl, rfl,
   (FlushAll_drains_accepted textOnlyAggregator rfl rfl threeInputs (ascii "final")
      (ascii "tick")).2.1.trans (by decide),
   (FlushAll_drains_accepted textOnlyAggregator rfl rfl threeInputs (ascii "final")
      (ascii "tick")).1,
   (FlushAll_drains_accepted textOnlyAggregator rfl rfl threeInputs (ascii "final")
      (ascii "tick")).2.2.1⟩

theorem OnLine_context_bounded (a : Aggregator) (al : Alerts) (ha : a.alert = some al)
    (hn : 0 < al.context) (hc : (a.context.length : Int) ≤ al.context)
    (stream line : GoString) :
    ((a.OnLine stream line).1.context.length : Int) ≤ al.context := by
  have hcl : Alerts.ContextLines (some al) = al.context := rfl
  unfold Aggregator.OnLine
  simp only [ha, hcl, Option.isSome_some, true_and]
  split_ifs <;>
    first
    | exact hc
    | (simp only [List.length_drop, List.length_append, List.length_singleton,
         Nat.cast_add, Nat.cast_one] at *
       omega)

theorem FlushAll_context (a : Aggregator) (reason : GoString) :
    (a.FlushAll reason).1.context = a.context ∧ (a.FlushAll reason).1.alert = a.alert := by
  unfold Aggregator.FlushAll
  simp only []
  split_ifs <;> exact ⟨rfl, rfl⟩

theorem step_context_bounded (a : Aggregator) (al : Alerts) (ha : a.alert = some al)
    (hn : 0 < al.context) (hc : (a.context.length : Int) ≤ al.context) (op : Op) :
    (a.step op).alert = some al ∧ ((a.step op).context.length : Int) ≤ al.context := by
  cases op with
  | OnLine stream line =>
    exact ⟨(OnLine_frame a stream line).2.2.2.2.trans ha,
      OnLine_context_bounded a al ha hn hc stream line⟩
  | FlushAll reason =>
    obtain ⟨h1, h2⟩ := FlushAll_context a reason
    exact ⟨h2.trans ha, by show (((a.FlushAll reason).1.context.length : Int) ≤ _); rw [h1]; exact hc⟩

/-- C6, when an alert matcher with a positive context size `N` is configured.
After every sequence of `OnLine` and `FlushAll` calls on an aggregator whose
context window holds at most `N` lines (a fresh one holds none), the context
window holds at most `N` lines. -/
theorem context_window_bounded (a : Aggregator) (al : Alerts) (ha : a.alert = some al)
    (hn : 0 < al.context) (hc : (a.context.length : Int) ≤ al.context) (ops : List Op) :
    ((a.run ops).context.length : Int) ≤ Alerts.ContextLines a.alert := by
  have hcl : Alerts.ContextLines a.alert = al.context := by rw [ha]; rfl
  rw [hcl]
  have key : ∀ (ops : List Op) (b : Aggregator), b.alert = some al →
      (b.context.length : Int) ≤ al.context →
      ((b.run ops).context.length : Int) ≤ al.context := by
    intro ops
    induction ops with
    | nil => intro b _ hb; exact hb
    | cons op rest ih =>
      intro b hba hb
      obtain ⟨h1, h2⟩ := step_context_bounded b al hba hn hb op
      exact ih (b.step op) h1 h2
  exact key ops a ha hc

/-- A concrete instance of C6: context size 2, four accepted lines and a flush
in between; the window ends with the last two lines. -/
theorem context_window_bounded_witness :
    (0 : Int) < 2 ∧
    ((freshAggregator (some oneWorker) none none (some { patterns := [], context := 2 })).run
        fourLinesAndFlush).context = [ascii "c", ascii "d"] ∧
    (((freshAggregator (some oneWorker) none none (some { patterns := [], context := 2 })).run
        fourLinesAndFlush).context.length : Int) ≤ 2 :=
  ⟨by decide, by decide,
   context_window_bounded
     (freshAggregator (some oneWorker) none none (some { patterns := [], context := 2 }))
     { patterns := [], context := 2 } rfl (by decide) (by decide) fourLinesAndFlush⟩

/-- C6 fails as stated for the context size 0 (and likewise for a negative size
or without an alert matcher): the window is never trimmed and holds every
accepted line. -/
theorem context_window_unbounded_at_zero :
    Alerts.ContextLines (some { patterns := [], context := 0 }) = 0 ∧
    ((freshAggregator (some oneWorker) none none (some { patterns := [], context := 0 })).run
        fourLinesAndFlush).context = [ascii "a", ascii "b", ascii "c", ascii "d"] ∧
    ((freshAggregator (some oneWorker) none none none).run
        fourLinesAndFlush).context = [ascii "a", ascii "b", ascii "c", ascii "d"] := by
  decide

/-! ## Formatter: tail selection -/

/-- C11. `TailLines(lines, n)` is `lines` itself when `n <= 0` or
`n >= len(lines)`; otherwise it has exactly `n` elements and they are the last
`n` elements of `lines`, in order; `TailLines([a,b,c,d], 2) = [c,d]`. -/
theorem TailLines_selection (lines : List GoString) (n : Int) :
    ((n ≤ 0 ∨ n ≥ (lines.length : Int)) → TailLines lines n = lines) ∧
    (¬ (n ≤ 0 ∨ n ≥ (lines.length : Int)) →
      ((TailLines lines n).length : Int) = n ∧
      lines = lines.take (lines.length - n.toNat) ++ TailLines lines n ∧
      ∀ i : Nat, (TailLines lines n)[i]? = lines[lines.length - n.toNat + i]?) ∧
    TailLines [ascii "a", ascii "b", ascii "c", ascii "d"] 2 = [ascii "c", ascii "d"] := by
  refine ⟨?_, ?_, by decide⟩
  · intro h
    simp [TailLines, h]
  · intro h
    have e : TailLines lines n = lines.drop (lines.length - n.toNat) := by simp [TailLines, h]
    refine ⟨?_, ?_, ?_⟩
    · rw [e, List.length_drop]
      omega
    · rw [e, List.take_append_drop]
    · intro i
      rw [e, List.getElem?_drop]

/-! ## Aggregator: frame of `OnLine`, alerts -/

theorem OnLine_rejected (a : Aggregator) (stream line : GoString)
    (h : Filters.Allow a.filt (Redactor.Apply a.red line) = false) :
    a.OnLine stream line = (a, none) := by
  unfold Aggregator.OnLine
  simp only [Apply_of_isSome, Allow_of_isSome]
  simp [h]

/-- C15. When the filter rejects the line (its redacted text, which is what
`OnLine` asks the filter about), `OnLine` returns the state it was given,
buffer and context window included, and starts no alert send; when the line is
accepted, exactly one element, the redacted line, is appended to the buffer and
the entries already there are unchanged, whether or not an alert matches. -/
theorem OnLine_rejected_or_appended (a : Aggregator) (stream line : GoString) :
    (Filters.Allow a.filt (Redactor.Apply a.red line) = false →
      a.OnLine stream line = (a, none)) ∧
    (Filters.Allow a.filt (Redactor.Apply a.red line) = true →
      (a.OnLine stream line).1.lines = a.lines ++ [Redactor.Apply a.red line] ∧
      (a.OnLine stream line).1.lines.length = a.lines.length + 1 ∧
      ∀ i : Nat, i < a.lines.length → (a.OnLine stream line).1.lines[i]? = a.lines[i]?) := by
  constructor
  · exact OnLine_rejected a stream line
  · intro h
    have e := OnLine_lines a stream line
    rw [h, if_pos rfl] at e
    refine ⟨e, ?_, ?_⟩
    · rw [e]; simp
    · intro i hi
      rw [e, List.getElem?_append_left hi]

/-- A concrete instance of C15: with the exclude filter `skip`, the line
`skip me` leaves a fed aggregator as it was and `ok` is appended to the buffer. -/
theorem OnLine_rejected_or_appended_witness :
    (textOnlyAggregator.feed threeInputs).OnLine (ascii "stdout") (ascii "skip me")
      = (textOnlyAggregator.feed threeInputs, none) ∧
    ((textOnlyAggregator.feed threeInputs).OnLine (ascii "stdout") (ascii "ok")).1.lines
      = [ascii "found [REDACTED]", ascii "ok", ascii "ok"] :=
  ⟨(OnLine_rejected_or_appended (textOnlyAggregator.feed threeInputs) (ascii "stdout")
      (ascii "skip me")).1 (by decide),
   ((OnLine_rejected_or_appended (textOnlyAggregator.feed threeInputs) (ascii "stdout")
      (ascii "ok")).2 (by decide)).1.trans (by decide)⟩

theorem OnLine_context (a : Aggregator) (stream line : GoString)
    (h : Filters.Allow a.filt (Redactor.Apply a.red line) = true) :
    (a.OnLine stream line).1.context
      = if 0 < Alerts.ContextLines a.alert then
          lastN (Alerts.ContextLines a.alert).toNat (a.context ++ [Redactor.Apply a.red line])
        else a.context ++ [Redactor.Apply a.red line] := by
  have hrej : ¬ (Filters.Allow a.filt (Redactor.Apply a.red line) = false) := by simp [h]
  unfold Aggregator.OnLine lastN
  simp only [Apply_of_isSome, Allow_of_isSome, if_neg hrej]
  cases ha : a.alert with
  | none => simp [Alerts.ContextLines]
  | some al =>
    simp only [Option.isSome_some, true_and, Alerts.ContextLines]
    by_cases hn : 0 < al.context
    · by_cases hlen : ((a.context ++ [Redactor.Apply a.red line]).length : Int) > al.context
      · simp only [hn, hlen, and_self, if_true]
        split_ifs <;> rfl
      · have hz : (a.context ++ [Redactor.Apply a.red line]).length - al.context.toNat = 0 := by
          omega
        simp only [hn, hlen, and_false, if_false, if_true, hz, List.drop_zero]
        split_ifs <;> rfl
    · simp only [hn, false_and, if_false]
      split_ifs <;> rfl

/-- C14, as the code has it. The alert send started by `OnLine` carries the
accepted (redacted) line and the context window as it is after the line was
appended and the window trimmed: for a context size `N > 0` the last `N`
accepted lines, the matching line being the last of them (so it is preceded by
at most `N - 1` earlier lines), and every accepted line when `N <= 0`. For the
pattern `ERROR`, context size 2 and accepted lines `x`, `y`, `ERROR: boom` the
alert context is `[y, ERROR: boom]`. -/
theorem OnLine_alert_context (a : Aggregator) (stream line : GoString) :
    (a.OnLine stream line).2
      = (if Filters.Allow a.filt (Redactor.Apply a.red line) = true
            ∧ Alerts.Match a.alert (Redactor.Apply a.red line) = true then
          some { matched := Redactor.Apply a.red line,
                 ctx := if 0 < Alerts.ContextLines a.alert then
                     lastN (Alerts.ContextLines a.alert).toNat
                       (a.context ++ [Redactor.Apply a.red line])
                   else a.context ++ [Redactor.Apply a.red line] }
        else none) ∧
    ((alertAggregator.feed [(ascii "stdout", ascii "x"), (ascii "stdout", ascii "y")]).OnLine
        (ascii "stdout") (ascii "ERROR: boom")).2
      = some { matched := ascii "ERROR: boom", ctx := [ascii "y", ascii "ERROR: boom"] } := by
  refine ⟨?_, by decide⟩
  by_cases h : Filters.Allow a.filt (Redactor.Apply a.red line) = true
  · have hc := OnLine_context a stream line h
    have hrej : ¬ (Filters.Allow a.filt (Redactor.Apply a.red line) = false) := by simp [h]
    have hm : (a.alert.isSome = true ∧ Alerts.Match a.alert (Redactor.Apply a.red line) = true)
        ↔ Alerts.Match a.alert (Redactor.Apply a.red line) = true := by
      cases a.alert <;> simp [Alerts.Match]
    rw [← hc]
    unfold Aggregator.OnLine
    simp only [Apply_of_isSome, Allow_of_isSome, if_neg hrej, hm]
    simp only [h, true_and]
    split_ifs <;> rfl
  · have hf : Filters.Allow a.filt (Redactor.Apply a.red line) = false := by
      simpa using h
    rw [OnLine_rejected a stream line hf]
    simp [hf]

/-- C14 fails as stated: for the pattern `ERROR`, context size 2 and accepted
lines `x`, `y`, `ERROR: boom`, the alert context is not `[x, y, ERROR: boom]`;
the window is trimmed to two lines before the snapshot. -/
theorem alert_context_is_trimmed :
    ((alertAggregator.feed [(ascii "stdout", ascii "x"), (ascii "stdout", ascii "y")]).OnLine
        (ascii "stdout") (ascii "ERROR: boom")).2
      ≠ some { matched := ascii "ERROR: boom",
               ctx := [ascii "x", ascii "y", ascii "ERROR: boom"] } := by
  decide

/-! ## Aggregator: the mode policy -/

theorem FlushAll_nonempty (a : Aggregator) (reason : GoString) (hd : a.disp.isSome = true)
    (hl : a.lines ≠ []) :
    (a.FlushAll reason).2 = Aggregator.FlushAll.dispatch { a with lines := [] } a.lines := by
  have hn : a.disp.isNone = false := by
    cases hx : a.disp with
    | none => rw [hx] at hd; cases hd
    | some d => rfl
  have hlen : ¬ a.lines.length = 0 := fun h => hl (List.length_eq_zero.mp h)
  unfold Aggregator.FlushAll
  simp only [hn, Bool.false_eq_true, if_false, hlen]

theorem sendText_some (a : Aggregator) (title text : GoString) (hd : a.disp.isSome = true) :
    a.sendText title text = [Broadcast.Text (title ++ nl ++ WrapCodeBlockMarkdown text)] := by
  have hn : a.disp.isNone = false := by
    cases hx : a.disp with
    | none => rw [hx] at hd; cases hd
    | some d => rfl
  unfold Aggregator.sendText
  simp only [hn, Bool.false_eq_true, if_false]

/-- C16. For a non-empty list, `Summary(lines, top)` is `Lines: n`, a blank
line, `Top k:` and the first `k` lines joined by newlines, with `n` the number
of lines and `k` the smaller of `n` and `top` (30 when `top <= 0`); in mode
`summary`, `FlushAll` of a non-empty buffer makes one `BroadcastText` call, its
text the title and this digest with `top = 30` in a code block, whatever the
length, and no `BroadcastFile` call. -/
theorem Summary_digest (lines : List GoString) (top : Int) (h : lines ≠ []) :
    Summary lines top
      = ascii "Lines: " ++ fmt.d lines.length ++ ascii "\n\nTop "
          ++ fmt.d (min lines.length (if top ≤ 0 then 30 else top).toNat) ++ ascii ":\n"
          ++ JoinLines (lines.take (min lines.length (if top ≤ 0 then 30 else top).toNat)) ∧
    ∀ (a : Aggregator) (reason : GoString), a.disp.isSome = true → a.lines = lines →
      strings.ToLower a.cfg.Mode = ascii "summary" →
      (a.FlushAll reason).2
        = [Broadcast.Text (ascii "Output summary" ++ nl
            ++ WrapCodeBlockMarkdown (Summary lines 30))] := by
  constructor
  · have hlen : ¬ lines.length = 0 := fun h0 => h (List.length_eq_zero.mp h0)
    unfold Summary
    simp only [hlen, if_false]
    by_cases hgt : (lines.length : Int) > (if top ≤ 0 then 30 else top)
    · have hk : min lines.length (if top ≤ 0 then 30 else top).toNat
          = (if top ≤ 0 then 30 else top).toNat := by
        apply Nat.min_eq_right
        omega
      have hk2 : (lines.take (if top ≤ 0 then 30 else top).toNat).length
          = (if top ≤ 0 then 30 else top).toNat := by
        rw [List.length_take]
        omega
      simp only [hgt, if_true, hk, hk2]
    · have hk : min lines.length (if top ≤ 0 then 30 else top).toNat = lines.length := by
        apply Nat.min_eq_left
        have : (0 : Int) ≤ (if top ≤ 0 then 30 else top) := by split_ifs <;> omega
        omega
      simp only [hgt, if_false, hk, List.take_length]
  · intro a reason hd hl hm
    subst hl
    rw [FlushAll_nonempty a reason hd h]
    unfold Aggregator.FlushAll.dispatch
    simp only [hm, if_true]
    exact sendText_some _ _ _ hd

/-- A concrete instance of C16: three lines with `top = 2`, and two lines with
the default. -/
theorem Summary_digest_witness :
    Summary [ascii "a", ascii "b", ascii "c"] 2 = ascii "Lines: 3\n\nTop 2:\na\nb" ∧
    Summary [ascii "a", ascii "b"] 0 = ascii "Lines: 2\n\nTop 2:\na\nb" :=
  ⟨(Summary_digest [ascii "a", ascii "b", ascii "c"] 2 (by decide)).1.trans (by decide),
   (Summary_digest [ascii "a", ascii "b"] 0 (by decide)).1.trans (by decide)⟩

theorem sendAttach_max_pos (a : Aggregator) : 0 < Aggregator.sendAttach.max a := by
  unfold Aggregator.sendAttach.max
  simp only []
  have h1 : (0 : Int) < (if (a.cfg.Attach.PartMaxBytes.lookup (ascii "webhook")).getD 0 ≤ 0
      then 10000000 else (a.cfg.Attach.PartMaxBytes.lookup (ascii "webhook")).getD 0) := by
    split_ifs <;> omega
  cases a.cfg.Attach.PartMaxBytes.lookup (ascii "discord") <;>
    cases a.cfg.Attach.PartMaxBytes.lookup (ascii "telegram") <;>
    simp only [] <;> split_ifs <;> omega

theorem BuildAttachmentParts_ne_nil (lines : List GoString) (maxBytes : Int)
    (h : 0 < maxBytes) (hl : lines ≠ []) : BuildAttachmentParts lines maxBytes ≠ [] := by
  intro hnil
  have hc := foldl_concat maxBytes lines { parts := [], buf := [] }
  have hparts : (BuildAttachmentParts lines maxBytes).flatten
      = (lines.map (fun l => l ++ nl)).flatten := by
    unfold BuildAttachmentParts
    rw [if_neg (not_le.mpr h)]
    simp only [List.flatten_nil, List.nil_append] at hc ⊢
    split_ifs with hb
    · simpa using hc
    · have h0 : (List.foldl (BuildAttachmentParts.step maxBytes) { parts := [], buf := [] }
          lines).buf = [] := by
        apply List.length_eq_zero.mp
        omega
      rw [h0, List.append_nil] at hc
      exact hc
  rw [hnil] at hparts
  cases lines with
  | nil => exact hl rfl
  | cons l rest =>
    have : ((List.map (fun l => l ++ nl) (l :: rest)).flatten).length = 0 := by
      rw [← hparts]; rfl
    simp [nl] at this

theorem parts_flatten (lines : List GoString) (maxBytes : Int) (h : 0 < maxBytes) :
    (BuildAttachmentParts lines maxBytes).flatten = renderLines lines := by
  have hc := foldl_concat maxBytes lines { parts := [], buf := [] }
  unfold BuildAttachmentParts renderLines
  rw [if_neg (not_le.mpr h)]
  simp only [List.flatten_nil, List.nil_append] at hc ⊢
  split_ifs with hb
  · simpa using hc
  · have h0 : (List.foldl (BuildAttachmentParts.step maxBytes) { parts := [], buf := [] }
        lines).buf = [] := by
      apply List.length_eq_zero.mp
      omega
    rw [h0, List.append_nil] at hc
    exact hc

theorem fileData_loop (title : GoString) (n : Nat) (parts : List GoString) :
    ∀ i, fileData (Aggregator.sendAttach.loop title n i parts) = parts.flatten := by
  induction parts with
  | nil => intro i; rfl
  | cons p rest ih =>
    intro i
    unfold Aggregator.sendAttach.loop
    simp only [fileData, ih (i + 1), List.flatten_cons]

theorem isNone_of_isSome {α : Type} (o : Option α) (h : o.isSome = true) : o.isNone = false := by
  cases o with
  | none => cases h
  | some x => rfl

theorem sendAttach_loop_files (title : GoString) (n : Nat) (parts : List GoString) :
    ∀ i, (Aggregator.sendAttach.loop title n i parts).length = parts.length ∧
      ∀ b ∈ Aggregator.sendAttach.loop title n i parts, b.isFile = true := by
  induction parts with
  | nil => intro i; simp [Aggregator.sendAttach.loop]
  | cons p rest ih =>
    intro i
    unfold Aggregator.sendAttach.loop
    obtain ⟨h1, h2⟩ := ih (i + 1)
    refine ⟨by simp [h1], ?_⟩
    intro b hb
    simp only [List.mem_cons] at hb
    rcases hb with hb | hb
    · rw [hb]; rfl
    · exact h2 b hb

theorem sendAttach_files (a : Aggregator) (title : GoString) (lines : List GoString)
    (hd : a.disp.isSome = true) (hl : lines ≠ []) :
    a.sendAttach title lines ≠ [] ∧ ∀ b ∈ a.sendAttach title lines, b.isFile = true := by
  have hn : a.disp.isNone = false := by
    cases hx : a.disp with
    | none => rw [hx] at hd; cases hd
    | some d => rfl
  unfold Aggregator.sendAttach
  simp only [hn, Bool.false_eq_true, if_false]
  split_ifs with ht
  · refine ⟨by simp, ?_⟩
    intro b hb
    simp only [List.mem_singleton] at hb
    rw [hb]; rfl
  · obtain ⟨h1, h2⟩ := sendAttach_loop_files title
      (BuildAttachmentParts lines (Aggregator.sendAttach.max a)).length
      (BuildAttachmentParts lines (Aggregator.sendAttach.max a)) 0
    refine ⟨?_, h2⟩
    intro hnil
    have : (BuildAttachmentParts lines (Aggregator.sendAttach.max a)).length = 0 := by
      rw [← h1, hnil]; rfl
    exact BuildAttachmentParts_ne_nil lines _ (sendAttach_max_pos a) hl
      (List.length_eq_zero.mp this)

theorem BuildAttachmentParts_single (l : GoString) (maxBytes : Int)
    (h : ((l ++ nl).length : Int) ≤ maxBytes) :
    BuildAttachmentParts [l] maxBytes = [l ++ nl] := by
  have hpos : 0 < (l ++ nl).length := by simp [nl]
  have hm : ¬ maxBytes ≤ 0 := by omega
  unfold BuildAttachmentParts
  rw [if_neg hm]
  simp only [List.foldl_cons, List.foldl_nil, BuildAttachmentParts.step, List.length_nil,
    Nat.cast_zero, zero_add, lt_self_iff_false, and_false, if_false, gt_iff_lt, and_true,
    not_lt.mpr h, List.nil_append, hpos, if_true]

theorem sendAttach_single (a : Aggregator) (title l : GoString) (hd : a.disp.isSome = true)
    (hs : strings.ToLower a.cfg.Attach.SplitMode ≠ ascii "tail")
    (h : ((l ++ nl).length : Int) ≤ Aggregator.sendAttach.max a) :
    a.sendAttach title [l]
      = [Broadcast.File (ascii "output.part.001.log") (ascii "text/plain") (l ++ nl)
          (title ++ ascii " (part 1/1)")] := by
  have hn := isNone_of_isSome a.disp hd
  unfold Aggregator.sendAttach
  simp only [hn, Bool.false_eq_true, if_false, hs, BuildAttachmentParts_single l _ h]
  have e1 : ascii "output.part." ++ fmt.d03 (0 + 1) ++ ascii ".log"
      = ascii "output.part.001.log" := by decide
  have e2 : ascii " (part " ++ fmt.d (0 + 1) ++ ascii "/" ++ fmt.d 1 ++ ascii ")"
      = ascii " (part 1/1)" := by decide
  simp only [Aggregator.sendAttach.loop, e1, List.length_singleton]
  rw [← e2]
  simp only [List.append_assoc]

theorem sendAttach_loop_single (a : Aggregator) (title l : GoString) (hl : a.lines = [l])
    (h : ((l ++ nl).length : Int) ≤ Aggregator.sendAttach.max a) :
    Aggregator.sendAttach.loop title
        (BuildAttachmentParts a.lines (Aggregator.sendAttach.max a)).length 0
        (BuildAttachmentParts a.lines (Aggregator.sendAttach.max a))
      = [Broadcast.File (ascii "output.part.001.log") (ascii "text/plain") (l ++ nl)
          (title ++ ascii " (part 1/1)")] := by
  have e1 : ascii "output.part." ++ fmt.d03 (0 + 1) ++ ascii ".log"
      = ascii "output.part.001.log" := by decide
  have e2 : ascii " (part " ++ fmt.d (0 + 1) ++ ascii "/" ++ fmt.d 1 ++ ascii ")"
      = ascii " (part 1/1)" := by decide
  rw [hl, BuildAttachmentParts_single l _ h]
  simp only [Aggregator.sendAttach.loop, e1, List.length_singleton]
  rw [← e2]
  simp only [List.append_assoc]

theorem FlushAll_auto (a : Aggregator) (reason : GoString)
    (hd : a.disp.isSome = true) (hl : a.lines ≠ []) (hm : a.modeAuto = true) :
    (a.FlushAll reason).2
      = if (JoinLines (Aggregator.FlushAll.selected a a.lines)).length > 3500
            ∧ a.cfg.Attach.Enabled = true then
          a.sendAttach (ascii "Output batch") a.lines
        else Aggregator.sendText a (ascii "Output batch")
          (JoinLines (Aggregator.FlushAll.selected a a.lines)) := by
  unfold Aggregator.modeAuto at hm
  simp only [Bool.not_eq_true', Bool.or_eq_false_iff, decide_eq_false_iff_not] at hm
  obtain ⟨⟨hm1, hm2⟩, hm3⟩ := hm
  rw [FlushAll_nonempty a reason hd hl]
  unfold Aggregator.FlushAll.dispatch Aggregator.FlushAll.selected
  simp only [hm1, hm2, hm3, if_false]
  split_ifs <;> rfl

theorem hugeLine_length : (hugeLine ++ nl).length = 9000001 := by
  have h1 : hugeLine.length = 9000000 := List.length_replicate _ _
  rw [List.length_append, h1]
  rfl

theorem euros_length (n : Nat) : (euros n).length = 3 * n := by
  induction n with
  | zero => rfl
  | succ k ih =>
    have e : euros (k + 1) = [0xE2, 0x82, 0xAC] ++ euros k := by
      simp [euros, List.replicate_succ]
    rw [e, List.length_append, ih]
    simp only [List.length_cons, List.length_nil]
    omega

theorem euros_count (n : Nat) : utf8.RuneCountInString (euros n) = n := by
  induction n with
  | zero => rfl
  | succ k ih =>
    have e : euros (k + 1) = 0xE2 :: 0x82 :: 0xAC :: euros k := by
      simp [euros, List.replicate_succ]
    have hw : utf8.DecodeRuneWidth (0xE2 :: 0x82 :: 0xAC :: euros k) = 3 := by
      simp [utf8.DecodeRuneWidth, utf8.inRange, UInt8.size]
    unfold utf8.RuneCountInString at ih ⊢
    rw [e]
    simp only [utf8.RuneCountInString.go, hw, ih]
    omega

theorem attachAggregator_selected (clients : List Client) (partMax : List (GoString × Int))
    (lines xs : List GoString) :
    Aggregator.FlushAll.selected (attachAggregator clients partMax lines) xs = xs := by
  have h1 : ¬ strings.ToLower ([] : GoString) = ascii "head" := by decide
  have h2 : ¬ strings.ToLower ([] : GoString) = ascii "tail" := by decide
  show (if strings.ToLower ([] : GoString) = ascii "head" then _
    else if strings.ToLower ([] : GoString) = ascii "tail" then _ else xs) = xs
  rw [if_neg h1, if_neg h2]

theorem attachAggregator_modeAuto (clients : List Client) (partMax : List (GoString × Int))
    (lines : List GoString) : (attachAggregator clients partMax lines).modeAuto = true := by
  show (!(decide (strings.ToLower ([] : GoString) = ascii "summary")
    || decide (strings.ToLower ([] : GoString) = ascii "text-only")
    || decide (strings.ToLower ([] : GoString) = ascii "attach-only"))) = true
  decide

theorem JoinLines_single (l : GoString) : JoinLines [l] = l := rfl

theorem attachAggregator_max_nil (clients : List Client) (lines : List GoString) :
    Aggregator.sendAttach.max (attachAggregator clients [] lines) = 10000000 := rfl

theorem attachAggregator_split (clients : List Client) (partMax : List (GoString × Int))
    (lines : List GoString) :
    strings.ToLower (attachAggregator clients partMax lines).cfg.Attach.SplitMode
      ≠ ascii "tail" := by
  show strings.ToLower ([] : GoString) ≠ ascii "tail"
  decide

/-- C12, as the code has it. In mode `auto` (the default case of the mode
switch), `FlushAll` of a non-empty buffer on an aggregator with a dispatcher
compares the length in bytes of the joined selected text, Go `len`, with
3,500. When it is larger and attachments are enabled, the batch is sent as an
attachment and not as text: every call is a `BroadcastFile`, there is at least
one, in split mode the files are the parts of `BuildAttachmentParts` over all
the lines of the batch and their data put end to end is every line of the
batch with its newline, and in tail mode there is one file `output.log` with
the last `attach.tail_lines` lines of the batch. Otherwise exactly one
`BroadcastText` call is made, with the title and the joined selected text in a
code block. -/
theorem FlushAll_auto_policy (a : Aggregator) (reason : GoString)
    (hd : a.disp.isSome = true) (hl : a.lines ≠ []) (hm : a.modeAuto = true) :
    (((JoinLines (Aggregator.FlushAll.selected a a.lines)).length > 3500
        ∧ a.cfg.Attach.Enabled = true) →
      (a.FlushAll reason).2 ≠ [] ∧ (∀ b ∈ (a.FlushAll reason).2, b.isFile = true) ∧
      (strings.ToLower a.cfg.Attach.SplitMode ≠ ascii "tail" →
        (a.FlushAll reason).2
          = Aggregator.sendAttach.loop (ascii "Output batch")
              (BuildAttachmentParts a.lines (Aggregator.sendAttach.max a)).length 0
              (BuildAttachmentParts a.lines (Aggregator.sendAttach.max a)) ∧
        ((a.FlushAll reason).2).length
          = (BuildAttachmentParts a.lines (Aggregator.sendAttach.max a)).length ∧
        fileData (a.FlushAll reason).2 = renderLines a.lines) ∧
      (strings.ToLower a.cfg.Attach.SplitMode = ascii "tail" →
        (a.FlushAll reason).2
          = [Broadcast.File (ascii "output.log") (ascii "text/plain")
              (JoinLines (TailLines a.lines a.cfg.Attach.TailLines) ++ nl)
              (ascii "Output batch")])) ∧
    (¬ ((JoinLines (Aggregator.FlushAll.selected a a.lines)).length > 3500
        ∧ a.cfg.Attach.Enabled = true) →
      (a.FlushAll reason).2
        = [Broadcast.Text (ascii "Output batch" ++ nl
            ++ WrapCodeBlockMarkdown (JoinLines (Aggregator.FlushAll.selected a a.lines)))]) := by
  have hn := isNone_of_isSome a.disp hd
  constructor
  · intro hc
    rw [FlushAll_auto a reason hd hl hm, if_pos hc]
    refine ⟨(sendAttach_files a _ a.lines hd hl).1, (sendAttach_files a _ a.lines hd hl).2,
      ?_, ?_⟩
    · intro ht
      have e : a.sendAttach (ascii "Output batch") a.lines
          = Aggregator.sendAttach.loop (ascii "Output batch")
              (BuildAttachmentParts a.lines (Aggregator.sendAttach.max a)).length 0
              (BuildAttachmentParts a.lines (Aggregator.sendAttach.max a)) := by
        unfold Aggregator.sendAttach
        simp only [hn, Bool.false_eq_true, if_false, ht]
      rw [e]
      refine ⟨rfl, (sendAttach_loop_files _ _ _ 0).1, ?_⟩
      rw [fileData_loop]
      exact parts_flatten a.lines _ (sendAttach_max_pos a)
    · intro ht
      unfold Aggregator.sendAttach
      simp only [hn, Bool.false_eq_true, if_false, ht, if_true]
  · intro hc
    rw [FlushAll_auto a reason hd hl hm, if_neg hc]
    exact sendText_some a _ _ hd

/-- A concrete instance of C12: one line of 4,000 bytes, attachments enabled,
default mode: the batch is sent as one file holding the line, and not as
text. -/
theorem FlushAll_auto_policy_witness :
    (attachAggregator [Client.webhook] [] [longLine]).modeAuto = true ∧
    (JoinLines (Aggregator.FlushAll.selected (attachAggregator [Client.webhook] [] [longLine])
        [longLine])).length = 4000 ∧
    ((attachAggregator [Client.webhook] [] [longLine]).FlushAll (ascii "tick")).2
      = [Broadcast.File (ascii "output.part.001.log") (ascii "text/plain") (longLine ++ nl)
          (ascii "Output batch (part 1/1)")] :=
  have hlen : (JoinLines (Aggregator.FlushAll.selected
      (attachAggregator [Client.webhook] [] [longLine]) [longLine])).length = 4000 := by
    rw [attachAggregator_selected]
    show longLine.length = 4000
    exact List.length_replicate _ _
  have hfit : (((longLine ++ nl).length : Nat) : Int)
      ≤ Aggregator.sendAttach.max (attachAggregator [Client.webhook] [] [longLine]) := by
    have h1 : longLine.length = 4000 := List.length_replicate _ _
    have h2 : nl.length = 1 := rfl
    rw [attachAggregator_max_nil, List.length_append, h1, h2]
    decide
  ⟨attachAggregator_modeAuto _ _ _, hlen,
   ((((FlushAll_auto_policy (attachAggregator [Client.webhook] [] [longLine])
      (ascii "tick") rfl (List.cons_ne_nil _ _) (attachAggregator_modeAuto _ _ _)).1
        ⟨lt_of_lt_of_eq (by decide : 3500 < 4000) hlen.symm, rfl⟩).2.2.1
          (attachAggregator_split _ _ _)).1).trans
     (sendAttach_loop_single (attachAggregator [Client.webhook] [] [longLine])
        (ascii "Output batch") longLine rfl hfit)⟩


theorem attachAggregator_flush_single (clients : List Client) (partMax : List (GoString × Int))
    (l : GoString) (hlen : 3500 < l.length)
    (hfit : ((l ++ nl).length : Int)
      ≤ Aggregator.sendAttach.max (attachAggregator clients partMax [l])) :
    ((attachAggregator clients partMax [l]).FlushAll (ascii "tick")).2
      = [Broadcast.File (ascii "output.part.001.log") (ascii "text/plain") (l ++ nl)
          (ascii "Output batch (part 1/1)")] := by
  have hc : (JoinLines (Aggregator.FlushAll.selected (attachAggregator clients partMax [l])
      (attachAggregator clients partMax [l]).lines)).length > 3500
        ∧ (attachAggregator clients partMax [l]).cfg.Attach.Enabled = true := by
    refine ⟨?_, rfl⟩
    rw [attachAggregator_selected]
    exact hlen
  rw [FlushAll_auto (attachAggregator clients partMax [l]) (ascii "tick") rfl
    (List.cons_ne_nil _ _) (attachAggregator_modeAuto _ _ _), if_pos hc]
  exact sendAttach_single (attachAggregator clients partMax [l]) (ascii "Output batch") l rfl
    (attachAggregator_split _ _ _) hfit

/-- C12 fails as stated, on the characters: a batch of one line of 1,200 euro
signs has a joined selected text of 1,200 characters, fewer than 3,500, and of
3,600 bytes; in mode `auto` with attachments enabled it is sent as a file and
not as text. -/
theorem FlushAll_auto_counts_bytes :
    (attachAggregator [Client.webhook] [] [euroLine]).modeAuto = true ∧
    (attachAggregator [Client.webhook] [] [euroLine]).cfg.Attach.Enabled = true ∧
    utf8.RuneCountInString (JoinLines (Aggregator.FlushAll.selected
      (attachAggregator [Client.webhook] [] [euroLine]) [euroLine])) = 1200 ∧
    (JoinLines (Aggregator.FlushAll.selected
      (attachAggregator [Client.webhook] [] [euroLine]) [euroLine])).length = 3600 ∧
    ((attachAggregator [Client.webhook] [] [euroLine]).FlushAll (ascii "tick")).2
      = [Broadcast.File (ascii "output.part.001.log") (ascii "text/plain") (euroLine ++ nl)
          (ascii "Output batch (part 1/1)")] := by
  have hlen : euroLine.length = 3600 := euros_length 1200
  have hnl : nl.length = 1 := rfl
  refine ⟨attachAggregator_modeAuto _ _ _, rfl, ?_, ?_, ?_⟩
  · rw [attachAggregator_selected, JoinLines_single]
    exact euros_count 1200
  · rw [attachAggregator_selected, JoinLines_single]
    exact hlen
  · apply attachAggregator_flush_single
    · rw [hlen]; decide
    · rw [attachAggregator_max_nil, List.length_append, hlen, hnl]
      decide

/-- The limit of `sendAttach`. In split mode `sendAttach` passes to
`BuildAttachmentParts` the smallest of three configured ceilings, whether or
not their destinations are enabled: the webhook ceiling (10,000,000 when
missing or not positive) and the positive ceilings configured for `discord`
and `telegram`. It is positive, it is one of the three, and it exceeds none of
them. -/
theorem sendAttach_limit (a : Aggregator) (title : GoString) (lines : List GoString) :
    (a.disp.isSome = true → strings.ToLower a.cfg.Attach.SplitMode ≠ ascii "tail" →
      a.sendAttach title lines
        = Aggregator.sendAttach.loop title
            (BuildAttachmentParts lines (Aggregator.sendAttach.max a)).length 0
            (BuildAttachmentParts lines (Aggregator.sendAttach.max a))) ∧
    0 < Aggregator.sendAttach.max a ∧
    Aggregator.sendAttach.max a ≤ webhookCeiling a ∧
    (∀ v, a.cfg.Attach.PartMaxBytes.lookup (ascii "discord") = some v → 0 < v →
      Aggregator.sendAttach.max a ≤ v) ∧
    (∀ v, a.cfg.Attach.PartMaxBytes.lookup (ascii "telegram") = some v → 0 < v →
      Aggregator.sendAttach.max a ≤ v) ∧
    (Aggregator.sendAttach.max a = webhookCeiling a
      ∨ a.cfg.Attach.PartMaxBytes.lookup (ascii "discord") = some (Aggregator.sendAttach.max a)
      ∨ a.cfg.Attach.PartMaxBytes.lookup (ascii "telegram")
          = some (Aggregator.sendAttach.max a)) := by
  refine ⟨?_, sendAttach_max_pos a, ?_, ?_, ?_, ?_⟩
  · intro hd ht
    have hn : a.disp.isNone = false := by
      cases hx : a.disp with
      | none => rw [hx] at hd; cases hd
      | some d => rfl
    unfold Aggregator.sendAttach
    simp only [hn, Bool.false_eq_true, if_false, ht]
  all_goals
    simp only [Aggregator.sendAttach.max, webhookCeiling]
    cases a.cfg.Attach.PartMaxBytes.lookup (ascii "discord") <;>
      cases a.cfg.Attach.PartMaxBytes.lookup (ascii "telegram") <;>
      simp only [Option.some.injEq, forall_eq', reduceCtorEq, false_implies, implies_true,
        false_or, or_false] <;>
      split_ifs <;> omega

theorem performAll_file_discord (filename contentType data caption : GoString) :
    Dispatcher.performAll (NewDispatcher [Client.discord])
        [Broadcast.File filename contentType data caption]
      = .ok { workers := [{ c := Client.discord,
                            ch := { buf := [job.SendFile filename contentType data caption],
                                    closed := false } }],
              closed := false } := rfl

/-- C13, on the code: with `--attach-max-bytes webhook=50000000` and discord
the only destination, `sendAttach` splits at 50,000,000 bytes, above the
8,000,000 of `DiscordClient.MaxAttachBytes`: a batch of one line of 9,000,000
bytes is flushed as a single file of 9,000,001 bytes, and that file is the job
put on the queue of the discord worker. The limit is computed from the
configured map alone: it is the same whatever the dispatcher and its clients
are. -/
theorem split_limit_above_discord_ceiling :
    (attachAggregator [Client.discord] [(ascii "webhook", 50000000)] [hugeLine]).disp
      = some (NewDispatcher [Client.discord]) ∧
    (NewDispatcher [Client.discord]).workers.map (fun w => w.c.MaxAttachBytes) = [8000000] ∧
    Aggregator.sendAttach.max
        (attachAggregator [Client.discord] [(ascii "webhook", 50000000)] [hugeLine])
      = 50000000 ∧
    ((attachAggregator [Client.discord] [(ascii "webhook", 50000000)] [hugeLine]).FlushAll
        (ascii "tick")).2
      = [Broadcast.File (ascii "output.part.001.log") (ascii "text/plain") (hugeLine ++ nl)
          (ascii "Output batch (part 1/1)")] ∧
    (hugeLine ++ nl).length = 9000001 ∧
    Dispatcher.performAll (NewDispatcher [Client.discord])
        [Broadcast.File (ascii "output.part.001.log") (ascii "text/plain") (hugeLine ++ nl)
          (ascii "Output batch (part 1/1)")]
      = .ok { workers := [{ c := Client.discord,
                            ch := { buf := [job.SendFile (ascii "output.part.001.log")
                                      (ascii "text/plain") (hugeLine ++ nl)
                                      (ascii "Output batch (part 1/1)")],
                                    closed := false } }],
              closed := false } ∧
    (∀ (a : Aggregator) (d : Option Dispatcher),
      Aggregator.sendAttach.max { a with disp := d } = Aggregator.sendAttach.max a) := by
  have hmax : Aggregator.sendAttach.max
      (attachAggregator [Client.discord] [(ascii "webhook", 50000000)] [hugeLine])
        = 50000000 := by decide
  have hlen : hugeLine.length = 9000000 := List.length_replicate _ _
  refine ⟨rfl, by decide, hmax, ?_, hugeLine_length, performAll_file_discord _ _ _ _,
    fun _ _ => rfl⟩
  apply attachAggregator_flush_single
  · rw [hlen]; decide
  · rw [hmax, hugeLine_length]
    decide

/-! ## Dispatcher -/

theorem wellFormed_open (d : Dispatcher) (hw : d.wellFormed = true) (ho : d.closed = false) :
    ∀ w ∈ d.workers, w.ch.closed = false := by
  unfold Dispatcher.wellFormed at hw
  rw [ho, Bool.false_or, List.all_eq_true] at hw
  intro w hwm
  simpa using hw w hwm

theorem enqueue_loop_ok (j : job) (ws : List clientWorker)
    (h : ∀ w ∈ ws, w.ch.closed = false) :
    Dispatcher.enqueue.loop ws j
      = .ok (ws.map (fun w => { w with ch := { w.ch with buf := w.ch.buf ++ [j] } })) := by
  induction ws with
  | nil => rfl
  | cons w rest ih =>
    have hw := h w (List.mem_cons_self _ _)
    have hr := ih (fun x hx => h x (List.mem_cons_of_mem _ hx))
    unfold Dispatcher.enqueue.loop
    simp [Chan.send, hw, hr]

theorem Close_loop_ok (ws : List clientWorker) (h : ∀ w ∈ ws, w.ch.closed = false) :
    Dispatcher.Close.loop ws
      = .ok (ws.map (fun w => { w with ch := { w.ch with closed := true } })) := by
  induction ws with
  | nil => rfl
  | cons w rest ih =>
    have hw := h w (List.mem_cons_self _ _)
    have hr := ih (fun x hx => h x (List.mem_cons_of_mem _ hx))
    unfold Dispatcher.Close.loop
    simp [Chan.close, hw, hr]

theorem enqueue_open (d : Dispatcher) (hw : d.wellFormed = true) (ho : d.closed = false)
    (j : job) :
    d.enqueue j
      = .ok ({ d with workers :=
          d.workers.map (fun w => { w with ch := { w.ch with buf := w.ch.buf ++ [j] } }) },
          none) := by
  unfold Dispatcher.enqueue
  rw [enqueue_loop_ok j d.workers (wellFormed_open d hw ho)]
  simp [ho]

theorem perform_open (d : Dispatcher) (hw : d.wellFormed = true) (ho : d.closed = false)
    (hne : d.workers ≠ []) (b : Broadcast) :
    d.perform b
      = .ok ({ d with workers :=
          d.workers.map (fun w => { w with ch := { w.ch with buf := w.ch.buf ++ [b.job] } }) },
          none) := by
  have hlen : ¬ d.workers.length = 0 := fun h => hne (List.length_eq_zero.mp h)
  cases b with
  | Text text =>
    show d.BroadcastText text = _
    unfold Dispatcher.BroadcastText
    rw [if_neg hlen]
    exact enqueue_open d hw ho _
  | File filename contentType data caption =>
    show d.BroadcastFile filename contentType data caption = _
    unfold Dispatcher.BroadcastFile
    rw [if_neg hlen]
    exact enqueue_open d hw ho _

theorem perform_rejected (d : Dispatcher) (h : d.workers = [] ∨ d.closed = true)
    (b : Broadcast) : ∃ err, d.perform b = .ok (d, some err) := by
  cases b with
  | Text text =>
    show ∃ err, d.BroadcastText text = _
    unfold Dispatcher.BroadcastText Dispatcher.enqueue
    by_cases hl : d.workers.length = 0
    · exact ⟨_, by rw [if_pos hl]⟩
    · rcases h with h | h
      · exact absurd (by rw [h]; rfl) hl
      · exact ⟨_, by rw [if_neg hl, if_pos h]⟩
  | File filename contentType data caption =>
    show ∃ err, d.BroadcastFile filename contentType data caption = _
    unfold Dispatcher.BroadcastFile Dispatcher.enqueue
    by_cases hl : d.workers.length = 0
    · exact ⟨_, by rw [if_pos hl]⟩
    · rcases h with h | h
      · exact absurd (by rw [h]; rfl) hl
      · exact ⟨_, by rw [if_neg hl, if_pos h]⟩

/-- C17. `BroadcastText` and `BroadcastFile` return an error and leave every
worker queue as it was when the dispatcher has no workers or has been closed;
otherwise they return no error. -/
theorem Broadcast_error_iff (d : Dispatcher) (hw : d.wellFormed = true)
    (text filename contentType data caption : GoString) :
    ((d.workers = [] ∨ d.closed = true) →
      (∃ err, d.BroadcastText text = .ok (d, some err)) ∧
      (∃ err, d.BroadcastFile filename contentType data caption = .ok (d, some err))) ∧
    (¬ (d.workers = [] ∨ d.closed = true) →
      (∃ d1, d.BroadcastText text = .ok (d1, none)) ∧
      (∃ d1, d.BroadcastFile filename contentType data caption = .ok (d1, none))) := by
  constructor
  · intro h
    exact ⟨perform_rejected d h (.Text text),
      perform_rejected d h (.File filename contentType data caption)⟩
  · intro h
    push_neg at h
    have ho : d.closed = false := by simpa using h.2
    exact ⟨⟨_, perform_open d hw ho h.1 (.Text text)⟩,
      ⟨_, perform_open d hw ho h.1 (.File filename contentType data caption)⟩⟩

/-- A concrete instance of C17: a dispatcher without workers, a closed one and
an open one with two workers. -/
theorem Broadcast_error_iff_witness :
    (NewDispatcher []).BroadcastText (ascii "hi")
      = .ok (NewDispatcher [], some (ascii "no notification clients enabled")) ∧
    (∃ err, closedDispatcher.BroadcastFile (ascii "f") (ascii "text/plain") (ascii "x")
        (ascii "c") = .ok (closedDispatcher, some err)) ∧
    (∃ d1, (NewDispatcher [Client.discord, Client.slack]).BroadcastText (ascii "hi")
      = .ok (d1, none)) :=
  ⟨rfl,
   ((Broadcast_error_iff closedDispatcher (by decide) (ascii "hi") (ascii "f")
      (ascii "text/plain") (ascii "x") (ascii "c")).1 (Or.inr (by decide))).2,
   ((Broadcast_error_iff (NewDispatcher [Client.discord, Client.slack]) (by decide) (ascii "hi")
      (ascii "f") (ascii "text/plain") (ascii "x") (ascii "c")).2 (by decide)).1⟩

theorem receiveAt_clients (ws : List clientWorker) :
    ∀ i, (receiveAt ws i).map (fun w => w.c) = ws.map (fun w => w.c) := by
  induction ws with
  | nil => intro i; rfl
  | cons w rest ih =>
    intro i
    cases i with
    | zero => rfl
    | succ n =>
      show w.c :: (receiveAt rest n).map _ = _
      rw [ih n]
      rfl

theorem receiveAt_open (ws : List clientWorker) :
    ∀ i, (receiveAt ws i).all (fun w => !w.ch.closed) = ws.all (fun w => !w.ch.closed) := by
  induction ws with
  | nil => intro i; rfl
  | cons w rest ih =>
    intro i
    cases i with
    | zero => rfl
    | succ n =>
      show ((!w.ch.closed) && (receiveAt rest n).all _) = _
      rw [ih n]
      rfl

theorem Close_ok (d : Dispatcher) (hw : d.wellFormed = true) :
    d.Close = .ok (if d.closed then d
      else { workers := d.workers.map (fun w => { w with ch := { buf := [], closed := true } }),
             closed := true }) := by
  unfold Dispatcher.Close
  by_cases hc : d.closed = true
  · simp [hc]
  · have ho : d.closed = false := by simpa using hc
    rw [Close_loop_ok d.workers (wellFormed_open d hw ho)]
    simp [ho, Dispatcher.wait]

theorem step_ok (d : Dispatcher) (hw : d.wellFormed = true) (op : DOp) :
    ∃ d1, d.step op = .ok d1 ∧ d1.wellFormed = true ∧
      d1.workers.map (fun w => w.c) = d.workers.map (fun w => w.c) := by
  cases op with
  | Call b =>
    by_cases h : d.workers = [] ∨ d.closed = true
    · obtain ⟨err, he⟩ := perform_rejected d h b
      exact ⟨d, by simp [Dispatcher.step, he], hw, rfl⟩
    · push_neg at h
      have ho : d.closed = false := by simpa using h.2
      refine ⟨{ d with workers := d.workers.map (fun w =>
          { w with ch := { w.ch with buf := w.ch.buf ++ [b.job] } }) },
        by simp only [Dispatcher.step, perform_open d hw ho h.1 b], ?_, ?_⟩
      · have := wellFormed_open d hw ho
        simp only [Dispatcher.wellFormed, ho, Bool.false_or, List.all_map, List.all_eq_true]
        intro w hwm
        simpa using this w hwm
      · simp [List.map_map, Function.comp]
  | Close =>
    refine ⟨(if d.closed then d
      else { workers := d.workers.map (fun w => { w with ch := { buf := [], closed := true } }),
             closed := true }), by simp only [Dispatcher.step, Close_ok d hw], ?_, ?_⟩
    · split_ifs with hc
      · exact hw
      · simp [Dispatcher.wellFormed]
    · split_ifs with hc
      · rfl
      · simp [List.map_map, Function.comp]
  | Receive i =>
    refine ⟨_, rfl, ?_, receiveAt_clients d.workers i⟩
    simp only [Dispatcher.wellFormed] at hw ⊢
    rw [receiveAt_open d.workers i]
    exact hw

theorem run_ok (ops : List DOp) :
    ∀ d : Dispatcher, d.wellFormed = true →
      ∃ d1, d.run ops = .ok d1 ∧ d1.wellFormed = true ∧
        d1.workers.map (fun w => w.c) = d.workers.map (fun w => w.c) := by
  induction ops with
  | nil => intro d hw; exact ⟨d, rfl, hw, rfl⟩
  | cons op rest ih =>
    intro d hw
    obtain ⟨d1, h1, hw1, hc1⟩ := step_ok d hw op
    obtain ⟨d2, h2, hw2, hc2⟩ := ih d1 hw1
    refine ⟨d2, ?_, hw2, hc2.trans hc1⟩
    simp only [Dispatcher.run, h1, h2]

theorem performAll_open (calls : List Broadcast) :
    ∀ d : Dispatcher, d.wellFormed = true → d.closed = false → d.workers ≠ [] →
      d.performAll calls
        = .ok { d with workers := d.workers.map (fun w =>
            { w with ch := { w.ch with buf := w.ch.buf ++ calls.map Broadcast.job } }) } := by
  induction calls with
  | nil =>
    intro d _ _ _
    simp [Dispatcher.performAll]
  | cons b rest ih =>
    intro d hw ho hne
    have hopen := wellFormed_open d hw ho
    have hw1 : ({ d with workers := d.workers.map (fun w =>
        { w with ch := { w.ch with buf := w.ch.buf ++ [b.job] } }) } : Dispatcher).wellFormed
        = true := by
      simp only [Dispatcher.wellFormed, ho, Bool.false_or, List.all_map, List.all_eq_true]
      intro w hwm
      simpa using hopen w hwm
    have hne1 : d.workers.map (fun w =>
        ({ w with ch := { w.ch with buf := w.ch.buf ++ [b.job] } } : clientWorker)) ≠ [] := by
      simpa using hne
    simp only [Dispatcher.performAll, perform_open d hw ho hne b]
    rw [ih _ hw1 ho hne1]
    simp [List.map_map, Function.comp, List.append_assoc]

/-- C18. On an open dispatcher with at least one worker, a `BroadcastText` or
`BroadcastFile` call appends one job, the same for all, at the end of the queue
of every worker, so after a sequence of calls every queue has grown by the jobs
of the calls in call order; and whatever is called on a dispatcher (broadcasts,
`Close`) and whatever its workers receive, its list of clients stays the one it
was built with by `NewDispatcher`. -/
theorem Broadcast_appends_to_every_queue (d : Dispatcher) (hw : d.wellFormed = true)
    (ho : d.closed = false) (hne : d.workers ≠ []) :
    (∀ b : Broadcast, d.perform b
      = .ok ({ d with workers := d.workers.map (fun w =>
          { w with ch := { w.ch with buf := w.ch.buf ++ [b.job] } }) }, none)) ∧
    (∀ calls : List Broadcast, d.performAll calls
      = .ok { d with workers := d.workers.map (fun w =>
          { w with ch := { w.ch with buf := w.ch.buf ++ calls.map Broadcast.job } }) }) ∧
    (∀ ops : List DOp, ∃ d1, d.run ops = .ok d1 ∧
      d1.workers.map (fun w => w.c) = d.workers.map (fun w => w.c)) ∧
    (∀ clients : List Client,
      (NewDispatcher clients).workers.map (fun w => w.c) = clients ∧
      (NewDispatcher clients).wellFormed = true ∧ (NewDispatcher clients).closed = false ∧
      ∀ ops : List DOp, ∃ d1, (NewDispatcher clients).run ops = .ok d1 ∧
        d1.workers.map (fun w => w.c) = clients) := by
  refine ⟨perform_open d hw ho hne, fun calls => performAll_open calls d hw ho hne, ?_, ?_⟩
  · intro ops
    obtain ⟨d1, h1, _, h3⟩ := run_ok ops d hw
    exact ⟨d1, h1, h3⟩
  · intro clients
    have hc : (NewDispatcher clients).workers.map (fun w => w.c) = clients := by
      induction clients with
      | nil => rfl
      | cons c rest ih => simpa [NewDispatcher] using ih
    have hwf : (NewDispatcher clients).wellFormed = true := by
      simp [NewDispatcher, Dispatcher.wellFormed, List.all_map]
    refine ⟨hc, hwf, rfl, ?_⟩
    intro ops
    obtain ⟨d1, h1, _, h3⟩ := run_ok ops (NewDispatcher clients) hwf
    exact ⟨d1, h1, h3.trans hc⟩

/-- A concrete instance of C18: two broadcasts on a fresh dispatcher for
discord and slack; both queues hold the two jobs in call order. -/
theorem Broadcast_appends_to_every_queue_witness :
    (NewDispatcher [Client.discord, Client.slack]).performAll
        [Broadcast.Text (ascii "one"),
         Broadcast.File (ascii "f") (ascii "text/plain") (ascii "two") (ascii "c")]
      = .ok { workers :=
                [{ c := Client.discord,
                   ch := { buf := [job.SendText (ascii "one"),
                                   job.SendFile (ascii "f") (ascii "text/plain") (ascii "two")
                                     (ascii "c")],
                           closed := false } },
                 { c := Client.slack,
                   ch := { buf := [job.SendText (ascii "one"),
                                   job.SendFile (ascii "f") (ascii "text/plain") (ascii "two")
                                     (ascii "c")],
                           closed := false } }],
              closed := false } :=
  ((Broadcast_appends_to_every_queue (NewDispatcher [Client.discord, Client.slack])
      (by decide) rfl (by decide)).2.1
    [Broadcast.Text (ascii "one"),
     Broadcast.File (ascii "f") (ascii "text/plain") (ascii "two") (ascii "c")]).trans rfl

/-- C20. `Close` is guarded against a second call: on an open dispatcher it
closes every worker queue (once, without fault), waits for the workers and
leaves the dispatcher marked closed; on a closed dispatcher it returns at once,
closes nothing, does not fault and leaves the state as it is; so `Close`
followed by `Close` is `Close`. -/
theorem Close_idempotent (d : Dispatcher) (hw : d.wellFormed = true) :
    ∃ d1, d.Close = .ok d1 ∧ d1.closed = true ∧
      (d.closed = false →
        d1.workers = d.workers.map (fun w => { w with ch := { buf := [], closed := true } })) ∧
      (d.closed = true → d1 = d) ∧
      d1.Close = .ok d1 ∧
      (d.Close >>= Dispatcher.Close) = d.Close := by
  have h1 := Close_ok d hw
  by_cases hc : d.closed = true
  · rw [if_pos hc] at h1
    refine ⟨d, h1, hc, ?_, fun _ => rfl, h1, ?_⟩
    · intro ho; rw [ho] at hc; cases hc
    · rw [h1]; exact h1
  · have ho : d.closed = false := by simpa using hc
    rw [if_neg hc] at h1
    have h2 : Dispatcher.Close
        { workers := d.workers.map (fun w => { w with ch := { buf := [], closed := true } }),
          closed := true }
        = .ok { workers := d.workers.map
                  (fun w => { w with ch := { buf := [], closed := true } }),
                closed := true } := by
      unfold Dispatcher.Close
      simp
    refine ⟨_, h1, rfl, fun _ => rfl, ?_, h2, ?_⟩
    · intro ht; exact absurd ht hc
    · rw [h1]; exact h2

/-- A concrete instance of C20: a dispatcher for discord and slack with one
pending job, closed twice. -/
theorem Close_idempotent_witness :
    ∃ d1, pendingDispatcher.Close = .ok d1 ∧ d1 = closedDispatcher ∧
      d1.Close = .ok d1 :=
  match Close_idempotent pendingDispatcher (by decide) with
  | ⟨d1, h1, _, h3, _, h5, _⟩ => ⟨d1, h1, by
      have hw := h3 rfl
      have hcl : d1.closed = true := by assumption
      cases d1
      simp only at hw hcl
      subst hw hcl
      rfl, h5⟩

/-- C19. For every job and every sequence of outcomes of the send function,
with `f` the number of attempts that fail before the first success (5 when the
first five all fail): the worker calls the send function `min (f + 1) 5` times,
so at most 5 times and never again after a success; after the `k`-th failed
attempt (`k = 1..f`) it logs a warning and sleeps `500 ms * k`; and after the
job, also after five failures, it goes on with the next job of its queue. The
worker returns nothing to the caller of the broadcast. -/
theorem worker_retries (c : Client) (j : job) (outcome : Nat → Option Error) :
    Dispatcher.worker.attempts c j outcome 5 0
      = (List.range (leadingFailures outcome 5 0)).flatMap (fun k =>
          [Event.Call c j, Event.Warn c.Name ((outcome k).getD []) ((k : Int) + 1),
           Event.Sleep (500 * ((k : Int) + 1) * time.Millisecond)])
        ++ (if leadingFailures outcome 5 0 < 5 then [Event.Call c j] else []) ∧
    (calls (Dispatcher.worker.attempts c j outcome 5 0)).length
      = min (leadingFailures outcome 5 0 + 1) 5 ∧
    (calls (Dispatcher.worker.attempts c j outcome 5 0)).length ≤ 5 ∧
    sleeps (Dispatcher.worker.attempts c j outcome 5 0)
      = (List.range (leadingFailures outcome 5 0)).map (fun k =>
          500 * ((k : Int) + 1) * time.Millisecond) ∧
    (∀ (rest : List job) (outs : Nat → Nat → Option Error),
      Dispatcher.worker c (j :: rest) outs
        = Dispatcher.worker.attempts c j (outs 0) 5 0
          ++ Dispatcher.worker c rest (fun i => outs (i + 1))) := by
  have hms : time.Millisecond = 1000000 := rfl
  refine ⟨?_, ?_, ?_, ?_, fun _ _ => rfl⟩ <;>
  · rcases h0 : outcome 0 with _ | e0 <;>
    rcases h1 : outcome 1 with _ | e1 <;>
    rcases h2 : outcome 2 with _ | e2 <;>
    rcases h3 : outcome 3 with _ | e3 <;>
    rcases h4 : outcome 4 with _ | e4 <;>
    simp [Dispatcher.worker.attempts, leadingFailures, calls, sleeps, h0, h1, h2, h3, h4,
      List.range_succ, hms]

/-- A concrete instance of C19: the send fails twice and then succeeds; and it
fails every time. -/
theorem worker_retries_witness :
    Dispatcher.worker.attempts Client.discord (job.SendText (ascii "hi"))
        (fun k => if k < 2 then some (ascii "status 500") else none) 5 0
      = [Event.Call Client.discord (job.SendText (ascii "hi")),
         Event.Warn (ascii "discord") (ascii "status 500") 1, Event.Sleep 500000000,
         Event.Call Client.discord (job.SendText (ascii "hi")),
         Event.Warn (ascii "discord") (ascii "status 500") 2, Event.Sleep 1000000000,
         Event.Call Client.discord (job.SendText (ascii "hi"))] ∧
    sleeps (Dispatcher.worker.attempts Client.discord (job.SendText (ascii "hi"))
        (fun _ => some (ascii "down")) 5 0)
      = [500000000, 1000000000, 1500000000, 2000000000, 2500000000] ∧
    (calls (Dispatcher.worker.attempts Client.discord (job.SendText (ascii "hi"))
        (fun _ => some (ascii "down")) 5 0)).length = 5 :=
  ⟨(worker_retries Client.discord (job.SendText (ascii "hi"))
      (fun k => if k < 2 then some (ascii "status 500") else none)).1.trans (by decide),
   (worker_retries Client.discord (job.SendText (ascii "hi"))
      (fun _ => some (ascii "down"))).2.2.2.1.trans (by decide),
   (worker_retries Client.discord (job.SendText (ascii "hi"))
      (fun _ => some (ascii "down"))).2.1.trans (by decide)⟩

end notify


/-! ## Sanitizer: progress stripping -/

namespace util

theorem isPrefixOf_singleton (c b : UInt8) (rest : GoString) :
    ([c] : GoString).isPrefixOf (b :: rest) = (c == b) := by
  simp [List.isPrefixOf]

theorem ReplaceAll_cr_of_not_mem (t : GoString) (h : (13 : UInt8) ∉ t) :
    strings.ReplaceAll t [13] [] = t := by
  unfold strings.ReplaceAll
  induction t with
  | nil => rfl
  | cons b rest ih =>
    have hb : ¬ (13 : UInt8) = b := fun e => h (e ▸ List.mem_cons_self _ _)
    have hr : (13 : UInt8) ∉ rest := fun e => h (List.mem_cons_of_mem _ e)
    have hbeq : ((13 : UInt8) == b) = false := by simpa using hb
    unfold strings.Replacer.go
    simp only [List.find?, isPrefixOf_singleton, hbeq]
    rw [ih hr]

theorem LastIndex_cr (s : GoString) :
    ∀ (pos : Nat) (best : Int),
      ((13 : UInt8) ∉ s → strings.LastIndex.go [13] s pos best = best) ∧
      ((13 : UInt8) ∈ s → ∃ k : Nat, strings.LastIndex.go [13] s pos best = ((pos + k : Nat) : Int)
        ∧ (13 : UInt8) ∉ s.drop (k + 1) ∧ s = s.take k ++ 13 :: s.drop (k + 1)) := by
  induction s with
  | nil =>
    intro pos best
    refine ⟨fun _ => ?_, fun h => absurd h (List.not_mem_nil _)⟩
    simp [strings.LastIndex.go]
  | cons b rest ih =>
    intro pos best
    unfold strings.LastIndex.go
    rw [isPrefixOf_singleton]
    obtain ⟨ih1, ih2⟩ := ih (pos + 1) (if ((13 : UInt8) == b) = true then (pos : Int) else best)
    by_cases hr : (13 : UInt8) ∈ rest
    · refine ⟨fun h => absurd (List.mem_cons_of_mem _ hr) h, fun _ => ?_⟩
      obtain ⟨k, hk1, hk2, hk3⟩ := ih2 hr
      refine ⟨k + 1, ?_, ?_, ?_⟩
      · rw [hk1]; congr 1; omega
      · simpa using hk2
      · simp only [List.take_succ_cons, List.drop_succ_cons, List.cons_append]
        rw [← hk3]
    · rw [ih1 hr]
      by_cases hb : (13 : UInt8) = b
      · refine ⟨fun h => absurd (hb ▸ List.mem_cons_self _ _) h, fun _ => ?_⟩
        refine ⟨0, by simp [hb], by simpa using hr, ?_⟩
        simp [hb]
      · refine ⟨fun _ => by simp [hb], fun h => ?_⟩
        rcases List.mem_cons.mp h with h | h
        · exact absurd h hb
        · exact absurd h hr

theorem StripProgress_of_not_mem (s : GoString) (h : (13 : UInt8) ∉ s) :
    StripProgress s = s := by
  unfold StripProgress strings.LastIndex
  rw [(LastIndex_cr s 0 (-1)).1 h]
  simp only [ge_iff_le, show ¬ (0 : Int) ≤ -1 by decide, if_false]
  exact ReplaceAll_cr_of_not_mem s h

/-- C21. `StripProgress(s)` is `s` itself when `s` has no carriage return, and
otherwise the text of `s` after its last carriage return; the result has no
carriage return, and `StripProgress` is idempotent. -/
theorem StripProgress_after_last_cr (s : GoString) :
    ((13 : UInt8) ∉ s → StripProgress s = s) ∧
    ((13 : UInt8) ∈ s → ∃ before, s = before ++ 13 :: StripProgress s) ∧
    (13 : UInt8) ∉ StripProgress s ∧
    StripProgress (StripProgress s) = StripProgress s := by
  have key : ((13 : UInt8) ∈ s → ∃ before, s = before ++ 13 :: StripProgress s) ∧
      (13 : UInt8) ∉ StripProgress s := by
    by_cases h : (13 : UInt8) ∈ s
    · obtain ⟨k, hk1, hk2, hk3⟩ := (LastIndex_cr s 0 (-1)).2 h
      have e : StripProgress s = s.drop (k + 1) := by
        unfold StripProgress strings.LastIndex
        rw [hk1]
        have hge : ((0 + k : Nat) : Int) ≥ 0 := Int.ofNat_nonneg _
        simp only [hge, if_true, Int.toNat_ofNat, Nat.zero_add]
        exact ReplaceAll_cr_of_not_mem _ hk2
      rw [e]
      exact ⟨fun _ => ⟨s.take k, hk3⟩, hk2⟩
    · rw [StripProgress_of_not_mem s h]
      exact ⟨fun h1 => absurd h1 h, h⟩
  exact ⟨StripProgress_of_not_mem s, key.1, key.2, StripProgress_of_not_mem _ key.2⟩

end util

/-! ## Telegram: MarkdownV2 escaping -/

namespace notify

theorem find_singletons (b : UInt8) (rest : GoString) (cs : List UInt8) :
    (cs.map (fun c => (([c] : GoString), ([92, c] : GoString)))).find?
        (fun p => p.1.isPrefixOf (b :: rest))
      = if b ∈ cs then some ([b], [92, b]) else none := by
  induction cs with
  | nil => rfl
  | cons c rest1 ih =>
    simp only [List.map_cons, List.find?, util.isPrefixOf_singleton]
    by_cases h : c = b
    · subst h
      simp
    · have hbeq : (c == b) = false := by simpa using h
      have hne : ¬ b = c := fun e => h e.symm
      simp only [hbeq, ih, List.mem_cons, hne, false_or]

theorem find_reserved (b : UInt8) (rest : GoString) :
    markdownV2Pairs.find? (fun p => p.1.isPrefixOf (b :: rest))
      = if b ∈ reserved then some ([b], [92, b]) else none := by
  have hp : markdownV2Pairs
      = reserved.map (fun c => (([c] : GoString), ([92, c] : GoString))) := by decide
  rw [hp]
  exact find_singletons b rest reserved

theorem EscapeMarkdownV2_eq (s : GoString) : EscapeMarkdownV2 s = escaped s := by
  unfold EscapeMarkdownV2 strings.Replacer.Replace escaped
  induction s with
  | nil => rfl
  | cons b rest ih =>
    unfold strings.Replacer.go
    rw [find_reserved, List.flatMap_cons]
    by_cases h : b ∈ reserved
    · simp only [h, if_true]
      rw [← ih]
      rfl
    · simp only [h, if_false]
      rw [← ih]
      rfl

theorem escaped_preceded (s : GoString) :
    ∀ pre b post, escaped s = pre ++ b :: post → b ∈ reserved → ∃ pre', pre = pre' ++ [92] := by
  induction s with
  | nil =>
    intro pre b post h _
    simp [escaped] at h
  | cons c rest ih =>
    intro pre b post h hb
    have hc : escaped (c :: rest)
        = (if c ∈ reserved then [92, c] else [c]) ++ escaped rest := by
      simp [escaped, List.flatMap_cons]
    rw [hc] at h
    by_cases hcr : c ∈ reserved
    · rw [if_pos hcr] at h
      -- escaped = 92 :: c :: escaped rest
      cases pre with
      | nil =>
        simp only [List.nil_append, List.cons_append, List.cons.injEq] at h
        rw [← h.1] at hb
        exact absurd hb (by decide)
      | cons p0 pre1 =>
        cases pre1 with
        | nil =>
          simp only [List.cons_append, List.nil_append, List.cons.injEq] at h
          exact ⟨[], by simp [h.1]⟩
        | cons p1 pre2 =>
          simp only [List.cons_append, List.nil_append, List.cons.injEq] at h
          obtain ⟨h0, h1, h2⟩ := h
          obtain ⟨pre', hp⟩ := ih pre2 b post h2 hb
          exact ⟨p0 :: p1 :: pre', by simp [hp]⟩
    · rw [if_neg hcr] at h
      cases pre with
      | nil =>
        simp only [List.nil_append, List.cons_append, List.cons.injEq] at h
        rw [← h.1] at hb
        exact absurd hb hcr
      | cons p0 pre1 =>
        simp only [List.cons_append, List.nil_append, List.cons.injEq] at h
        obtain ⟨pre', hp⟩ := ih pre1 b post h.2 hb
        exact ⟨p0 :: pre', by simp [hp]⟩

theorem escaped_length (s : GoString) :
    (escaped s).length = s.length + (s.filter (fun b => decide (b ∈ reserved))).length := by
  induction s with
  | nil => rfl
  | cons c rest ih =>
    have hc : escaped (c :: rest)
        = (if c ∈ reserved then [92, c] else [c]) ++ escaped rest := by
      simp [escaped, List.flatMap_cons]
    rw [hc, List.length_append, ih]
    by_cases hcr : c ∈ reserved
    · simp [hcr]; omega
    · simp [hcr]; omega

/-- C23. `EscapeMarkdownV2(s)` is `s` with a backslash put before each reserved
character and every other byte, the backslash included, kept in order; every
reserved character of the output is preceded by a backslash, and the length of
the output is `len(s)` plus the number of reserved characters in `s`. -/
theorem EscapeMarkdownV2_escapes (s : GoString) :
    EscapeMarkdownV2 s = s.flatMap (fun b => if b ∈ reserved then [92, b] else [b]) ∧
    (∀ pre b post, EscapeMarkdownV2 s = pre ++ b :: post → b ∈ reserved →
      ∃ pre', pre = pre' ++ [92]) ∧
    (EscapeMarkdownV2 s).length
      = s.length + (s.filter (fun b => decide (b ∈ reserved))).length ∧
    EscapeMarkdownV2 (ascii "a_b.c\\!") = ascii "a\\_b\\.c\\\\!" := by
  refine ⟨EscapeMarkdownV2_eq s, ?_, ?_, by decide⟩
  · rw [EscapeMarkdownV2_eq]
    exact escaped_preceded s
  · rw [EscapeMarkdownV2_eq]
    exact escaped_length s

end notify

/-! ## Formatter: greedy chunking -/

namespace notify

theorem renderLines_concat (cur : List GoString) (l : GoString) :
    renderLines (cur ++ [l]) = renderLines cur ++ (l ++ nl) := by
  simp [renderLines]

theorem renderLines_eq_nil (g : List GoString) : renderLines g = [] ↔ g = [] := by
  cases g with
  | nil => simp [renderLines]
  | cons l rest => simp [renderLines, nl]

theorem chain_concat (maxBytes : Int) (gs : List (List GoString)) (g : List GoString)
    (h : List.Chain' (NotFit maxBytes) gs) (h2 : ∀ x ∈ gs.getLast?, NotFit maxBytes x g) :
    List.Chain' (NotFit maxBytes) (gs ++ [g]) := by
  rw [List.chain'_append]
  refine ⟨h, List.chain'_singleton _, ?_⟩
  intro x hx y hy
  simp only [List.head?_cons, Option.mem_def, Option.some.injEq] at hy
  subst hy
  exact h2 x hx

theorem greedy_step (maxBytes : Int) (st : PartsState) (gs : List (List GoString))
    (cur processed : List GoString) (l : GoString)
    (hinv : GreedyInv maxBytes st gs cur processed) :
    ∃ gs1 cur1, GreedyInv maxBytes (BuildAttachmentParts.step maxBytes st l) gs1 cur1
      (processed ++ [l]) := by
  obtain ⟨hp, hb, hne, hch, hlast, hover, hfl⟩ := hinv
  have hcur : st.buf.length = 0 ↔ cur = [] := by
    rw [List.length_eq_zero, hb, renderLines_eq_nil]
  unfold BuildAttachmentParts.step
  simp only []
  split_ifs with h1 h2 h2
  · -- the buffer is closed and the oversized line is a part of its own
    have hcne : cur ≠ [] := fun e => by
      have := hcur.mpr e
      omega
    have hch1 := chain_concat maxBytes gs cur hch hlast
    refine ⟨gs ++ [cur] ++ [[l]], [], ?_, rfl, ?_, ?_, ?_, ?_, ?_⟩
    · simp [hp, hb, renderLines]
    · intro g hg
      simp only [List.mem_append, List.mem_singleton] at hg
      rcases hg with (hg | hg) | hg
      · exact hne g hg
      · rw [hg]; exact hcne
      · rw [hg]; simp
    · refine chain_concat maxBytes (gs ++ [cur]) [l] hch1 ?_
      intro x hx
      rw [List.getLast?_concat] at hx
      simp only [Option.mem_def, Option.some.injEq] at hx
      subst hx
      intro y hy
      simp only [List.head?_cons, Option.mem_def, Option.some.injEq] at hy
      subst hy
      rw [← hb]
      exact h1.1
    · intro g _ y hy
      simp at hy
    · intro _ g hg
      rw [List.getLast?_concat] at hg
      simp only [Option.mem_def, Option.some.injEq] at hg
      subst hg
      simpa [renderLines] using h2.1
    · simp [← hfl]
  · -- the buffer is closed and the line starts the next one
    have hcne : cur ≠ [] := fun e => by
      have := hcur.mpr e
      omega
    refine ⟨gs ++ [cur], [l], ?_, ?_, ?_, chain_concat maxBytes gs cur hch hlast, ?_, ?_, ?_⟩
    · simp [hp, hb]
    · simp [renderLines]
    · intro g hg
      simp only [List.mem_append, List.mem_singleton] at hg
      rcases hg with hg | hg
      · exact hne g hg
      · rw [hg]; exact hcne
    · intro x hx
      rw [List.getLast?_concat] at hx
      simp only [Option.mem_def, Option.some.injEq] at hx
      subst hx
      intro y hy
      simp only [List.head?_cons, Option.mem_def, Option.some.injEq] at hy
      subst hy
      rw [← hb]
      exact h1.1
    · intro e; cases e
    · simp [← hfl]
  · -- empty buffer, the oversized line is a part of its own
    have hc0 : cur = [] := hcur.mp h2.2
    refine ⟨gs ++ [[l]], cur, ?_, hb, ?_, ?_, ?_, ?_, ?_⟩
    · simp [hp, renderLines]
    · intro g hg
      simp only [List.mem_append, List.mem_singleton] at hg
      rcases hg with hg | hg
      · exact hne g hg
      · rw [hg]; simp
    · refine chain_concat maxBytes gs [l] hch ?_
      intro x hx y hy
      have := hover hc0 x hx
      simp only [List.head?_cons, Option.mem_def, Option.some.injEq] at hy
      subst hy
      have hpos : (0 : Int) ≤ ((l ++ nl).length : Int) := Int.ofNat_nonneg _
      omega
    · intro g _ y hy
      rw [hc0] at hy
      simp at hy
    · intro _ g hg
      rw [List.getLast?_concat] at hg
      simp only [Option.mem_def, Option.some.injEq] at hg
      subst hg
      simpa [renderLines] using h2.1
    · simp [← hfl, hc0]
  · -- the line is appended to the buffer
    refine ⟨gs, cur ++ [l], hp, ?_, hne, hch, ?_, ?_, ?_⟩
    · rw [renderLines_concat, hb]
    · intro g hg y hy
      cases hc : cur with
      | nil =>
        rw [hc] at hy
        simp only [List.nil_append, List.head?_cons, Option.mem_def, Option.some.injEq] at hy
        subst hy
        have := hover hc g hg
        have hpos : (0 : Int) ≤ ((l ++ nl).length : Int) := Int.ofNat_nonneg _
        omega
      | cons c rest =>
        rw [hc] at hy
        simp only [List.cons_append, List.head?_cons, Option.mem_def, Option.some.injEq] at hy
        subst hy
        exact hlast g hg c (by rw [hc]; simp)
    · intro e
      simp at e
    · rw [← List.append_assoc, hfl]

theorem greedy_fold (maxBytes : Int) (ls : List GoString) :
    ∀ (st : PartsState) (gs : List (List GoString)) (cur processed : List GoString),
      GreedyInv maxBytes st gs cur processed →
      ∃ gs1 cur1, GreedyInv maxBytes (ls.foldl (BuildAttachmentParts.step maxBytes) st) gs1 cur1
        (processed ++ ls) := by
  induction ls with
  | nil =>
    intro st gs cur processed h
    exact ⟨gs, cur, by simpa using h⟩
  | cons l rest ih =>
    intro st gs cur processed h
    obtain ⟨gs1, cur1, h1⟩ := greedy_step maxBytes st gs cur processed l h
    obtain ⟨gs2, cur2, h2⟩ := ih _ gs1 cur1 (processed ++ [l]) h1
    exact ⟨gs2, cur2, by simpa using h2⟩

/-- C25. For `maxBytes > 0` the parts returned by `BuildAttachmentParts` are the
renderings of consecutive non-empty groups of the input lines, and for any two
consecutive groups the bytes of the first plus the bytes of the first line of
the second (with its `"\n"`) exceed `maxBytes`: a part is closed only when the
next line does not fit. No part is empty. -/
theorem BuildAttachmentParts_greedy (lines : List GoString) (maxBytes : Int)
    (h : 0 < maxBytes) :
    ∃ groups : List (List GoString),
      groups.flatten = lines ∧ (∀ g ∈ groups, g ≠ []) ∧
      BuildAttachmentParts lines maxBytes = groups.map renderLines ∧
      List.Chain' (NotFit maxBytes) groups ∧
      ∀ p ∈ BuildAttachmentParts lines maxBytes, p ≠ [] := by
  have h0 : GreedyInv maxBytes { parts := [], buf := [] } [] [] [] := by
    refine ⟨rfl, rfl, ?_, List.chain'_nil, ?_, ?_, rfl⟩
    · intro g hg; cases hg
    · intro g hg; simp at hg
    · intro _ g hg; simp at hg
  obtain ⟨gs, cur, hp, hb, hne, hch, hlast, _, hfl⟩ :=
    greedy_fold maxBytes lines _ [] [] [] h0
  have hcur : (lines.foldl (BuildAttachmentParts.step maxBytes) { parts := [], buf := [] }).buf.length
      = 0 ↔ cur = [] := by
    rw [List.length_eq_zero, hb, renderLines_eq_nil]
  have hres : ∃ groups : List (List GoString),
      groups.flatten = lines ∧ (∀ g ∈ groups, g ≠ []) ∧
      BuildAttachmentParts lines maxBytes = groups.map renderLines ∧
      List.Chain' (NotFit maxBytes) groups := by
    unfold BuildAttachmentParts
    rw [if_neg (not_le.mpr h)]
    simp only []
    split_ifs with hbuf
    · have hcne : cur ≠ [] := fun e => by
        have := hcur.mpr e
        omega
      refine ⟨gs ++ [cur], ?_, ?_, ?_, chain_concat maxBytes gs cur hch hlast⟩
      · simpa using hfl
      · intro g hg
        simp only [List.mem_append, List.mem_singleton] at hg
        rcases hg with hg | hg
        · exact hne g hg
        · rw [hg]; exact hcne
      · simp [hp, hb]
    · have hc0 : cur = [] := hcur.mp (by omega)
      refine ⟨gs, ?_, hne, hp, hch⟩
      simpa [hc0] using hfl
  obtain ⟨groups, g1, g2, g3, g4⟩ := hres
  refine ⟨groups, g1, g2, g3, g4, ?_⟩
  intro p hp1
  rw [g3] at hp1
  obtain ⟨g, hg, rfl⟩ := List.mem_map.mp hp1
  exact fun e => g2 g hg ((renderLines_eq_nil g).mp e)

/-- A concrete instance of C25: budget 5, four lines; the parts are three
groups and each was closed because the next line did not fit. -/
theorem BuildAttachmentParts_greedy_witness :
    (0 : Int) < 5 ∧
    BuildAttachmentParts [ascii "ab", ascii "c", ascii "defgh", ascii "i"] 5
      = [[ascii "ab", ascii "c"], [ascii "defgh"], [ascii "i"]].map renderLines ∧
    ∃ groups : List (List GoString),
      groups.flatten = [ascii "ab", ascii "c", ascii "defgh", ascii "i"] ∧
      BuildAttachmentParts [ascii "ab", ascii "c", ascii "defgh", ascii "i"] 5
        = groups.map renderLines ∧
      List.Chain' (NotFit 5) groups :=
  ⟨by decide, by decide,
   match BuildAttachmentParts_greedy [ascii "ab", ascii "c", ascii "defgh", ascii "i"] 5
     (by decide) with
   | ⟨groups, h1, _, h3, h4, _⟩ => ⟨groups, h1, h3, h4⟩⟩

end notify

/-! ## Sanitizer: ANSI stripping -/

/-! ## Deleting matches: `ReplaceAllString` with an empty replacement -/

namespace regexp

theorem iterate_length_le (step : GoString → List GoString) :
    ∀ n s t, t ∈ Re.iterate step n s → t.length ≤ s.length := by
  intro n
  induction n with
  | zero =>
    intro s t ht
    simp only [Re.iterate, List.mem_singleton] at ht
    rw [ht]
  | succ k ih =>
    intro s t ht
    simp only [Re.iterate, List.mem_append, List.mem_flatMap, List.mem_filter,
      List.mem_singleton, decide_eq_true_eq] at ht
    rcases ht with ⟨u, ⟨_, hlt⟩, htu⟩ | rfl
    · have := ih u t htu
      omega
    · exact le_refl _

theorem run_length_le (re : Re) : ∀ s t, t ∈ Re.run re s → t.length ≤ s.length := by
  induction re with
  | empty =>
    intro s t ht
    simp only [Re.run, List.mem_singleton] at ht
    rw [ht]
  | cls p =>
    intro s t ht
    cases s with
    | nil => simp [Re.run] at ht
    | cons b r =>
      simp only [Re.run] at ht
      split_ifs at ht
      · simp only [List.mem_singleton] at ht
        rw [ht]; simp
      · simp at ht
  | cat a b iha ihb =>
    intro s t ht
    simp only [Re.run, List.mem_flatMap] at ht
    obtain ⟨u, hu, htu⟩ := ht
    exact le_trans (ihb u t htu) (iha s u hu)
  | alt a b iha ihb =>
    intro s t ht
    simp only [Re.run, List.mem_append] at ht
    rcases ht with h | h
    · exact iha s t h
    · exact ihb s t h
  | star a iha =>
    intro s t ht
    simp only [Re.run] at ht
    exact iterate_length_le (Re.run a) s.length s t ht

theorem run_cat_lit_cons (c : UInt8) (w : GoString) (r : Re) (b : UInt8) (rest : GoString) :
    Re.run (.cat (Re.lit (c :: w)) r) (b :: rest)
      = if b = c then Re.run (.cat (Re.lit w) r) rest else [] := by
  by_cases h : b = c
  · simp [Re.run, Re.lit, h]
  · have hb : (b == c) = false := by simpa using h
    simp [Re.run, Re.lit, h, hb]

theorem run_cat_lit_nil_input (c : UInt8) (w : GoString) (r : Re) :
    Re.run (.cat (Re.lit (c :: w)) r) [] = [] := by
  simp [Re.run, Re.lit]

theorem run_cat_lit_nil (r : Re) (s : GoString) :
    Re.run (.cat (Re.lit []) r) s = Re.run r s := by
  simp [Re.run, Re.lit]

theorem DecodeRuneWidth_ascii (b : UInt8) (rest : GoString) (h : b.toNat < 0x80) :
    utf8.DecodeRuneWidth (b :: rest) = 1 := by
  simp [utf8.DecodeRuneWidth, h]

theorem width_core (n : Nat) (k : Nat → Nat → Nat → Bool) (w : Nat)
    (hw : w = (if n < 0x80 then 1
      else if 0xC2 ≤ n ∧ n ≤ 0xDF then (if k 0 0x80 0xBF then 2 else 1)
      else if n = 0xE0 then (if k 0 0xA0 0xBF ∧ k 1 0x80 0xBF then 3 else 1)
      else if n = 0xED then (if k 0 0x80 0x9F ∧ k 1 0x80 0xBF then 3 else 1)
      else if 0xE1 ≤ n ∧ n ≤ 0xEF then (if k 0 0x80 0xBF ∧ k 1 0x80 0xBF then 3 else 1)
      else if n = 0xF0 then (if k 0 0x90 0xBF ∧ k 1 0x80 0xBF ∧ k 2 0x80 0xBF then 4 else 1)
      else if 0xF1 ≤ n ∧ n ≤ 0xF3 then
        (if k 0 0x80 0xBF ∧ k 1 0x80 0xBF ∧ k 2 0x80 0xBF then 4 else 1)
      else if n = 0xF4 then (if k 0 0x80 0x8F ∧ k 1 0x80 0xBF ∧ k 2 0x80 0xBF then 4 else 1)
      else 1 : Nat)) :
    ∀ j, 0 < j → j < w → ∃ lo hi, 0x80 ≤ lo ∧ k (j - 1) lo hi = true := by
  intro j hj hlt
  split_ifs at hw <;> rename_i hc <;> subst hw <;>
    first
    | omega
    | (obtain rfl | rfl | rfl : j = 1 ∨ j = 2 ∨ j = 3 := by omega
       · first
         | (refine ⟨_, _, ?_, hc.1⟩; norm_num)
         | (refine ⟨_, _, ?_, hc⟩; norm_num)
       · first
         | omega
         | (refine ⟨_, _, ?_, hc.2.1⟩; norm_num)
         | (refine ⟨_, _, ?_, hc.2⟩; norm_num)
       · first
         | omega
         | (refine ⟨_, _, ?_, hc.2.2⟩; norm_num))

theorem DecodeRuneWidth_cont (b0 : UInt8) (rest : GoString) (j : Nat) (hj : 0 < j)
    (hlt : j < utf8.DecodeRuneWidth (b0 :: rest)) :
    ∃ b, rest.get? (j - 1) = some b ∧ 0x80 ≤ b.toNat := by
  obtain ⟨lo, hi, hlo, hk⟩ := width_core b0.toNat
    (fun i lo hi => match rest.get? i with
      | some b => utf8.inRange b lo hi
      | none => false) (utf8.DecodeRuneWidth (b0 :: rest)) rfl j hj hlt
  cases hr : rest.get? (j - 1) with
  | none => rw [hr] at hk; cases hk
  | some b =>
    rw [hr] at hk
    refine ⟨b, rfl, ?_⟩
    simp only [utf8.inRange, decide_eq_true_eq] at hk
    omega


theorem search_none_spec (re : Re) (s : GoString) :
    ∀ n pos, Re.search re s n pos = none → ∀ k, k < n → Re.run re (s.drop (pos + k)) = [] := by
  intro n
  induction n with
  | zero => intro pos _ k hk; omega
  | succ m ih =>
    intro pos h k hk
    unfold Re.search at h
    cases hr : Re.run re (s.drop pos) with
    | cons t rest => rw [hr] at h; cases h
    | nil =>
      rw [hr] at h
      cases k with
      | zero => exact hr
      | succ k' =>
        have := ih (pos + 1) h k' (by omega)
        rw [show pos + (k' + 1) = pos + 1 + k' by omega]
        exact this

theorem search_some_spec (re : Re) (s : GoString) :
    ∀ n pos a0 a1, Re.search re s n pos = some (a0, a1) →
      ∃ k t rest, k < n ∧ a0 = pos + k ∧
        (∀ j, j < k → Re.run re (s.drop (pos + j)) = []) ∧
        Re.run re (s.drop a0) = t :: rest ∧ a1 = s.length - t.length := by
  intro n
  induction n with
  | zero => intro pos a0 a1 h; cases h
  | succ m ih =>
    intro pos a0 a1 h
    unfold Re.search at h
    cases hr : Re.run re (s.drop pos) with
    | cons t rest =>
      rw [hr] at h
      simp only [Option.some.injEq, Prod.mk.injEq] at h
      obtain ⟨h0, h1⟩ := h
      refine ⟨0, t, rest, by omega, by omega, fun j hj => by omega, ?_, h1.symm⟩
      rw [← h0]; exact hr
    | nil =>
      rw [hr] at h
      obtain ⟨k, t, rest, hk, h0, hno, hrun, h1⟩ := ih (pos + 1) a0 a1 h
      refine ⟨k + 1, t, rest, by omega, by omega, ?_, hrun, h1⟩
      intro j hj
      cases j with
      | zero => exact hr
      | succ j' =>
        rw [show pos + (j' + 1) = pos + 1 + j' by omega]
        exact hno j' (by omega)

theorem delete_go_skip (re : Re) :
    ∀ k u, k ≤ u.length → Re.delete.go re k u = Re.delete.go re 0 (u.drop k) := by
  intro k
  induction k with
  | zero => intro u _; rfl
  | succ k ih =>
    intro u hk
    cases u with
    | nil => simp at hk
    | cons b rest =>
      simp only [Re.delete.go, List.drop_succ_cons]
      exact ih rest (by simpa using hk)

theorem delete_no_match (re : Re) :
    ∀ u, (∀ k, k < u.length → Re.run re (u.drop k) = []) → Re.delete.go re 0 u = u := by
  intro u
  induction u with
  | nil => intro _; rfl
  | cons b rest ih =>
    intro h
    have h0 : Re.run re (b :: rest) = [] := h 0 (by simp)
    simp only [Re.delete.go, h0]
    rw [ih (fun k hk => by simpa using h (k + 1) (by simpa using hk))]

theorem delete_match (re : Re) :
    ∀ o u t r, (∀ j, j < o → Re.run re (u.drop j) = []) → Re.run re (u.drop o) = t :: r →
      t.length < (u.drop o).length →
      Re.delete.go re 0 u = u.take o ++ Re.delete.go re 0 (u.drop (u.length - t.length)) := by
  intro o
  induction o with
  | zero =>
    intro u t r _ hrun hlt
    cases u with
    | nil => simp at hlt
    | cons b rest =>
      simp only [List.drop_zero] at hrun hlt
      have hne : ¬ (b :: rest).length - t.length = 0 := by omega
      simp only [Re.delete.go, hrun, hne, if_false, List.take_zero, List.nil_append]
      rw [delete_go_skip re _ rest (by simp only [List.length_cons] at hlt ⊢; omega)]
      congr 1
      have : (b :: rest).length - t.length = ((b :: rest).length - t.length - 1) + 1 := by omega
      rw [this, List.drop_succ_cons]
      congr 1
  | succ o ih =>
    intro u t r hno hrun hlt
    cases u with
    | nil => simp at hlt
    | cons b rest =>
      have h0 : Re.run re (b :: rest) = [] := hno 0 (by omega)
      simp only [List.drop_succ_cons] at hrun hlt
      have hle : (rest.drop o).length ≤ rest.length := by simp
      simp only [Re.delete.go, h0, List.take_succ_cons, List.cons_append]
      rw [ih rest t r (fun j hj => by simpa using hno (j + 1) (by omega)) hrun hlt]
      have : (b :: rest).length - t.length = (rest.length - t.length) + 1 := by
        simp only [List.length_cons]; omega
      rw [this, List.drop_succ_cons]


theorem loop_eq_delete (re : Re) (s : GoString)
    (H1 : ∀ u t, t ∈ Re.run re u → t.length < u.length)
    (H2 : ∀ u, Re.run re u ≠ [] → u.head? = some 27) :
    ∀ fuel p buf, p ≤ s.length → s.length + 1 ≤ fuel + p →
      replaceAll.loop (Re.compile re) s [] fuel p p buf
        = buf ++ Re.delete.go re 0 (s.drop p) := by
  intro fuel
  induction fuel with
  | zero => intro p buf hp hf; omega
  | succ fuel ih =>
    intro p buf hp hf
    unfold replaceAll.loop
    rw [if_pos hp]
    have hexec : (Re.compile re).exec s p = Re.search re s (s.length + 1 - p) p := rfl
    rw [hexec]
    cases hs : Re.search re s (s.length + 1 - p) p with
    | none =>
      simp only []
      have hno := search_none_spec re s _ _ hs
      rw [delete_no_match re (s.drop p)]
      intro k hk
      rw [List.drop_drop]
      apply hno
      simp only [List.length_drop] at hk
      omega
    | some m =>
      obtain ⟨a0, a1⟩ := m
      obtain ⟨k, t, rest, hk, h0, hno, hrun, h1⟩ := search_some_spec re s _ _ _ _ hs
      have hlt : t.length < (s.drop a0).length := H1 _ t (by rw [hrun]; exact List.mem_cons_self _ _)
      have hlt' : t.length < s.length - a0 := by simpa using hlt
      have ha0 : a0 < s.length := by omega
      have ha1 : a0 < a1 := by omega
      have ha1' : a1 ≤ s.length := by omega
      -- the next search starts at the end of the match
      have hw : ¬ p + utf8.DecodeRuneWidth (s.drop p) > a1 := by
        have hhead : (s.drop a0).head? = some 27 := H2 _ (by rw [hrun]; simp)
        cases hu : s.drop p with
        | nil =>
          have : (s.drop p).length = 0 := by rw [hu]; rfl
          simp only [List.length_drop] at this
          omega
        | cons b0 tail =>
          by_cases hk0 : k = 0
          · have e : a0 = p := by omega
            rw [e, hu] at hhead
            simp only [List.head?_cons, Option.some.injEq] at hhead
            rw [DecodeRuneWidth_ascii b0 tail (by rw [hhead]; decide)]
            omega
          · by_contra hgt
            have hkw : k < utf8.DecodeRuneWidth (b0 :: tail) := by omega
            obtain ⟨b, hb, hb80⟩ := DecodeRuneWidth_cont b0 tail k (by omega) hkw
            have e2 : (s.drop a0).head? = tail.get? (k - 1) := by
              have : s.drop a0 = (s.drop p).drop k := by rw [List.drop_drop, h0]
              rw [this, hu]
              obtain ⟨k', rfl⟩ : ∃ k', k = k' + 1 := ⟨k - 1, by omega⟩
              simp [List.head?_drop]
            rw [e2, hb] at hhead
            simp only [Option.some.injEq] at hhead
            rw [hhead] at hb80
            revert hb80
            decide
      have hw1 : ¬ p + 1 > a1 := by omega
      simp only [hw, hw1, if_false, List.append_nil]
      have hcond : a1 > p ∨ a0 = 0 := Or.inl (by omega)
      simp only [hcond, if_true]
      rw [ih a1 _ ha1' (by omega)]
      rw [delete_match re k (s.drop p) t rest
        (fun j hj => by rw [List.drop_drop]; exact hno j hj)
        (by rw [List.drop_drop, ← h0]; exact hrun)
        (by rw [List.drop_drop, ← h0]; exact hlt)]
      have e3 : (s.drop p).drop ((s.drop p).length - t.length) = s.drop a1 := by
        rw [List.drop_drop, List.length_drop]
        congr 1
        omega
      rw [e3, List.append_assoc]
      congr 2
      congr 1
      omega

theorem ReplaceAllString_eq_delete (re : Re) (s : GoString)
    (H1 : ∀ u t, t ∈ Re.run re u → t.length < u.length)
    (H2 : ∀ u, Re.run re u ≠ [] → u.head? = some 27) :
    (Re.compile re).ReplaceAllString s [] = Re.delete re s := by
  unfold Regexp.ReplaceAllString Re.delete
  rw [loop_eq_delete re s H1 H2 _ 0 [] (by omega) (by omega)]
  rfl


theorem iterate_cls_head (p : UInt8 → Bool) :
    ∀ (xs u : GoString) (n : Nat), (∀ x ∈ xs, p x = true) → (∀ b ∈ u.head?, p b = false) →
      xs.length ≤ n → ∃ tl, Re.iterate (Re.run (.cls p)) n (xs ++ u) = u :: tl := by
  intro xs
  induction xs with
  | nil =>
    intro u n _ hu _
    cases n with
    | zero => exact ⟨[], rfl⟩
    | succ k =>
      refine ⟨[], ?_⟩
      have hstep : Re.run (.cls p) u = [] := by
        cases u with
        | nil => rfl
        | cons b rest =>
          have hb : p b = false := hu b (by simp)
          simp [Re.run, hb]
      show ((Re.run (.cls p) ([] ++ u)).filter _).flatMap _ ++ [[] ++ u] = _
      rw [List.nil_append, hstep]
      rfl
  | cons x xs ih =>
    intro u n hxs hu hn
    cases n with
    | zero => simp at hn
    | succ k =>
      have hx : p x = true := hxs x (List.mem_cons_self _ _)
      obtain ⟨tl, htl⟩ := ih u k (fun y hy => hxs y (List.mem_cons_of_mem _ hy)) hu
        (by simpa using hn)
      refine ⟨tl ++ [x :: xs ++ u], ?_⟩
      have hstep : Re.run (.cls p) (x :: (xs ++ u)) = [xs ++ u] := by simp [Re.run, hx]
      show ((Re.run (.cls p) (x :: (xs ++ u))).filter
          (fun t => decide (t.length < (x :: (xs ++ u)).length))).flatMap
            (Re.iterate (Re.run (.cls p)) k) ++ [x :: (xs ++ u)] = _
      rw [hstep]
      simp [htl]

theorem run_star_cat_head (p : UInt8 → Bool) (r : Re) (xs u v : GoString) (vs : List GoString)
    (hxs : ∀ x ∈ xs, p x = true) (hu : ∀ b ∈ u.head?, p b = false)
    (hr : Re.run r u = v :: vs) :
    ∃ tl, Re.run (.cat (.star (.cls p)) r) (xs ++ u) = v :: tl := by
  obtain ⟨tl, htl⟩ := iterate_cls_head p xs u (xs ++ u).length hxs hu (by simp)
  refine ⟨vs ++ tl.flatMap (Re.run r), ?_⟩
  show (Re.iterate (Re.run (.cls p)) (xs ++ u).length (xs ++ u)).flatMap (Re.run r) = _
  rw [htl]
  simp [hr]


theorem delete_keep (re : Re) (b : UInt8) (rest : GoString) (h : Re.run re (b :: rest) = []) :
    Re.delete.go re 0 (b :: rest) = b :: Re.delete.go re 0 rest := by
  simp only [Re.delete.go, h]

theorem delete_text (re : Re) (hre : ∀ b rest, b ≠ 27 → Re.run re (b :: rest) = [])
    (t : GoString) (ht : ∀ b ∈ t, b ≠ 27) (rest : GoString) :
    Re.delete.go re 0 (t ++ rest) = t ++ Re.delete.go re 0 rest := by
  induction t with
  | nil => rfl
  | cons b t ih =>
    rw [List.cons_append, delete_keep re b _ (hre b _ (ht b (List.mem_cons_self _ _))),
      ih (fun c hc => ht c (List.mem_cons_of_mem _ hc)), List.cons_append]

theorem delete_skip (re : Re) (m rest : GoString) (tl : List GoString) (hm : m ≠ [])
    (h : Re.run re (m ++ rest) = rest :: tl) :
    Re.delete.go re 0 (m ++ rest) = Re.delete.go re 0 rest := by
  cases m with
  | nil => exact absurd rfl hm
  | cons b m =>
    rw [List.cons_append] at h ⊢
    have hne : ¬ (b :: (m ++ rest)).length - rest.length = 0 := by
      simp only [List.length_cons, List.length_append]; omega
    simp only [Re.delete.go, h, hne, if_false]
    rw [delete_go_skip re _ _ (by simp only [List.length_cons, List.length_append]; omega)]
    congr 1
    have : (b :: (m ++ rest)).length - rest.length - 1 = m.length := by
      simp only [List.length_cons, List.length_append]; omega
    rw [this]
    simp

theorem delete_go_sublist (re : Re) : ∀ u k, (Re.delete.go re k u).Sublist u := by
  intro u
  induction u with
  | nil => intro k; cases k <;> exact List.Sublist.refl _
  | cons b rest ih =>
    intro k
    cases k with
    | succ k => exact (ih k).cons b
    | zero =>
      simp only [Re.delete.go]
      split
      · split_ifs
        · exact (ih 0).cons₂ b
        · exact (ih _).cons b
      · exact (ih 0).cons₂ b


theorem run_esc_first (w : GoString) (r : Re) (b : UInt8) (rest : GoString) (hb : b ≠ 27) :
    Re.run (.cat (Re.lit (27 :: w)) r) (b :: rest) = [] := by
  rw [run_cat_lit_cons, if_neg hb]

theorem run_esc_head (w : GoString) (r : Re) (u : GoString)
    (h : Re.run (.cat (Re.lit (27 :: w)) r) u ≠ []) : u.head? = some 27 := by
  cases u with
  | nil => exact absurd (run_cat_lit_nil_input 27 w r) h
  | cons b rest =>
    by_cases hb : b = 27
    · rw [hb]; rfl
    · exact absurd (run_esc_first w r b rest hb) h

theorem run_esc_shorter (w : GoString) (r : Re) (u t : GoString)
    (h : t ∈ Re.run (.cat (Re.lit (27 :: w)) r) u) : t.length < u.length := by
  cases u with
  | nil => rw [run_cat_lit_nil_input] at h; cases h
  | cons b rest =>
    rw [run_cat_lit_cons] at h
    split_ifs at h
    · have := run_length_le _ rest t h
      simp only [List.length_cons]
      omega
    · cases h

theorem iterate_cls_all (p : UInt8 → Bool) :
    ∀ (xs : GoString) (n : Nat), (∀ x ∈ xs, p x = true) → xs.length ≤ n →
      Re.iterate (Re.run (.cls p)) n xs = xs.tails.reverse := by
  intro xs
  induction xs with
  | nil =>
    intro n _ _
    cases n with
    | zero => rfl
    | succ k => rfl
  | cons x xs ih =>
    intro n hxs hn
    cases n with
    | zero => simp at hn
    | succ k =>
      have hx : p x = true := hxs x (List.mem_cons_self _ _)
      have hstep : Re.run (.cls p) (x :: xs) = [xs] := by simp [Re.run, hx]
      show ((Re.run (.cls p) (x :: xs)).filter
          (fun t => decide (t.length < (x :: xs).length))).flatMap
            (Re.iterate (Re.run (.cls p)) k) ++ [x :: xs] = _
      rw [hstep]
      simp [ih k (fun y hy => hxs y (List.mem_cons_of_mem _ hy)) (by simpa using hn)]

theorem flatMap_tails_head (f : GoString → List GoString) (v y : GoString)
    (hv : f v = [y]) (hno : ∀ w ∈ v.tail.tails, f w = []) (hne : v ≠ []) :
    ∀ pre : GoString, ∃ tl, ((pre ++ v).tails.reverse).flatMap f = y :: tl := by
  intro pre
  induction pre with
  | nil =>
    refine ⟨[], ?_⟩
    cases v with
    | nil => exact absurd rfl hne
    | cons c v' =>
      simp only [List.nil_append, List.tails, List.reverse_cons, List.flatMap_append,
        List.flatMap_cons, List.flatMap_nil, List.append_nil, hv]
      have : (v'.tails.reverse).flatMap f = [] := by
        rw [List.flatMap_eq_nil_iff]
        intro w hw
        exact hno w (by simpa using hw)
      rw [this]
      rfl
  | cons x pre ih =>
    obtain ⟨tl, htl⟩ := ih
    refine ⟨tl ++ f (x :: (pre ++ v)), ?_⟩
    have e : (x :: pre ++ v).tails = (x :: (pre ++ v)) :: (pre ++ v).tails := rfl
    rw [e, List.reverse_cons, List.flatMap_append, htl]
    simp

end regexp

namespace util

theorem run_lit_esc (w t : GoString) (h : (27 : UInt8) ∉ t) :
    regexp.Re.run (regexp.Re.lit (27 :: w)) t = [] := by
  cases t with
  | nil => rfl
  | cons b rest =>
    have hb : ¬ b = 27 := fun e => h (e ▸ List.mem_cons_self _ _)
    have hbeq : (b == (27 : UInt8)) = false := by simpa using hb
    simp [regexp.Re.lit, regexp.Re.run, hbeq]

theorem search_none (re : regexp.Re) (s : GoString)
    (hre : ∀ t, (27 : UInt8) ∉ t → regexp.Re.run re t = [])
    (h : (27 : UInt8) ∉ s) : ∀ n pos, regexp.Re.search re s n pos = none := by
  intro n
  induction n with
  | zero => intro pos; rfl
  | succ k ih =>
    intro pos
    unfold regexp.Re.search
    rw [hre (s.drop pos) (fun hm => h (List.mem_of_mem_drop hm))]
    exact ih (pos + 1)

theorem esc_pattern_no_match (w : GoString) (r : regexp.Re) (s : GoString)
    (h : (27 : UInt8) ∉ s) :
    (regexp.Re.compile (.cat (regexp.Re.lit (27 :: w)) r)).MatchString s = false := by
  have hre : ∀ t, (27 : UInt8) ∉ t →
      regexp.Re.run (.cat (regexp.Re.lit (27 :: w)) r) t = [] := by
    intro t ht
    show (regexp.Re.run (regexp.Re.lit (27 :: w)) t).flatMap (regexp.Re.run r) = []
    rw [run_lit_esc w t ht]
    rfl
  unfold regexp.Regexp.MatchString regexp.Re.compile
  simp only [search_none _ s hre h]
  rfl

theorem ansiOSC_delete (s : GoString) : ansiOSC.ReplaceAllString s [] = regexp.Re.delete oscRe s :=
  regexp.ReplaceAllString_eq_delete oscRe s (fun u t h => regexp.run_esc_shorter _ _ u t h)
    (fun u h => regexp.run_esc_head _ _ u h)

theorem ansiCSI_delete (s : GoString) : ansiCSI.ReplaceAllString s [] = regexp.Re.delete csiRe s :=
  regexp.ReplaceAllString_eq_delete csiRe s (fun u t h => regexp.run_esc_shorter _ _ u t h)
    (fun u h => regexp.run_esc_head _ _ u h)

theorem ansiOther_delete (s : GoString) :
    ansiOther.ReplaceAllString s [] = regexp.Re.delete otherRe s :=
  regexp.ReplaceAllString_eq_delete otherRe s (fun u t h => regexp.run_esc_shorter _ _ u t h)
    (fun u h => regexp.run_esc_head _ _ u h)

theorem StripANSI_eq_delete (s : GoString) :
    StripANSI s = regexp.Re.delete otherRe (regexp.Re.delete csiRe (regexp.Re.delete oscRe s)) := by
  unfold StripANSI
  simp only [ansiOSC_delete, ansiCSI_delete, ansiOther_delete]

theorem between_iff (lo hi : Nat) (b : UInt8) :
    between lo hi b = true ↔ lo ≤ b.toNat ∧ b.toNat ≤ hi := by
  simp [between]

theorem ne_of_toNat_ne (b c : UInt8) (h : b.toNat ≠ c.toNat) : b ≠ c :=
  fun e => h (congrArg UInt8.toNat e)

theorem osc_run_other (d : UInt8) (u : GoString) (hd : d ≠ 0x5d) :
    regexp.Re.run oscRe (27 :: d :: u) = [] := by
  unfold oscRe
  rw [regexp.run_cat_lit_cons, if_pos rfl, regexp.run_cat_lit_cons, if_neg hd]

theorem osc_run_bel (body rest : GoString) (hb : ∀ x ∈ body, x ≠ 7) :
    ∃ tl, regexp.Re.run oscRe (27 :: 0x5d :: (body ++ 7 :: rest)) = rest :: tl := by
  unfold oscRe
  rw [regexp.run_cat_lit_cons, if_pos rfl, regexp.run_cat_lit_cons, if_pos rfl, regexp.run_cat_lit_nil]
  refine regexp.run_star_cat_head _ _ body (7 :: rest) rest [] ?_ ?_ ?_
  · intro x hx
    simpa using hb x hx
  · intro b hb'
    simp only [List.head?_cons, Option.mem_def, Option.some.injEq] at hb'
    subst hb'
    rfl
  · simp [regexp.Re.run, regexp.Re.lit]

theorem osc_run_st (body b : GoString) (hbody : ∀ x ∈ body, x ≠ 7)
    (hb : ∀ x ∈ b, x ≠ 7 ∧ x ≠ 27) :
    ∃ tl, regexp.Re.run oscRe (27 :: 0x5d :: (body ++ 27 :: 0x5c :: b)) = b :: tl := by
  unfold oscRe
  rw [regexp.run_cat_lit_cons, if_pos rfl, regexp.run_cat_lit_cons, if_pos rfl, regexp.run_cat_lit_nil]
  show ∃ tl, (regexp.Re.iterate (regexp.Re.run (.cls (fun b => !(b == 0x07))))
      (body ++ 27 :: 0x5c :: b).length (body ++ 27 :: 0x5c :: b)).flatMap
        (regexp.Re.run (.alt (regexp.Re.lit [0x07]) (regexp.Re.lit [0x1b, 0x5c]))) = b :: tl
  rw [regexp.iterate_cls_all _ _ _ ?_ (le_refl _)]
  · refine regexp.flatMap_tails_head _ (27 :: 0x5c :: b) b ?_ ?_ (by simp) body
    · simp [regexp.Re.run, regexp.Re.lit]
    · intro w hw
      simp only [List.tail_cons, List.mem_tails] at hw
      cases w with
      | nil => simp [regexp.Re.run, regexp.Re.lit]
      | cons c w' =>
        have hc : c ∈ (0x5c : UInt8) :: b := hw.subset (List.mem_cons_self _ _)
        have h7 : c ≠ 7 ∧ c ≠ 27 := by
          rcases List.mem_cons.mp hc with rfl | hcb
          · exact ⟨by decide, by decide⟩
          · exact hb c hcb
        have e1 : (c == (7 : UInt8)) = false := by simpa using h7.1
        have e2 : (c == (27 : UInt8)) = false := by simpa using h7.2
        simp [regexp.Re.run, regexp.Re.lit, e1, e2]
  · intro x hx
    rcases List.mem_append.mp hx with h | h
    · simpa using hbody x h
    · rcases List.mem_cons.mp h with rfl | h
      · rfl
      · rcases List.mem_cons.mp h with rfl | h
        · rfl
        · simpa using (hb x h).1

theorem csi_run_other (d : UInt8) (u : GoString) (hd : d ≠ 0x5b) :
    regexp.Re.run csiRe (27 :: d :: u) = [] := by
  unfold csiRe
  rw [regexp.run_cat_lit_cons, if_pos rfl, regexp.run_cat_lit_cons, if_neg hd]

theorem csi_run (ps is : GoString) (f : UInt8) (rest : GoString)
    (hps : ∀ x ∈ ps, between 0x30 0x3f x = true) (his : ∀ x ∈ is, between 0x20 0x2f x = true)
    (hf : between 0x40 0x7e f = true) :
    ∃ tl, regexp.Re.run csiRe (27 :: 0x5b :: (ps ++ (is ++ f :: rest))) = rest :: tl := by
  have hf' := (between_iff _ _ _).mp hf
  have hfI : between 0x20 0x2f f = false := by
    rw [Bool.eq_false_iff]
    intro h
    have := (between_iff _ _ _).mp h
    omega
  have hfP : between 0x30 0x3f f = false := by
    rw [Bool.eq_false_iff]
    intro h
    have := (between_iff _ _ _).mp h
    omega
  obtain ⟨tl1, h1⟩ := regexp.run_star_cat_head (between 0x20 0x2f) (.cls (between 0x40 0x7e)) is
    (f :: rest) rest [] his
    (by
      intro b hb
      simp only [List.head?_cons, Option.mem_def, Option.some.injEq] at hb
      subst hb
      exact hfI)
    (by simp [regexp.Re.run, hf])
  unfold csiRe
  rw [regexp.run_cat_lit_cons, if_pos rfl, regexp.run_cat_lit_cons, if_pos rfl, regexp.run_cat_lit_nil]
  refine regexp.run_star_cat_head _ _ ps (is ++ f :: rest) rest tl1 hps ?_ h1
  intro b hb
  cases is with
  | nil =>
    simp only [List.nil_append, List.head?_cons, Option.mem_def, Option.some.injEq] at hb
    subst hb
    exact hfP
  | cons i is' =>
    simp only [List.cons_append, List.head?_cons, Option.mem_def, Option.some.injEq] at hb
    subst hb
    have := (between_iff _ _ _).mp (his i (List.mem_cons_self _ _))
    rw [Bool.eq_false_iff]
    intro h
    have := (between_iff _ _ _).mp h
    omega

theorem other_run (c : UInt8) (rest : GoString)
    (hc : (between 0x40 0x5a c || between 0x5c 0x5f c) = true) :
    regexp.Re.run otherRe (27 :: c :: rest) = [rest] := by
  unfold otherRe
  rw [regexp.run_cat_lit_cons, if_pos rfl, regexp.run_cat_lit_nil]
  simp [regexp.Re.run, hc]


theorem render_cons (p : Piece) (ps : List Piece) : render (p :: ps) = p.bytes ++ render ps := rfl

theorem plain_cons (p : Piece) (ps : List Piece) : plain (p :: ps) = p.plain ++ plain ps := rfl

theorem text_no_esc (t : GoString) (h : t.all (fun b => !(b == 0x1b)) = true) :
    ∀ b ∈ t, b ≠ 27 := by
  intro b hb
  have := List.all_eq_true.mp h b hb
  simpa using this

theorem ne_esc_of_ge (b : UInt8) (h : 0x20 ≤ b.toNat) : b ≠ 27 := by
  intro e
  rw [e] at h
  revert h
  decide

theorem osc_pass_piece (p : Piece) (hp : p.wellFormed = true) (rest : GoString) :
    regexp.Re.delete.go oscRe 0 (p.bytes ++ rest)
      = (if p.isOSC = true then [] else p.bytes) ++ regexp.Re.delete.go oscRe 0 rest := by
  cases p with
  | text t =>
    exact regexp.delete_text oscRe (fun b r hb => regexp.run_esc_first _ _ b r hb) t (text_no_esc t hp) rest
  | csi ps is f =>
    simp only [Piece.wellFormed, Bool.and_eq_true, List.all_eq_true] at hp
    obtain ⟨⟨hps, his⟩, hf⟩ := hp
    have hall : ∀ b ∈ (0x5b : UInt8) :: (ps ++ (is ++ [f])), b ≠ 27 := by
      intro b hb
      rcases List.mem_cons.mp hb with rfl | hb
      · decide
      rcases List.mem_append.mp hb with hb | hb
      · exact ne_esc_of_ge b (by have := (between_iff _ _ _).mp (hps b hb); omega)
      rcases List.mem_append.mp hb with hb | hb
      · exact ne_esc_of_ge b (by have := (between_iff _ _ _).mp (his b hb); omega)
      · rw [List.mem_singleton.mp hb]
        exact ne_esc_of_ge f (by have := (between_iff _ _ _).mp hf; omega)
    show regexp.Re.delete.go oscRe 0 (27 :: ((0x5b : UInt8) :: (ps ++ (is ++ [f])) ++ rest))
      = 27 :: (0x5b : UInt8) :: (ps ++ (is ++ [f])) ++ regexp.Re.delete.go oscRe 0 rest
    rw [regexp.delete_keep oscRe 27 ((0x5b : UInt8) :: (ps ++ (is ++ [f])) ++ rest)
        (osc_run_other 0x5b _ (by decide)),
      regexp.delete_text oscRe (fun b r hb => regexp.run_esc_first _ _ b r hb) _ hall rest]
    rfl
  | osc body =>
    simp only [Piece.wellFormed, List.all_eq_true, Bool.and_eq_true, Bool.not_eq_true',
      beq_eq_false_iff_ne, ne_eq] at hp
    obtain ⟨tl, htl⟩ := osc_run_bel body rest (fun x hx => (hp x hx).1)
    have e : (Piece.osc body).bytes ++ rest = 27 :: 0x5d :: (body ++ 7 :: rest) := by
      simp [Piece.bytes]
    simp only [Piece.isOSC, if_true, List.nil_append]
    exact regexp.delete_skip oscRe _ rest tl (by simp [Piece.bytes]) (by rw [e]; exact htl)
  | esc c =>
    simp only [Piece.wellFormed, Bool.and_eq_true, Bool.or_eq_true, Bool.not_eq_true',
      beq_eq_false_iff_ne, ne_eq] at hp
    obtain ⟨hc, hne⟩ := hp
    have hc27 : c ≠ 27 := by
      rcases hc with h | h
      · exact ne_esc_of_ge c (by have := (between_iff _ _ _).mp h; omega)
      · exact ne_esc_of_ge c (by have := (between_iff _ _ _).mp h; omega)
    show regexp.Re.delete.go oscRe 0 (27 :: ([c] ++ rest)) = 27 :: [c] ++ regexp.Re.delete.go oscRe 0 rest
    rw [regexp.delete_keep oscRe 27 ([c] ++ rest) (osc_run_other c _ hne),
      regexp.delete_text oscRe (fun b r hb => regexp.run_esc_first _ _ b r hb) [c]
        (by intro b hb; rw [List.mem_singleton.mp hb]; exact hc27) rest]
    rfl

theorem csi_pass_piece (p : Piece) (hp : p.wellFormed = true) (ho : p.isOSC = false)
    (rest : GoString) :
    regexp.Re.delete.go csiRe 0 (p.bytes ++ rest)
      = (if p.isCSI = true then [] else p.bytes) ++ regexp.Re.delete.go csiRe 0 rest := by
  cases p with
  | text t =>
    exact regexp.delete_text csiRe (fun b r hb => regexp.run_esc_first _ _ b r hb) t (text_no_esc t hp) rest
  | csi ps is f =>
    simp only [Piece.wellFormed, Bool.and_eq_true, List.all_eq_true] at hp
    obtain ⟨⟨hps, his⟩, hf⟩ := hp
    obtain ⟨tl, htl⟩ := csi_run ps is f rest hps his hf
    have e : (Piece.csi ps is f).bytes ++ rest = 27 :: 0x5b :: (ps ++ (is ++ f :: rest)) := by
      simp [Piece.bytes]
    simp only [Piece.isCSI, if_true, List.nil_append]
    exact regexp.delete_skip csiRe _ rest tl (by simp [Piece.bytes]) (by rw [e]; exact htl)
  | osc body => cases ho
  | esc c =>
    simp only [Piece.wellFormed, Bool.and_eq_true, Bool.or_eq_true, Bool.not_eq_true',
      beq_eq_false_iff_ne, ne_eq] at hp
    obtain ⟨hc, _⟩ := hp
    have hc27 : c ≠ 27 := by
      rcases hc with h | h
      · exact ne_esc_of_ge c (by have := (between_iff _ _ _).mp h; omega)
      · exact ne_esc_of_ge c (by have := (between_iff _ _ _).mp h; omega)
    have hcb : c ≠ 0x5b := by
      apply ne_of_toNat_ne
      rcases hc with h | h
      · have := (between_iff _ _ _).mp h
        show c.toNat ≠ 0x5b
        omega
      · have := (between_iff _ _ _).mp h
        show c.toNat ≠ 0x5b
        omega
    show regexp.Re.delete.go csiRe 0 (27 :: ([c] ++ rest)) = 27 :: [c] ++ regexp.Re.delete.go csiRe 0 rest
    rw [regexp.delete_keep csiRe 27 ([c] ++ rest) (csi_run_other c _ hcb),
      regexp.delete_text csiRe (fun b r hb => regexp.run_esc_first _ _ b r hb) [c]
        (by intro b hb; rw [List.mem_singleton.mp hb]; exact hc27) rest]
    rfl

theorem other_pass_piece (p : Piece) (hp : p.wellFormed = true) (ho : p.isOSC = false)
    (hc : p.isCSI = false) (rest : GoString) :
    regexp.Re.delete.go otherRe 0 (p.bytes ++ rest) = p.plain ++ regexp.Re.delete.go otherRe 0 rest := by
  cases p with
  | text t =>
    exact regexp.delete_text otherRe (fun b r hb => regexp.run_esc_first _ _ b r hb) t (text_no_esc t hp) rest
  | csi ps is f => cases hc
  | osc body => cases ho
  | esc c =>
    simp only [Piece.wellFormed, Bool.and_eq_true, Bool.not_eq_true',
      beq_eq_false_iff_ne, ne_eq] at hp
    obtain ⟨hcl, _⟩ := hp
    exact regexp.delete_skip otherRe [27, c] rest [] (by simp) (other_run c rest hcl)


theorem osc_pass (ps : List Piece) (hwf : ∀ p ∈ ps, p.wellFormed = true) (rest : GoString) :
    regexp.Re.delete.go oscRe 0 (render ps ++ rest)
      = render (ps.filter (fun p => !p.isOSC)) ++ regexp.Re.delete.go oscRe 0 rest := by
  induction ps with
  | nil => rfl
  | cons p ps ih =>
    rw [render_cons, List.append_assoc,
      osc_pass_piece p (hwf p (List.mem_cons_self _ _)),
      ih (fun q hq => hwf q (List.mem_cons_of_mem _ hq))]
    cases h : p.isOSC
    · simp [List.filter_cons, h, render_cons]
    · simp [List.filter_cons, h]

theorem csi_pass (ps : List Piece) (hwf : ∀ p ∈ ps, p.wellFormed = true ∧ p.isOSC = false)
    (rest : GoString) :
    regexp.Re.delete.go csiRe 0 (render ps ++ rest)
      = render (ps.filter (fun p => !p.isCSI)) ++ regexp.Re.delete.go csiRe 0 rest := by
  induction ps with
  | nil => rfl
  | cons p ps ih =>
    rw [render_cons, List.append_assoc,
      csi_pass_piece p (hwf p (List.mem_cons_self _ _)).1 (hwf p (List.mem_cons_self _ _)).2,
      ih (fun q hq => hwf q (List.mem_cons_of_mem _ hq))]
    cases h : p.isCSI
    · simp [List.filter_cons, h, render_cons]
    · simp [List.filter_cons, h]

theorem other_pass (ps : List Piece)
    (hwf : ∀ p ∈ ps, p.wellFormed = true ∧ p.isOSC = false ∧ p.isCSI = false)
    (rest : GoString) :
    regexp.Re.delete.go otherRe 0 (render ps ++ rest) = plain ps ++ regexp.Re.delete.go otherRe 0 rest := by
  induction ps with
  | nil => rfl
  | cons p ps ih =>
    rw [render_cons, List.append_assoc,
      other_pass_piece p (hwf p (List.mem_cons_self _ _)).1 (hwf p (List.mem_cons_self _ _)).2.1
        (hwf p (List.mem_cons_self _ _)).2.2,
      ih (fun q hq => hwf q (List.mem_cons_of_mem _ hq)), plain_cons, List.append_assoc]

theorem plain_filter (q : Piece → Bool) (hq : ∀ p, q p = false → p.plain = []) :
    ∀ ps : List Piece, plain (ps.filter q) = plain ps := by
  intro ps
  induction ps with
  | nil => rfl
  | cons p ps ih =>
    cases h : q p
    · rw [List.filter_cons_of_neg (by simp [h]), ih, plain_cons, hq p h, List.nil_append]
    · rw [List.filter_cons_of_pos (by simp [h]), plain_cons, plain_cons, ih]

theorem plain_no_esc (ps : List Piece) (hwf : ∀ p ∈ ps, p.wellFormed = true) :
    (27 : UInt8) ∉ plain ps := by
  induction ps with
  | nil => simp [plain]
  | cons p ps ih =>
    rw [plain_cons, List.mem_append]
    rintro (h | h)
    · cases p with
      | text t => exact text_no_esc t (hwf _ (List.mem_cons_self _ _)) 27 h rfl
      | csi _ _ _ => cases h
      | osc _ => cases h
      | esc _ => cases h
    · exact ih (fun q hq => hwf q (List.mem_cons_of_mem _ hq)) h

theorem delete_of_no_esc (w : GoString) (r : regexp.Re) (s : GoString) (h : (27 : UInt8) ∉ s) :
    regexp.Re.delete.go (.cat (regexp.Re.lit (27 :: w)) r) 0 s = s := by
  have := regexp.delete_text (.cat (regexp.Re.lit (27 :: w)) r) (fun b r hb => regexp.run_esc_first _ _ b r hb) s
    (fun b hb e => h (e ▸ hb)) []
  simpa [regexp.Re.delete.go] using this

theorem osc_no_esc (s : GoString) (h : (27 : UInt8) ∉ s) : regexp.Re.delete.go oscRe 0 s = s :=
  delete_of_no_esc _ _ s h

theorem csi_no_esc (s : GoString) (h : (27 : UInt8) ∉ s) : regexp.Re.delete.go csiRe 0 s = s :=
  delete_of_no_esc _ _ s h

theorem other_no_esc (s : GoString) (h : (27 : UInt8) ∉ s) : regexp.Re.delete.go otherRe 0 s = s :=
  delete_of_no_esc _ _ s h

theorem strip_pieces (ps : List Piece) (hwf : ∀ p ∈ ps, p.wellFormed = true) (tail : GoString)
    (ht : (27 : UInt8) ∉ tail) :
    regexp.Re.delete otherRe (regexp.Re.delete csiRe (render (ps.filter (fun p => !p.isOSC)) ++ tail))
      = plain ps ++ tail := by
  have h1 : ∀ p ∈ ps.filter (fun p => !p.isOSC), p.wellFormed = true ∧ p.isOSC = false := by
    intro p hp
    rw [List.mem_filter] at hp
    exact ⟨hwf p hp.1, by simpa using hp.2⟩
  have h2 : ∀ p ∈ (ps.filter (fun p => !p.isOSC)).filter (fun p => !p.isCSI),
      p.wellFormed = true ∧ p.isOSC = false ∧ p.isCSI = false := by
    intro p hp
    rw [List.mem_filter] at hp
    exact ⟨(h1 p hp.1).1, (h1 p hp.1).2, by simpa using hp.2⟩
  unfold regexp.Re.delete
  rw [csi_pass _ h1, csi_no_esc tail ht, other_pass _ h2, other_no_esc tail ht,
    plain_filter _ (by intro p hp; cases p <;> first | rfl | cases hp),
    plain_filter _ (by intro p hp; cases p <;> first | rfl | cases hp)]


/-- C22, as the code has it. `StripANSI` only deletes bytes: its output is a
subsequence of its input, and a string without an ESC byte is returned
unchanged. On an output made of well-formed pieces (text without ESC, CSI
sequences `ESC [` parameter bytes, intermediate bytes, final byte, OSC
sequences ended by BEL, two-byte escapes) every escape sequence is removed:
the result is the text of the pieces, it has no ESC byte, so none of the three
patterns matches it, and stripping it again changes nothing. An OSC sequence
ended by ST (`ESC \`) that follows such pieces is removed too when the text
after it has neither ESC nor BEL. -/
theorem StripANSI_removes_sequences (ps : List Piece) (hwf : ∀ p ∈ ps, p.wellFormed = true) :
    StripANSI (render ps) = plain ps ∧
    (27 : UInt8) ∉ StripANSI (render ps) ∧
    ansiOSC.MatchString (StripANSI (render ps)) = false ∧
    ansiCSI.MatchString (StripANSI (render ps)) = false ∧
    ansiOther.MatchString (StripANSI (render ps)) = false ∧
    StripANSI (StripANSI (render ps)) = StripANSI (render ps) ∧
    (∀ body tail : GoString, (7 : UInt8) ∉ body → (27 : UInt8) ∉ tail → (7 : UInt8) ∉ tail →
      StripANSI (render ps ++ ([0x1b, 0x5d] ++ body ++ [0x1b, 0x5c]) ++ tail)
        = plain ps ++ tail) ∧
    (∀ s : GoString, (27 : UInt8) ∉ s → StripANSI s = s) ∧
    (∀ s : GoString, (StripANSI s).Sublist s) := by
  have hid : ∀ s : GoString, (27 : UInt8) ∉ s → StripANSI s = s := by
    intro s h
    rw [StripANSI_eq_delete]
    unfold regexp.Re.delete
    rw [osc_no_esc s h, csi_no_esc s h, other_no_esc s h]
  have hmain : StripANSI (render ps) = plain ps := by
    rw [StripANSI_eq_delete]
    have h1 := osc_pass ps hwf []
    rw [List.append_nil] at h1
    have h2 := strip_pieces ps hwf [] (by simp)
    rw [List.append_nil] at h2
    show regexp.Re.delete otherRe (regexp.Re.delete csiRe (regexp.Re.delete.go oscRe 0 (render ps))) = plain ps
    rw [h1]
    exact (by simpa [regexp.Re.delete.go] using h2)
  have hno : (27 : UInt8) ∉ StripANSI (render ps) := by
    rw [hmain]
    exact plain_no_esc ps hwf
  refine ⟨hmain, hno, esc_pattern_no_match _ _ _ hno, esc_pattern_no_match _ _ _ hno,
    esc_pattern_no_match _ _ _ hno, hid _ hno, ?_, hid, ?_⟩
  · intro body tail hbody ht27 ht7
    rw [StripANSI_eq_delete]
    obtain ⟨tl, htl⟩ := osc_run_st body tail (fun x hx e => hbody (e ▸ hx))
      (fun x hx => ⟨fun e => ht7 (e ▸ hx), fun e => ht27 (e ▸ hx)⟩)
    have e : ([0x1b, 0x5d] ++ body ++ [0x1b, 0x5c] : GoString) ++ tail
        = 27 :: 0x5d :: (body ++ 27 :: 0x5c :: tail) := by simp
    have h1 : regexp.Re.delete oscRe (render ps ++ ([0x1b, 0x5d] ++ body ++ [0x1b, 0x5c]) ++ tail)
        = render (ps.filter (fun p => !p.isOSC)) ++ tail := by
      unfold regexp.Re.delete
      rw [List.append_assoc, osc_pass ps hwf,
        regexp.delete_skip oscRe ([0x1b, 0x5d] ++ body ++ [0x1b, 0x5c]) tail tl (by simp)
          (by rw [e]; exact htl),
        osc_no_esc tail ht27]
    rw [h1]
    exact strip_pieces ps hwf tail ht27
  · intro s
    rw [StripANSI_eq_delete]
    exact ((regexp.delete_go_sublist otherRe _ 0).trans (regexp.delete_go_sublist csiRe _ 0)).trans
      (regexp.delete_go_sublist oscRe _ 0)

/-- A concrete instance of C22: `ESC[31m red ESC[0m`, an OSC title ended by
BEL, the two-byte escape `ESC M` and the letter `x` are stripped to `redx`. -/
theorem StripANSI_removes_sequences_witness :
    (∀ p ∈ samplePieces, p.wellFormed = true) ∧
    render samplePieces
      = [27] ++ ascii "[31mred" ++ [27] ++ ascii "[0m" ++ [27] ++ ascii "]0;title" ++ [7]
          ++ [27] ++ ascii "Mx" ∧
    StripANSI (render samplePieces) = ascii "redx" :=
  ⟨by decide, by decide,
   (StripANSI_removes_sequences samplePieces (by decide)).1.trans (by decide)⟩

/-- C22 fails as stated: on `ESC ESC [0m [0m` the CSI pass removes the inner
sequence and leaves `ESC [0m`, a CSI sequence, in the output; stripping the
output again gives the empty text, so `StripANSI` is not idempotent. -/
theorem StripANSI_leaves_assembled_sequence :
    StripANSI nestedCSI = [27] ++ ascii "[0m" ∧
    ansiCSI.MatchString (StripANSI nestedCSI) = true ∧
    StripANSI (StripANSI nestedCSI) = [] ∧
    StripANSI (StripANSI nestedCSI) ≠ StripANSI nestedCSI := by
  decide

end util

/-! ## Scheduler: stream tags and the output file -/

namespace execx

theorem onLine_tags (opt : SchedulerOptions) (outFile : Bool) (line : GoString) :
    (∀ t ∈ hookTags (Scheduler.Run.onLine opt outFile line), t = ascii "stdout") ∧
    (∀ t ∈ sinkTags (Scheduler.Run.onLine opt outFile line), t = ascii "stdout") := by
  unfold Scheduler.Run.onLine
  cases opt.NotifyHook <;> cases outFile <;> cases opt.EventSink <;>
    simp [hookTags, sinkTags]

/-- C26, on the code: a line read from the child's stderr is handed to the
notify hook and written to the event sink with the tag `stdout`, the closure
`onLine` of `Scheduler.Run` being the same for both pipes and its tag a
constant. -/
theorem stderr_line_tagged_stdout :
    (∃ effects, Scheduler.Run defaultRun (.ok ()) [(Pipe.stderr, ascii "oops")] = .ok effects ∧
      effects = [Effect.OnLine (ascii "stdout") (ascii "oops"),
                 Effect.WriteString (ascii "oops\n"),
                 Effect.Write { Time := [], Type_ := ascii "line", Stream := ascii "stdout",
                                JobID := [], Command := [], Message := ascii "oops",
                                Fields := [] }] ∧
      hookTags effects = [ascii "stdout"] ∧ sinkTags effects = [ascii "stdout"]) ∧
    (∀ (opt : SchedulerOptions) (outFile : Bool) (line : GoString),
      (∀ t ∈ hookTags (Scheduler.Run.onLine opt outFile line), t = ascii "stdout") ∧
      (∀ t ∈ sinkTags (Scheduler.Run.onLine opt outFile line), t = ascii "stdout")) := by
  refine ⟨⟨_, rfl, by decide, by decide, by decide⟩, onLine_tags⟩

/-- C27, on the code: with the default output mode `sort-dedup` the lines
`b`, `a`, `b` are written to the output file as they arrive, `b a b`, and not
as `SortDedupLines` gives them, `a b`; the output mode is not read by
`Scheduler.Run`, so every mode writes the same. -/
theorem output_file_in_arrival_order :
    (∃ effects, Scheduler.Run defaultRun (.ok ())
        [(Pipe.stdout, ascii "b"), (Pipe.stdout, ascii "a"), (Pipe.stdout, ascii "b")]
          = .ok effects ∧
      fileContent effects = ascii "b\na\nb\n") ∧
    util.SortDedupLines [ascii "b", ascii "a", ascii "b"] = [ascii "a", ascii "b"] ∧
    (∀ (opt : SchedulerOptions) (mode : GoString) (create : Except notify.Error Unit)
        (reads : List (Pipe × GoString)),
      Scheduler.Run { opt with OutputMode := mode } create reads
        = Scheduler.Run opt create reads) := by
  refine ⟨⟨_, rfl, by decide⟩, by decide, fun _ _ _ _ => rfl⟩

end execx

/-! ## Aggregator: what is attached -/

namespace notify

/-- C29. In the modes `attach-only` and `auto`, when `FlushAll` sends the batch
as an attachment it calls `sendAttach` with all the flushed lines: the calls do
not depend on the text selection (`select`, `head_lines`, `tail_lines`), which
enters only the size test of mode `auto` and the text payloads; in split mode
the attached bytes are all the flushed lines, each with its newline, and in
tail mode the last `attach.tail_lines` of all the flushed lines. -/
theorem attachment_uses_all_lines (a : Aggregator) (reason : GoString)
    (hd : a.disp.isSome = true) (hl : a.lines ≠ []) :
    (strings.ToLower a.cfg.Mode = ascii "attach-only" → a.cfg.Attach.Enabled = true →
      (a.FlushAll reason).2 = a.sendAttach (ascii "Output batch") a.lines) ∧
    (a.modeAuto = true →
      ((JoinLines (Aggregator.FlushAll.selected a a.lines)).length > 3500
        ∧ a.cfg.Attach.Enabled = true) →
      (a.FlushAll reason).2 = a.sendAttach (ascii "Output batch") a.lines) ∧
    (∀ t : NotifyTextConfig,
      Aggregator.sendAttach { a with cfg := { a.cfg with Text := t } } (ascii "Output batch")
          a.lines
        = a.sendAttach (ascii "Output batch") a.lines) ∧
    (strings.ToLower a.cfg.Attach.SplitMode ≠ ascii "tail" →
      fileData (a.sendAttach (ascii "Output batch") a.lines) = renderLines a.lines) ∧
    (strings.ToLower a.cfg.Attach.SplitMode = ascii "tail" →
      fileData (a.sendAttach (ascii "Output batch") a.lines)
        = JoinLines (TailLines a.lines a.cfg.Attach.TailLines) ++ nl) := by
  have hn := isNone_of_isSome a.disp hd
  refine ⟨?_, ?_, fun _ => rfl, ?_, ?_⟩
  · intro hm he
    have h1 : ¬ ascii "attach-only" = ascii "summary" := by decide
    have h2 : ¬ ascii "attach-only" = ascii "text-only" := by decide
    rw [FlushAll_nonempty a reason hd hl]
    unfold Aggregator.FlushAll.dispatch
    simp only [hm, h1, h2, if_false, if_true, he, Bool.not_true, Bool.false_eq_true]
    rfl
  · intro hm hc
    unfold Aggregator.modeAuto at hm
    simp only [Bool.not_eq_true', Bool.or_eq_false_iff, decide_eq_false_iff_not] at hm
    obtain ⟨⟨hm1, hm2⟩, hm3⟩ := hm
    rw [FlushAll_nonempty a reason hd hl]
    unfold Aggregator.FlushAll.dispatch
    unfold Aggregator.FlushAll.selected at hc
    simp only [hm1, hm2, hm3, if_false]
    split_ifs at hc ⊢ <;> rfl
  · intro ht
    unfold Aggregator.sendAttach
    simp only [hn, Bool.false_eq_true, if_false, ht]
    rw [fileData_loop]
    exact parts_flatten a.lines _ (sendAttach_max_pos a)
  · intro ht
    unfold Aggregator.sendAttach
    simp only [hn, Bool.false_eq_true, if_false, ht, if_true]
    simp [fileData]

/-- A concrete instance of C29: mode `attach-only`, selection `head` of one
line, buffer `a`, `b`: the selection is `a` alone and the attachment holds both
lines. -/
theorem attachment_uses_all_lines_witness :
    Aggregator.FlushAll.selected headSelectionAggregator headSelectionAggregator.lines
      = [ascii "a"] ∧
    (headSelectionAggregator.FlushAll (ascii "final")).2
      = [Broadcast.File (ascii "output.part.001.log") (ascii "text/plain") (ascii "a\nb\n")
          (ascii "Output batch (part 1/1)")] ∧
    fileData (headSelectionAggregator.sendAttach (ascii "Output batch")
        headSelectionAggregator.lines) = ascii "a\nb\n" :=
  ⟨by decide,
   ((attachment_uses_all_lines headSelectionAggregator (ascii "final") rfl (by decide)).1
      (by decide) rfl).trans (by decide),
   ((attachment_uses_all_lines headSelectionAggregator (ascii "final") rfl
      (by decide)).2.2.2.1 (by decide)).trans (by decide)⟩

end notify

/-! ## Proxy authorization: the local base64 encoder -/

namespace notify

theorem table_eq_alphabet : ∀ v, v < 64 → basicAuth.table.getD v 0 = base64.alphabet v := by
  decide

theorem val_eq (a b c : Nat) (hb : b < 256) (hc : c < 256) :
    (a <<< 16 ||| b <<< 8) ||| c = a * 65536 + b * 256 + c := by
  have h1 : a <<< 16 ||| b <<< 8 = a * 65536 + b * 256 := by
    have hlt : b * 256 < 2 ^ 16 := by omega
    have := Nat.mul_add_lt_is_or hlt a
    rw [Nat.shiftLeft_eq, Nat.shiftLeft_eq]
    have e1 : a * 2 ^ 16 = 2 ^ 16 * a := Nat.mul_comm _ _
    rw [e1, ← this]
    omega
  rw [h1]
  have hlt : c < 2 ^ 8 := by omega
  have := Nat.mul_add_lt_is_or hlt (a * 256 + b)
  have e2 : a * 65536 + b * 256 = 2 ^ 8 * (a * 256 + b) := by omega
  rw [e2, ← this]

theorem quad_eq (a b c : Nat) (ha : a < 256) (hb : b < 256) (hc : c < 256) :
    basicAuth.quad ((a <<< 16 ||| b <<< 8) ||| c)
      = [base64.alphabet (a / 4), base64.alphabet (a % 4 * 16 + b / 16),
         base64.alphabet (b % 16 * 4 + c / 64), base64.alphabet (c % 64)] := by
  rw [val_eq a b c hb hc]
  have hmask : ∀ x : Nat, x &&& 0x3F = x % 64 := fun x => Nat.and_pow_two_sub_one_eq_mod x 6
  have h0 : (a * 65536 + b * 256 + c) >>> 18 % 64 = a / 4 := by
    rw [Nat.shiftRight_eq_div_pow]; omega
  have h1 : (a * 65536 + b * 256 + c) >>> 12 % 64 = a % 4 * 16 + b / 16 := by
    rw [Nat.shiftRight_eq_div_pow]; omega
  have h2 : (a * 65536 + b * 256 + c) >>> 6 % 64 = b % 16 * 4 + c / 64 := by
    rw [Nat.shiftRight_eq_div_pow]; omega
  have h3 : (a * 65536 + b * 256 + c) >>> 0 % 64 = c % 64 := by
    rw [Nat.shiftRight_eq_div_pow]; omega
  show [_, _, _, _] = _
  simp only [hmask]
  rw [show 18 - 6 * 0 = 18 from rfl, show 18 - 6 * 1 = 12 from rfl,
    show 18 - 6 * 2 = 6 from rfl, show 18 - 6 * 3 = 0 from rfl, h0, h1, h2, h3]
  rw [table_eq_alphabet _ (by omega), table_eq_alphabet _ (by omega),
    table_eq_alphabet _ (by omega), table_eq_alphabet _ (by omega)]

theorem getD_drop (raw : GoString) (i j : Nat) :
    raw.getD (i + j) 0 = (raw.drop i).getD j 0 := by
  rw [List.getD_eq_getElem?_getD, List.getD_eq_getElem?_getD, List.getElem?_drop]

theorem loop_eq (raw : GoString) :
    ∀ (fuel i : Nat) (out : GoString), raw.length ≤ i + 3 * fuel →
      basicAuth.loop raw fuel i out = out ++ base64.StdEncode (raw.drop i) := by
  intro fuel
  induction fuel with
  | zero =>
    intro i out h
    have : raw.drop i = [] := List.drop_eq_nil_of_le (by omega)
    simp [basicAuth.loop, this, base64.StdEncode]
  | succ k ih =>
    intro i out h
    unfold basicAuth.loop
    by_cases hi : i < raw.length
    · rw [if_pos hi]
      have h0 := getD_drop raw i 0
      have h1 := getD_drop raw i 1
      have h2 := getD_drop raw i 2
      have hlen : (raw.drop i).length = raw.length - i := List.length_drop _ _
      have hnext : raw.drop (i + 3) = (raw.drop i).drop 3 := by
        rw [List.drop_drop, Nat.add_comm]
      simp only [Nat.add_zero] at h0
      simp only [h0, h1, h2]
      rw [ih (i + 3) _ (by omega), hnext]
      rw [← hlen]
      -- the three shapes of the remaining text
      rcases hd : raw.drop i with _ | ⟨a, _ | ⟨b, _ | ⟨c, rest⟩⟩⟩
      · rw [hd] at hlen; simp at hlen; omega
      · have q := quad_eq a.toNat 0 0 (UInt8.toNat_lt a) (by decide) (by decide)
        simp only [Nat.zero_shiftLeft, Nat.or_zero, Nat.zero_div, Nat.zero_mod, Nat.add_zero,
          Nat.zero_mul] at q
        simp only [List.getD_cons_zero, List.getD_cons_succ, List.getD_nil, List.length_cons,
          List.length_nil, UInt8.toNat_zero, Nat.zero_shiftLeft, Nat.or_zero]
        rw [q]
        simp [base64.StdEncode, base64.pad, List.take_append, base64.alphabet]
      · have q := quad_eq a.toNat b.toNat 0 (UInt8.toNat_lt a) (UInt8.toNat_lt b) (by decide)
        simp only [Nat.zero_shiftLeft, Nat.or_zero, Nat.zero_div, Nat.zero_mod, Nat.add_zero,
          Nat.zero_mul] at q
        simp only [List.getD_cons_zero, List.getD_cons_succ, List.getD_nil, List.length_cons,
          List.length_nil, UInt8.toNat_zero, Nat.zero_shiftLeft, Nat.or_zero]
        rw [q]
        simp [base64.StdEncode, base64.pad, List.take_append, base64.alphabet]
      · have q := quad_eq a.toNat b.toNat c.toNat (UInt8.toNat_lt a) (UInt8.toNat_lt b)
          (UInt8.toNat_lt c)
        simp only [List.getD_cons_zero, List.getD_cons_succ, List.length_cons] at q ⊢
        simp [q, base64.StdEncode]
    · rw [if_neg hi]
      have : raw.drop i = [] := List.drop_eq_nil_of_le (by omega)
      simp [this, base64.StdEncode]

end notify

namespace notify

theorem Index_colon (s : GoString) :
    ∀ pos : Nat,
      ((58 : UInt8) ∉ s → strings.Index.go [58] s pos = none) ∧
      ((58 : UInt8) ∈ s → ∃ k : Nat, strings.Index.go [58] s pos = some (pos + k)
        ∧ s = s.take k ++ 58 :: s.drop (k + 1)) := by
  induction s with
  | nil =>
    intro pos
    exact ⟨fun _ => by simp [strings.Index.go], fun h => absurd h (List.not_mem_nil _)⟩
  | cons b rest ih =>
    intro pos
    unfold strings.Index.go
    rw [util.isPrefixOf_singleton]
    by_cases hb : (58 : UInt8) = b
    · have hbeq : ((58 : UInt8) == b) = true := by simpa using hb
      refine ⟨fun h => absurd (hb ▸ List.mem_cons_self _ _) h, fun _ => ⟨0, ?_, ?_⟩⟩
      · simp [hbeq]
      · simp [hb]
    · have hbeq : ((58 : UInt8) == b) = false := by simpa using hb
      obtain ⟨ih1, ih2⟩ := ih (pos + 1)
      simp only [hbeq, Bool.false_eq_true, if_false]
      refine ⟨fun h => ih1 (fun hm => h (List.mem_cons_of_mem _ hm)), fun h => ?_⟩
      rcases List.mem_cons.mp h with h | h
      · exact absurd h hb
      · obtain ⟨k, hk1, hk2⟩ := ih2 h
        refine ⟨k + 1, ?_, ?_⟩
        · rw [hk1]; congr 1; omega
        · simp only [List.take_succ_cons, List.drop_succ_cons, List.cons_append]
          rw [← hk2]

theorem StdEncode_length (s : GoString) :
    (base64.StdEncode s).length = 4 * ((s.length + 2) / 3) := by
  induction s using base64.StdEncode.induct with
  | case1 => rfl
  | case2 a => simp [base64.StdEncode]
  | case3 a b => simp [base64.StdEncode]
  | case4 a b c rest ih =>
    simp only [base64.StdEncode, List.length_cons, ih]
    omega

theorem StdEncode_ne_nil (s : GoString) (h : s ≠ []) : base64.StdEncode s ≠ [] := by
  intro e
  have hl := StdEncode_length s
  rw [e] at hl
  have : 0 < s.length := List.length_pos.mpr h
  simp only [List.length_nil] at hl
  omega

/-- C30. For a string with a colon, `basicAuth` returns the standard padded
base64 encoding (RFC 4648) of its bytes, of length `4 * ceil(len / 3)`, and
`proxyAuthHeader` sets `Proxy-Authorization` to `Basic` followed by it; for a
string without a colon `basicAuth` returns the empty string and
`proxyAuthHeader` sets no header. -/
theorem basicAuth_is_base64 (userpass : GoString) :
    ((58 : UInt8) ∈ userpass →
      basicAuth userpass = base64.StdEncode userpass ∧
      (basicAuth userpass).length = 4 * ((userpass.length + 2) / 3) ∧
      proxyAuthHeader userpass
        = [(ascii "Proxy-Authorization", ascii "Basic " ++ base64.StdEncode userpass)]) ∧
    ((58 : UInt8) ∉ userpass → basicAuth userpass = [] ∧ proxyAuthHeader userpass = []) ∧
    basicAuth (ascii "user:pass") = ascii "dXNlcjpwYXNz" := by
  refine ⟨?_, ?_, by decide⟩
  · intro h
    obtain ⟨k, hk1, hk2⟩ := (Index_colon userpass 0).2 h
    have he : basicAuth userpass = base64.StdEncode userpass := by
      unfold basicAuth strings.SplitN2
      have hsep : ascii ":" = [58] := rfl
      rw [hsep, hk1]
      simp only [List.length_cons, List.length_nil, Nat.zero_add, ne_eq, not_true_eq_false,
        if_false, List.getD_cons_zero, List.getD_cons_succ, Nat.reduceAdd]
      have hraw : List.take k userpass ++ [58] ++ List.drop (k + 1) userpass = userpass := by
        rw [List.append_assoc]
        exact hk2.symm
      rw [hraw, loop_eq userpass userpass.length 0 [] (by omega)]
      simp
    have hne : userpass ≠ [] := fun e => by rw [e] at h; exact absurd h (List.not_mem_nil _)
    refine ⟨he, by rw [he, StdEncode_length], ?_⟩
    unfold proxyAuthHeader
    simp only [he, ne_eq, StdEncode_ne_nil userpass hne, not_false_eq_true, if_true]
  · intro h
    have he : basicAuth userpass = [] := by
      unfold basicAuth strings.SplitN2
      have hsep : ascii ":" = [58] := rfl
      rw [hsep, (Index_colon userpass 0).1 h]
      simp
    refine ⟨he, ?_⟩
    unfold proxyAuthHeader
    simp [he]

/-- A concrete instance of C30: `u:p` and a string without a colon. -/
theorem basicAuth_is_base64_witness :
    basicAuth (ascii "u:p") = ascii "dTpw" ∧
    proxyAuthHeader (ascii "u:p") = [(ascii "Proxy-Authorization", ascii "Basic dTpw")] ∧
    proxyAuthHeader (ascii "nocolon") = [] :=
  ⟨((basicAuth_is_base64 (ascii "u:p")).1 (by decide)).1.trans (by decide),
   ((basicAuth_is_base64 (ascii "u:p")).1 (by decide)).2.2.trans (by decide),
   ((basicAuth_is_base64 (ascii "nocolon")).2.1 (by decide)).2⟩

end notify

/-! ## Durations with the extended suffixes -/

namespace util

theorem find_space_none (ws : List GoString) (hws : ws.all headOutside = true)
    (b : UInt8) (rest : GoString) (hb : graphic b = true) :
    ws.find? (fun w => w.isPrefixOf (b :: rest)) = none := by
  rw [List.find?_eq_none]
  intro w hw
  have ho := List.all_eq_true.mp hws w hw
  cases w with
  | nil => cases ho
  | cons h t =>
    simp only [headOutside, Bool.not_eq_true'] at ho
    have hne : ¬ h = b := fun e => by rw [e, hb] at ho; cases ho
    simp [List.isPrefixOf, hne]

theorem trimLeading_graphic (ws : List GoString) (hws : ws.all headOutside = true)
    (b : UInt8) (rest : GoString) (hb : graphic b = true) :
    ∀ n, strings.trimLeading ws n (b :: rest) = b :: rest := by
  intro n
  cases n with
  | zero => rfl
  | succ k =>
    unfold strings.trimLeading
    rw [find_space_none ws hws b rest hb]

theorem TrimSpace_graphic (s : GoString) (b c : UInt8) (rest rest1 : GoString)
    (hs : s = b :: rest) (hb : graphic b = true)
    (hr : s.reverse = c :: rest1) (hc : graphic c = true) :
    strings.TrimSpace s = s := by
  have h1 : strings.spaces.all headOutside = true := by decide
  have h2 : (strings.spaces.map List.reverse).all headOutside = true := by decide
  unfold strings.TrimSpace
  simp only []
  rw [hs, trimLeading_graphic _ h1 b rest hb, ← hs, hr, trimLeading_graphic _ h2 c rest1 hc,
    ← hr, List.reverse_reverse]

theorem digits_head (ds : GoString) (h : isDigits ds = true) :
    ∃ b rest, ds = b :: rest ∧ graphic b = true := by
  cases ds with
  | nil => simp [isDigits] at h
  | cons b rest =>
    refine ⟨b, rest, rfl, ?_⟩
    simp only [isDigits, List.isEmpty_cons, Bool.not_false, Bool.true_and, List.all_cons,
      Bool.and_eq_true, decide_eq_true_eq] at h
    simp only [graphic, decide_eq_true_eq]
    omega

theorem representable_mul_pow (n m : Nat) (h : n * (m * 2 ^ 16) < 2 ^ 63) :
    representable (n * (m * 2 ^ 16)) := by
  refine ⟨lt_of_lt_of_le h (Nat.pow_le_pow_right (by decide) (by decide)), n * m, 16, ?_,
    by rw [Nat.mul_assoc]⟩
  have h2 : n * m * 2 ^ 16 < 2 ^ 47 * 2 ^ 16 := by
    rw [Nat.mul_assoc]
    exact h
  exact lt_trans (Nat.lt_of_mul_lt_mul_right h2) (by decide)

theorem suffix_value {F : Type} (lib : DurationLib F) (ds suf : GoString) (m : Nat)
    (hds : isDigits ds = true) (hm : 0 < m) (hm53 : m < 2 ^ 53)
    (hnative : ∃ e, lib.ParseDuration (ds ++ suf) = .error e)
    (hparse : decimal ds < 2 ^ 53 → lib.ParseFloat ds = .ok (lib.ofInt (decimal ds)))
    (hmul : ∀ a b : Nat, representable a → representable b → representable (a * b) →
      lib.mul (lib.ofInt a) (lib.ofInt b) = lib.ofInt ((a * b : Nat) : Int))
    (hconv : ∀ x : Nat, x < 2 ^ 63 → representable x → lib.toInt (lib.ofInt x) = x)
    (c : UInt8) (rest1 : GoString) (hrev : suf.reverse = c :: rest1) (hc : graphic c = true)
    (hloop : ∀ f, lib.ParseFloat ds = .ok f →
      ParseExtendedDuration.loop lib (ds ++ suf) units
        = .ok (lib.toInt (lib.mul f (lib.ofInt ((m * 2 ^ 16 : Nat) : Int)))))
    (hfit : decimal ds * (m * 2 ^ 16) < 2 ^ 63) :
    ParseExtendedDuration lib (ds ++ suf) = .ok ((decimal ds * (m * 2 ^ 16) : Nat) : Int) := by
  obtain ⟨b, rest, hb1, hb2⟩ := digits_head ds hds
  have htrim : strings.TrimSpace (ds ++ suf) = ds ++ suf :=
    TrimSpace_graphic (ds ++ suf) b c (rest ++ suf) (rest1 ++ ds.reverse)
      (by rw [hb1]; rfl) hb2 (by rw [List.reverse_append, hrev]; rfl) hc
  have hne : ¬ ds ++ suf = [] := by rw [hb1]; simp
  obtain ⟨e, he⟩ := hnative
  have hn53 : decimal ds < 2 ^ 53 := by
    have h1 : decimal ds * 1 ≤ decimal ds * (m * 2 ^ 16) :=
      Nat.mul_le_mul_left _ (Nat.one_le_iff_ne_zero.mpr (by positivity))
    have : decimal ds < 2 ^ 63 := by omega
    have h2 : decimal ds * 2 ^ 16 ≤ decimal ds * (m * 2 ^ 16) :=
      Nat.mul_le_mul_left _ (Nat.le_mul_of_pos_left _ hm)
    have h3 : decimal ds * 2 ^ 16 < 2 ^ 47 * 2 ^ 16 := lt_of_le_of_lt h2 hfit
    exact lt_trans (Nat.lt_of_mul_lt_mul_right h3) (by decide)
  have hf := hparse hn53
  unfold ParseExtendedDuration
  simp only [htrim, hne, if_false, he]
  rw [hloop _ hf]
  have hr1 : representable (decimal ds) :=
    ⟨lt_of_lt_of_le hn53 (Nat.pow_le_pow_right (by decide) (by decide)), decimal ds, 0, hn53,
      by simp⟩
  have hr2 : representable (m * 2 ^ 16) := by
    refine ⟨?_, m, 16, hm53, rfl⟩
    have h1 : m * 2 ^ 16 < 2 ^ 53 * 2 ^ 16 := Nat.mul_lt_mul_of_pos_right hm53 (by decide)
    exact lt_of_lt_of_le h1 (by rw [← Nat.pow_add]; exact Nat.pow_le_pow_right (by decide) (by decide))
  rw [hmul (decimal ds) (m * 2 ^ 16) hr1 hr2 (representable_mul_pow (decimal ds) m hfit)]
  rw [hconv _ hfit (representable_mul_pow (decimal ds) m hfit)]

end util

/-! ## The library of `ParseExtendedDuration` -/

namespace ieee754

theorem roundHalfEven_of_dvd (n d : Nat) (hd : 0 < d) (h : d ∣ n) : roundHalfEven n d = n / d := by
  unfold roundHalfEven
  have hr : n % d = 0 := Nat.mod_eq_zero_of_dvd h
  simp only [hr, Nat.mul_zero, hd, if_true]

theorem floorLog2_one (n : Nat) (hn : n ≠ 0) : floorLog2 n 1 = (Nat.log2 n : Int) := by
  have h1 : Nat.log2 1 = 0 := by
    have := (Nat.log2_lt (n := 1) (k := 1) (by decide)).mpr (by decide)
    omega
  unfold floorLog2
  simp only [h1, Nat.cast_zero, sub_zero, Int.natCast_nonneg, if_true, Int.toNat_ofNat, one_mul,
    Nat.log2_self_le hn]

theorem pow_dvd_of_representable (m k : Nat) (hm : m < 2 ^ 53) (h0 : m * 2 ^ k ≠ 0)
    (h52 : 52 ≤ Nat.log2 (m * 2 ^ k)) : 2 ^ (Nat.log2 (m * 2 ^ k) - 52) ∣ m * 2 ^ k := by
  have hle : Nat.log2 (m * 2 ^ k) - 52 ≤ k := by
    by_contra hlt
    have hlt : k + 53 ≤ Nat.log2 (m * 2 ^ k) := by omega
    have h1 : 2 ^ Nat.log2 (m * 2 ^ k) ≤ m * 2 ^ k := Nat.log2_self_le h0
    have h2 : m * 2 ^ k < 2 ^ 53 * 2 ^ k :=
      Nat.mul_lt_mul_of_pos_right hm (Nat.pow_pos (by decide))
    have h3 : 2 ^ (k + 53) ≤ 2 ^ Nat.log2 (m * 2 ^ k) := Nat.pow_le_pow_right (by decide) hlt
    have h4 : (2 : Nat) ^ (k + 53) = 2 ^ 53 * 2 ^ k := by rw [Nat.pow_add, Nat.mul_comm]
    omega
  exact Dvd.dvd.mul_left (Nat.pow_dvd_pow 2 hle) m

theorem round_exact (neg : Bool) (m k : Nat) (hm : m < 2 ^ 53) (hlt : m * 2 ^ k < 2 ^ 1024) :
    round neg (m * 2 ^ k) 1 = .finite neg ((m * 2 ^ k : Nat) : ℚ) := by
  by_cases h0 : m * 2 ^ k = 0
  · unfold round
    rw [if_pos h0, h0]
    simp
  set N := m * 2 ^ k with hN
  have hv : ¬ (2 : ℚ) ^ (1024 : Nat) ≤ (N : ℚ) := by
    rw [not_le]
    have := (Nat.cast_lt (α := ℚ)).mpr hlt
    rwa [Nat.cast_pow, Nat.cast_ofNat] at this
  unfold round
  rw [if_neg h0, floorLog2_one N h0]
  by_cases h52 : 52 ≤ Nat.log2 N
  · obtain ⟨s, hs⟩ : ∃ s : Nat, Nat.log2 N = s + 52 := ⟨Nat.log2 N - 52, by omega⟩
    have hdvd : 2 ^ s ∣ N := by
      have := pow_dvd_of_representable m k hm h0 h52
      rw [← hN, hs] at this
      simpa using this
    have he : max ((Nat.log2 N : Int) - 52) (-1074) = (s : Int) := by
      rw [hs]; push_cast; omega
    simp only [he, Int.natCast_nonneg, if_true, Int.toNat_ofNat, one_mul]
    rw [roundHalfEven_of_dvd N (2 ^ s) (Nat.pow_pos (by decide)) hdvd]
    have hval : ((N / 2 ^ s : Nat) : ℚ) * (2 : ℚ) ^ (s : Int) = (N : ℚ) := by
      rw [zpow_natCast, Rat.natCast_div _ _ hdvd]
      push_cast
      field_simp
    rw [hval, if_neg hv]
  · obtain ⟨s, hs⟩ : ∃ s : Nat, Nat.log2 N + s = 52 ∧ 0 < s := ⟨52 - Nat.log2 N, by omega⟩
    have he : max ((Nat.log2 N : Int) - 52) (-1074) = -(s : Int) := by omega
    have hneg : ¬ (0 : Int) ≤ -(s : Int) := by omega
    simp only [he, hneg, if_false, neg_neg, Int.toNat_ofNat]
    rw [roundHalfEven_of_dvd _ 1 (by decide) (one_dvd _), Nat.div_one]
    have hval : ((N * 2 ^ s : Nat) : ℚ) * (2 : ℚ) ^ (-(s : Int)) = (N : ℚ) := by
      rw [zpow_neg, zpow_natCast]
      push_cast
      field_simp
    rw [hval, if_neg hv]

end ieee754

namespace util

theorem ofInt_natCast (x : Nat) (h : representable x) :
    ieee754.ofInt (x : Int) = .finite false (x : ℚ) := by
  obtain ⟨hlt, m, k, hm, rfl⟩ := h
  unfold ieee754.ofInt
  have h1 : decide (((m * 2 ^ k : Nat) : Int) < 0) = false := by
    rw [decide_eq_false_iff_not]
    omega
  rw [h1, Int.natAbs_ofNat]
  exact ieee754.round_exact false m k hm hlt

theorem goLib_mul (a b : Nat) (ha : representable a) (hb : representable b)
    (hab : representable (a * b)) :
    goLib.mul (goLib.ofInt a) (goLib.ofInt b) = goLib.ofInt ((a * b : Nat) : Int) := by
  show ieee754.mul (ieee754.ofInt a) (ieee754.ofInt b) = ieee754.ofInt ((a * b : Nat) : Int)
  rw [ofInt_natCast a ha, ofInt_natCast b hb, ofInt_natCast (a * b) hab]
  obtain ⟨hlt, m, k, hm, hmk⟩ := hab
  show ieee754.ofRat (false != false) ((a : ℚ) * (b : ℚ)) = _
  have e : ((a : ℚ) * (b : ℚ)) = ((a * b : Nat) : ℚ) := by push_cast; rfl
  unfold ieee754.ofRat
  rw [e, Rat.num_natCast, Rat.den_natCast, Int.natAbs_ofNat, hmk]
  exact ieee754.round_exact false m k hm (hmk ▸ hlt)

theorem goLib_conv (x : Nat) (hx : x < 2 ^ 63) (h : representable x) :
    goLib.toInt (goLib.ofInt x) = x := by
  show ieee754.toInt64 (ieee754.ofInt x) = x
  rw [ofInt_natCast x h]
  have hf : (x : ℚ).floor = (x : Int) := by
    rw [Rat.floor_def', Rat.num_natCast, Rat.den_natCast]
    simp
  have hx' : (x : Int) < 2 ^ 63 := by exact_mod_cast hx
  simp only [ieee754.toInt64, Bool.false_eq_true, if_false, hf]
  rw [if_pos ⟨by omega, hx'⟩]


theorem digit_of_all (ds : GoString) (b : UInt8) (h : isDigits ds = true) (hb : b ∈ ds) :
    time.isDigit b = true := by
  simp only [isDigits, Bool.and_eq_true, List.all_eq_true] at h
  exact h.2 b hb

theorem leadingInt_digits (suf : GoString) (hs : ∀ c ∈ suf.head?, time.isDigit c = false) :
    ∀ (ds : GoString) (x : Nat), (∀ b ∈ ds, time.isDigit b = true) →
      time.leadingInt x (ds ++ suf) = none ∨ ∃ v, time.leadingInt x (ds ++ suf) = some (v, suf) := by
  intro ds
  induction ds with
  | nil =>
    intro x _
    right
    cases suf with
    | nil => exact ⟨x, rfl⟩
    | cons c rest =>
      have hc : time.isDigit c = false := hs c (by simp)
      exact ⟨x, by simp [time.leadingInt, hc]⟩
  | cons b ds ih =>
    intro x hds
    have hb : time.isDigit b = true := hds b (List.mem_cons_self _ _)
    simp only [List.cons_append, time.leadingInt, hb, Bool.not_true, Bool.false_eq_true, if_false]
    split_ifs
    · left; rfl
    · left; rfl
    · exact ih _ (fun c hc => hds c (List.mem_cons_of_mem _ hc))

theorem ParseDuration_rejects (ds suf : GoString) (hds : isDigits ds = true)
    (hs1 : suf.head? ≠ some 0x2e) (hs2 : ∀ c ∈ suf.head?, time.isDigit c = false)
    (hne : suf ≠ [])
    (hu : time.unitMap (suf.takeWhile (fun b => !(b == 0x2e || time.isDigit b))) = none) :
    time.ParseDuration (ds ++ suf) = .error (ascii "time: invalid duration") := by
  obtain ⟨b, rest, hb1, _⟩ := digits_head ds hds
  have hall : ∀ c ∈ ds, time.isDigit c = true := fun c hc => digit_of_all ds c hds hc
  have hbd : time.isDigit b = true := hall b (by rw [hb1]; exact List.mem_cons_self _ _)
  have hbr : 48 ≤ b.toNat ∧ b.toNat ≤ 57 := by simpa [time.isDigit] using hbd
  have hb2d : b ≠ 0x2d := fun e => by rw [e] at hbr; revert hbr; decide
  have hb2b : b ≠ 0x2b := fun e => by rw [e] at hbr; revert hbr; decide
  have hb2e : b ≠ 0x2e := fun e => by rw [e] at hbr; revert hbr; decide
  have hloop : time.ParseDuration.loop (ds ++ suf).length (ds ++ suf) 0 = none := by
    have hlen : (ds ++ suf).length = (rest ++ suf).length + 1 := by rw [hb1]; rfl
    have hcons : ds ++ suf = b :: (rest ++ suf) := by rw [hb1]; rfl
    rw [hlen]
    conv => lhs; arg 2; rw [hcons]
    have hcond : (!(b == 0x2e || time.isDigit b)) = false := by simp [hbd]
    simp only [time.ParseDuration.loop, hcond, Bool.false_eq_true, if_false]
    rw [← hcons]
    rcases leadingInt_digits suf hs2 ds 0 hall with h | ⟨v, h⟩
    · rw [h]
    · rw [h]
      have hpre : decide ((ds ++ suf).length ≠ suf.length) = true := by
        rw [decide_eq_true_iff, hb1]
        simp only [List.cons_append, List.length_cons, List.length_append, ne_eq]
        omega
      simp only [hs1, if_false, false_and, decide_False, hpre, Bool.not_true, Bool.not_false,
        Bool.false_and, Bool.false_eq_true, hu]
      split_ifs <;> rfl
  unfold time.ParseDuration
  have hh : (ds ++ suf).head? = some b := by rw [hb1]; rfl
  have h0 : ¬ ds ++ suf = ascii "0" := by
    intro e
    have := congrArg List.length e
    rw [hb1] at this
    cases suf with
    | nil => exact hne rfl
    | cons c t =>
      simp only [List.cons_append, List.length_cons, List.length_append] at this
      have h1 : (ascii "0").length = 1 := rfl
      omega
  have hnil : ¬ ds ++ suf = [] := by rw [hb1]; simp
  simp only [hh, Option.some.injEq, hb2d, hb2b, or_self, if_false, h0, hnil, hloop]

theorem digits_all (ds : GoString) (h : ∀ b ∈ ds, time.isDigit b = true) :
    ∀ acc n, strconv.digits acc n ds
      = (ds.foldl (fun a b => a * 10 + (b.toNat - 48)) acc, n + ds.length, []) := by
  induction ds with
  | nil => intro acc n; rfl
  | cons b ds ih =>
    intro acc n
    have hb : time.isDigit b = true := h b (List.mem_cons_self _ _)
    simp only [strconv.digits, hb, if_true, List.foldl_cons, List.length_cons]
    rw [ih (fun c hc => h c (List.mem_cons_of_mem _ hc))]
    congr 2
    omega

theorem ParseFloat_digits (ds : GoString) (hds : isDigits ds = true) (hlt : decimal ds < 2 ^ 53) :
    strconv.ParseFloat ds = .ok (ieee754.ofInt (decimal ds)) := by
  obtain ⟨b, rest, hb1, _⟩ := digits_head ds hds
  have hall : ∀ c ∈ ds, time.isDigit c = true := fun c hc => digit_of_all ds c hds hc
  have hbd : time.isDigit b = true := hall b (by rw [hb1]; exact List.mem_cons_self _ _)
  have hbr : 48 ≤ b.toNat ∧ b.toNat ≤ 57 := by simpa [time.isDigit] using hbd
  have hne : ∀ c : UInt8, ¬ (48 ≤ c.toNat ∧ c.toNat ≤ 57) → b ≠ c := by
    intro c hc e
    exact hc (e ▸ hbr)
  have hsp : strconv.special ds = none := by
    rw [hb1]
    simp only [strconv.special, hne 0x2b (by decide), hne 0x2d (by decide), hne 0x69 (by decide),
      hne 0x49 (by decide), hne 0x6e (by decide), hne 0x4e (by decide), or_self, if_false]
  have hh : ds.head? = some b := by rw [hb1]; rfl
  have hrep : representable (decimal ds) := ⟨lt_of_lt_of_le hlt (Nat.pow_le_pow_right (by decide) (by decide)), decimal ds, 0, hlt,
      by simp⟩
  have hlen : ¬ (0 + ds.length + 0 = 0) := by rw [hb1]; simp
  unfold strconv.ParseFloat
  simp only [hsp, hh, Option.some.injEq, hne 0x2d (by decide), hne 0x2b (by decide), or_self,
    if_false, digits_all ds hall 0 0, List.head?_nil, reduceCtorEq, hlen, strconv.exponent,
    ne_eq, not_true_eq_false, Nat.cast_zero, sub_zero, zpow_zero, mul_one, decide_False]
  have e : ieee754.ofRat false ((List.foldl (fun a b => a * 10 + (b.toNat - 48)) 0 ds : Nat) : ℚ)
      = .finite false ((decimal ds : Nat) : ℚ) := by
    unfold ieee754.ofRat
    rw [Rat.num_natCast, Rat.den_natCast, Int.natAbs_ofNat]
    have := ieee754.round_exact false (decimal ds) 0 hlt (by simpa using hrep.1)
    simpa [decimal] using this
  rw [e, ofInt_natCast (decimal ds) hrep]


theorem goLib_rejects (ds : GoString) (hds : isDigits ds = true) :
    ∀ suf ∈ [ascii "d", ascii "w", ascii "mo", ascii "y"],
      ∃ e, goLib.ParseDuration (ds ++ suf) = .error e := by
  intro suf hsuf
  refine ⟨_, ParseDuration_rejects ds suf hds ?_ ?_ ?_ ?_⟩
  all_goals
    simp only [List.mem_cons, List.mem_singleton, List.not_mem_nil, or_false] at hsuf
    rcases hsuf with rfl | rfl | rfl | rfl <;> decide

end util

namespace util

theorem TrimSuffix_append (ds suf : GoString) (h : strings.HasSuffix (ds ++ suf) suf = true) :
    strings.TrimSuffix (ds ++ suf) suf = ds := by
  unfold strings.TrimSuffix
  rw [if_pos h]
  simp

theorem digits_ne_nil (ds : GoString) (h : isDigits ds = true) : ¬ ds = [] := by
  obtain ⟨b, rest, hb, _⟩ := digits_head ds h
  rw [hb]; simp

theorem loop_d {F : Type} (lib : DurationLib F) (ds : GoString) (hds : isDigits ds = true)
    (f : F) (hf : lib.ParseFloat ds = .ok f) :
    ParseExtendedDuration.loop lib (ds ++ ascii "d") units
      = .ok (lib.toInt (lib.mul f (lib.ofInt ((1318359375 * 2 ^ 16 : Nat) : Int)))) := by
  have e : ascii "d" = [100] := rfl
  have h1 : strings.HasSuffix (ds ++ [100]) (ascii "mo") = false := by
    simp [strings.HasSuffix, ascii, List.isPrefixOf]
  have h2 : strings.HasSuffix (ds ++ [100]) (ascii "y") = false := by
    simp [strings.HasSuffix, ascii, List.isPrefixOf]
  have h3 : strings.HasSuffix (ds ++ [100]) (ascii "w") = false := by
    simp [strings.HasSuffix, ascii, List.isPrefixOf]
  have h4 : strings.HasSuffix (ds ++ [100]) [100] = true := by
    simp [strings.HasSuffix, List.isPrefixOf]
  have hv : (24 * time.Hour : Int) = ((1318359375 * 2 ^ 16 : Nat) : Int) := by decide
  rw [e]
  simp only [units, ParseExtendedDuration.loop, h1, h2, h3, e, h4, Bool.false_eq_true, if_false,
    if_true, TrimSuffix_append ds [100] h4, digits_ne_nil ds hds, hf, hv]

theorem loop_w {F : Type} (lib : DurationLib F) (ds : GoString) (hds : isDigits ds = true)
    (f : F) (hf : lib.ParseFloat ds = .ok f) :
    ParseExtendedDuration.loop lib (ds ++ ascii "w") units
      = .ok (lib.toInt (lib.mul f (lib.ofInt ((9228515625 * 2 ^ 16 : Nat) : Int)))) := by
  have e : ascii "w" = [119] := rfl
  have h1 : strings.HasSuffix (ds ++ [119]) (ascii "mo") = false := by
    simp [strings.HasSuffix, ascii, List.isPrefixOf]
  have h2 : strings.HasSuffix (ds ++ [119]) (ascii "y") = false := by
    simp [strings.HasSuffix, ascii, List.isPrefixOf]
  have h4 : strings.HasSuffix (ds ++ [119]) [119] = true := by
    simp [strings.HasSuffix, List.isPrefixOf]
  have hv : (7 * 24 * time.Hour : Int) = ((9228515625 * 2 ^ 16 : Nat) : Int) := by decide
  rw [e]
  simp only [units, ParseExtendedDuration.loop, h1, h2, e, h4, Bool.false_eq_true, if_false,
    if_true, TrimSuffix_append ds [119] h4, digits_ne_nil ds hds, hf, hv]

theorem loop_mo {F : Type} (lib : DurationLib F) (ds : GoString) (hds : isDigits ds = true)
    (f : F) (hf : lib.ParseFloat ds = .ok f) :
    ParseExtendedDuration.loop lib (ds ++ ascii "mo") units
      = .ok (lib.toInt (lib.mul f (lib.ofInt ((39550781250 * 2 ^ 16 : Nat) : Int)))) := by
  have e : ascii "mo" = [109, 111] := rfl
  have h4 : strings.HasSuffix (ds ++ [109, 111]) [109, 111] = true := by
    simp [strings.HasSuffix, List.isPrefixOf]
  have hv : (30 * 24 * time.Hour : Int) = ((39550781250 * 2 ^ 16 : Nat) : Int) := by decide
  rw [e]
  simp only [units, ParseExtendedDuration.loop, e, h4, if_true,
    TrimSuffix_append ds [109, 111] h4, digits_ne_nil ds hds, if_false, hf, hv]

theorem loop_y {F : Type} (lib : DurationLib F) (ds : GoString) (hds : isDigits ds = true)
    (f : F) (hf : lib.ParseFloat ds = .ok f) :
    ParseExtendedDuration.loop lib (ds ++ ascii "y") units
      = .ok (lib.toInt (lib.mul f (lib.ofInt ((481201171875 * 2 ^ 16 : Nat) : Int)))) := by
  have e : ascii "y" = [121] := rfl
  have h1 : strings.HasSuffix (ds ++ [121]) (ascii "mo") = false := by
    simp [strings.HasSuffix, ascii, List.isPrefixOf]
  have h4 : strings.HasSuffix (ds ++ [121]) [121] = true := by
    simp [strings.HasSuffix, List.isPrefixOf]
  have hv : (365 * 24 * time.Hour : Int) = ((481201171875 * 2 ^ 16 : Nat) : Int) := by decide
  rw [e]
  simp only [units, ParseExtendedDuration.loop, h1, e, h4, Bool.false_eq_true, if_false,
    if_true, TrimSuffix_append ds [121] h4, digits_ne_nil ds hds, hf, hv]

/-- C24. For a non-empty sequence of decimal digits of value `n`,
`ParseExtendedDuration` on the digits followed by `d`, `w`, `mo` or `y` returns
`n * 24h`, `n * 7 * 24h`, `n * 30 * 24h` and `n * 365 * 24h`, whenever that
value is below `2^63`; a string the native parser accepts yields the native
value; an empty or white-space string is an error. The Go library is a
parameter, with what IEEE 754 and the library guarantee: the native parser
rejects these four forms, `ParseFloat` is exact on integers below `2^53`, the
product of two floats is exact when the exact product is a `float64` value,
and so is the conversion to `int64` of an integer below `2^63`. -/
theorem ParseExtendedDuration_suffixes {F : Type} (lib : DurationLib F) (ds : GoString)
    (hds : isDigits ds = true)
    (hnative : ∀ suf ∈ [ascii "d", ascii "w", ascii "mo", ascii "y"],
      ∃ e, lib.ParseDuration (ds ++ suf) = .error e)
    (hparse : decimal ds < 2 ^ 53 → lib.ParseFloat ds = .ok (lib.ofInt (decimal ds)))
    (hmul : ∀ a b : Nat, representable a → representable b → representable (a * b) →
      lib.mul (lib.ofInt a) (lib.ofInt b) = lib.ofInt ((a * b : Nat) : Int))
    (hconv : ∀ x : Nat, x < 2 ^ 63 → representable x → lib.toInt (lib.ofInt x) = x) :
    ((decimal ds : Int) * (24 * time.Hour) < 2 ^ 63 →
      ParseExtendedDuration lib (ds ++ ascii "d") = .ok ((decimal ds : Int) * (24 * time.Hour))) ∧
    ((decimal ds : Int) * (7 * 24 * time.Hour) < 2 ^ 63 →
      ParseExtendedDuration lib (ds ++ ascii "w")
        = .ok ((decimal ds : Int) * (7 * 24 * time.Hour))) ∧
    ((decimal ds : Int) * (30 * 24 * time.Hour) < 2 ^ 63 →
      ParseExtendedDuration lib (ds ++ ascii "mo")
        = .ok ((decimal ds : Int) * (30 * 24 * time.Hour))) ∧
    ((decimal ds : Int) * (365 * 24 * time.Hour) < 2 ^ 63 →
      ParseExtendedDuration lib (ds ++ ascii "y")
        = .ok ((decimal ds : Int) * (365 * 24 * time.Hour))) ∧
    (∀ s d, strings.TrimSpace s ≠ [] → lib.ParseDuration (strings.TrimSpace s) = .ok d →
      ParseExtendedDuration lib s = .ok d) ∧
    (∀ s, strings.TrimSpace s = [] →
      ParseExtendedDuration lib s = .error (ascii "empty duration")) := by
  have hd : (24 * time.Hour : Int) = ((1318359375 * 2 ^ 16 : Nat) : Int) := by decide
  have hw : (7 * 24 * time.Hour : Int) = ((9228515625 * 2 ^ 16 : Nat) : Int) := by decide
  have hmo : (30 * 24 * time.Hour : Int) = ((39550781250 * 2 ^ 16 : Nat) : Int) := by decide
  have hy : (365 * 24 * time.Hour : Int) = ((481201171875 * 2 ^ 16 : Nat) : Int) := by decide
  refine ⟨?_, ?_, ?_, ?_, ?_, ?_⟩
  · intro hfit
    rw [hd] at hfit ⊢
    have hfit1 : decimal ds * (1318359375 * 2 ^ 16) < 2 ^ 63 := by exact_mod_cast hfit
    rw [suffix_value lib ds (ascii "d") 1318359375 hds (by decide) (by decide)
      (hnative _ (by simp)) hparse hmul hconv 100 [] rfl (by decide)
      (fun f hf => loop_d lib ds hds f hf) hfit1]
    push_cast
    rfl
  · intro hfit
    rw [hw] at hfit ⊢
    have hfit1 : decimal ds * (9228515625 * 2 ^ 16) < 2 ^ 63 := by exact_mod_cast hfit
    rw [suffix_value lib ds (ascii "w") 9228515625 hds (by decide) (by decide)
      (hnative _ (by simp)) hparse hmul hconv 119 [] rfl (by decide)
      (fun f hf => loop_w lib ds hds f hf) hfit1]
    push_cast
    rfl
  · intro hfit
    rw [hmo] at hfit ⊢
    have hfit1 : decimal ds * (39550781250 * 2 ^ 16) < 2 ^ 63 := by exact_mod_cast hfit
    rw [suffix_value lib ds (ascii "mo") 39550781250 hds (by decide) (by decide)
      (hnative _ (by simp)) hparse hmul hconv 111 [109] rfl (by decide)
      (fun f hf => loop_mo lib ds hds f hf) hfit1]
    push_cast
    rfl
  · intro hfit
    rw [hy] at hfit ⊢
    have hfit1 : decimal ds * (481201171875 * 2 ^ 16) < 2 ^ 63 := by exact_mod_cast hfit
    rw [suffix_value lib ds (ascii "y") 481201171875 hds (by decide) (by decide)
      (hnative _ (by simp)) hparse hmul hconv 121 [] rfl (by decide)
      (fun f hf => loop_y lib ds hds f hf) hfit1]
    push_cast
    rfl
  · intro s d hne hok
    unfold ParseExtendedDuration
    simp only [hne, if_false, hok]
  · intro s he
    unfold ParseExtendedDuration
    simp only [he, if_true]

/-- A concrete instance of C24, with `time.ParseDuration`, `strconv.ParseFloat`
and the `float64` arithmetic of IEEE 754: `2d` is 48 hours, `3mo` is 90 days,
and a blank string is an error. -/
theorem ParseExtendedDuration_suffixes_witness :
    ParseExtendedDuration goLib (ascii "2d") = .ok 172800000000000 ∧
    ParseExtendedDuration goLib (ascii "3mo") = .ok 7776000000000000 ∧
    ParseExtendedDuration goLib (ascii "  ") = .error (ascii "empty duration") :=
  ⟨((ParseExtendedDuration_suffixes goLib (ascii "2") (by decide)
      (goLib_rejects (ascii "2") (by decide)) (ParseFloat_digits (ascii "2") (by decide))
      goLib_mul goLib_conv).1 (by decide)).trans (congrArg Except.ok (by decide)),
   ((ParseExtendedDuration_suffixes goLib (ascii "3") (by decide)
      (goLib_rejects (ascii "3") (by decide)) (ParseFloat_digits (ascii "3") (by decide))
      goLib_mul goLib_conv).2.2.1 (by decide)).trans (congrArg Except.ok (by decide)),
   (ParseExtendedDuration_suffixes goLib (ascii "3") (by decide)
      (goLib_rejects (ascii "3") (by decide)) (ParseFloat_digits (ascii "3") (by decide))
      goLib_mul goLib_conv).2.2.2.2.2 (ascii "  ") (by decide)⟩

end util
